import Mathlib

/-!
# CPU scheduling simulation: `scheduler.c`

A shallow embedding of the three engines of `scheduler.c`
(`fcfs_metrics`, `sjf_metrics`, `rr_metrics`) and of the comparator
`compareByArrival`, followed by theorems about them.

Conventions of the embedding.

* C `int` values are mathematical integers (`Int`); signed overflow is undefined
  behaviour in C and is outside the model.
* An array `Process proc[]` together with its length `n` is a `List Process`;
  `n` is the length of the list.  Array reads are `List.getD`, array writes are
  `List.set`.
* The `float` accumulators and results are modelled twice.  In `fcfs_metrics`,
  `sjf_metrics` and `rr_metrics` they are exact: the totals are integers and
  `total / n` is the exact rational quotient.  This is the reading "in exact
  arithmetic"; the C code computes these totals as long as none exceeds `2 ^ 24`.
  In `fcfs_metrics_f32`, `sjf_metrics_f32` and `rr_metrics_f32` every `+=` on a
  total and the final division round to single precision (IEEE 754 binary32,
  round to nearest, ties to even, expressions evaluated in `float`), as the C
  code does.  The schedule (clock, start and completion times, queue) is the
  same in both.  In both, the result of `0.0 / 0` (a NaN in C) is `none`.
* `for` loops over an index are folds over the list of index values; the
  `while` loop of `rr_metrics` takes fuel.
-/

namespace Scheduler

/-- Modelled from the spec: the `Process` record of the header `scheduler.h`,
which is not part of the sources at hand.  The fields are the ones
`scheduler.c` reads and writes, all of C type `int`. -/
structure Process where
  pid : Int
  arrivalTime : Int
  burstTime : Int
  remainingTime : Int
  startTime : Int
  completionTime : Int
deriving DecidableEq, Inhabited

/-- Modelled from the spec: the `Metrics` record of the header `scheduler.h`,
three `float` averages in the order of the initialiser `{0.0, 0.0, 0.0}`.
A field is `some q` for the number `q`, and `none` for the NaN that `0.0 / 0`
produces. -/
structure Metrics where
  avgTurnaround : Option ℚ
  avgWaiting : Option ℚ
  avgResponse : Option ℚ
deriving DecidableEq

/-- The quotient `total / n` in exact arithmetic, or NaN (`none`) when `n = 0`.
The C expression with its rounding to `float` is `fdiv_f32`. -/
def fdiv (total : Int) (n : Nat) : Option ℚ :=
  if n = 0 then none else some ((total : ℚ) / (n : ℚ))

/-- Comparator `compareByArrival` handed to `qsort`: arrival time first, pid as
tie-breaker.  It never returns `0`. -/
def compareByArrival (p1 p2 : Process) : Int :=
  if p1.arrivalTime < p2.arrivalTime then -1
  else if p1.arrivalTime > p2.arrivalTime then 1
  else if p1.pid < p2.pid then -1
  else 1

/-- Insertion of one element in front of the first element that does not compare
before it. -/
def qsortInsert (cmp : Process → Process → Int) (a : Process) : List Process → List Process
  | [] => [a]
  | b :: l => if cmp a b < 0 then a :: b :: l else b :: qsortInsert cmp a l

/-- The library routine `qsort`, as an insertion sort driven by the comparator.
On records with pairwise distinct pids `compareByArrival` is a strict total
order, so every correct sorting routine produces this same array. -/
def qsort (cmp : Process → Process → Int) : List Process → List Process
  | [] => []
  | a :: l => qsortInsert cmp a (qsort cmp l)

/-- Array read `processes[i]`. -/
def nth (processes : List Process) (i : Nat) : Process :=
  processes.getD i default

/-- Local variables of `fcfs_metrics` and `sjf_metrics` that live across
iterations of the outer loop.  The three totals, of C type `float`, always hold
integer values. -/
structure LoopState where
  processes : List Process
  currentTime : Int
  totalTurnaround : Int
  totalWaiting : Int
  totalResponse : Int
deriving DecidableEq

/-- State of `fcfs_metrics` and `sjf_metrics` on entry to the outer loop: the
sorted working copy, the clock at `0` and the three totals at `0`. -/
def initLoop (proc : List Process) : LoopState :=
  { processes := qsort compareByArrival proc
    currentTime := 0
    totalTurnaround := 0
    totalWaiting := 0
    totalResponse := 0 }

/-- Lines 39-49, shared verbatim by `fcfs_metrics` and `sjf_metrics` (lines
100-110): run `processes[i]` to completion from `currentTime` and add its three
figures to the totals, in exact arithmetic.  The same lines with the totals in
the C type `float` are `dispatch_f32`. -/
def dispatch (st : LoopState) (currentTime : Int) (i : Nat) : LoopState :=
  let p := nth st.processes i
  let p := { p with startTime := currentTime }
  let currentTime := currentTime + p.burstTime
  let p := { p with completionTime := currentTime }
  let turnaroundTime := p.completionTime - p.arrivalTime
  let waitingTime := turnaroundTime - p.burstTime
  let responseTime := p.startTime - p.arrivalTime
  { processes := st.processes.set i p
    currentTime := currentTime
    totalTurnaround := st.totalTurnaround + turnaroundTime
    totalWaiting := st.totalWaiting + waitingTime
    totalResponse := st.totalResponse + responseTime }

/-- The idle jump of lines 35-37 and 76-78: the clock after
`if (p->arrivalTime > currentTime) currentTime = p->arrivalTime;`
for `p = &processes[i]`. -/
def bumpClock (st : LoopState) (i : Nat) : Int :=
  if (nth st.processes i).arrivalTime > st.currentTime then (nth st.processes i).arrivalTime
  else st.currentTime

/-- Body of the `for` loop of `fcfs_metrics` for index `i`. -/
def fcfsBody (st : LoopState) (i : Nat) : LoopState :=
  dispatch st (bumpClock st i) i

/-- State of `fcfs_metrics` after the first `k` iterations of its loop. -/
def fcfsIter (proc : List Process) (k : Nat) : LoopState :=
  (List.range k).foldl fcfsBody (initLoop proc)

/-- The three final divisions by `n`, in exact arithmetic. -/
def averages (st : LoopState) (n : Nat) : Metrics :=
  { avgTurnaround := fdiv st.totalTurnaround n
    avgWaiting := fdiv st.totalWaiting n
    avgResponse := fdiv st.totalResponse n }

/-- The function `fcfs_metrics(proc, n)` with `n = proc.length`, in exact
arithmetic. -/
def fcfs_metrics (proc : List Process) : Metrics :=
  averages (fcfsIter proc proc.length) proc.length

/-- Inner loop body of `sjf_metrics` (lines 83-86) for index `j`; the sentinel
`shortestIndex == -1` is `none`. -/
def scanStep (processes : List Process) (currentTime : Int) (shortestIndex : Option Nat)
    (j : Nat) : Option Nat :=
  if (nth processes j).arrivalTime ≤ currentTime then
    match shortestIndex with
    | none => some j
    | some s => if (nth processes j).burstTime < (nth processes s).burstTime then some j else some s
  else shortestIndex

/-- The inner loop `for (int j = i; j < n; j++)` of `sjf_metrics`: value of
`shortestIndex` on exit. -/
def findShortest (processes : List Process) (currentTime : Int) (i n : Nat) : Option Nat :=
  (List.range' i (n - i)).foldl (scanStep processes currentTime) none

/-- The exchange of lines 93-95. -/
def swap (processes : List Process) (i s : Nat) : List Process :=
  let temp := nth processes i
  (processes.set i (nth processes s)).set s temp

/-- Body of the outer `for` loop of `sjf_metrics` for index `i`. -/
def sjfBody (n : Nat) (st : LoopState) (i : Nat) : LoopState :=
  let currentTime := bumpClock st i
  match findShortest st.processes currentTime i n with
  | none => { st with currentTime := currentTime }
  | some shortestIndex =>
    let processes := if shortestIndex ≠ i then swap st.processes i shortestIndex else st.processes
    dispatch { st with processes := processes } currentTime i

/-- State of `sjf_metrics` after the first `k` iterations of its outer loop. -/
def sjfIter (proc : List Process) (k : Nat) : LoopState :=
  (List.range k).foldl (sjfBody proc.length) (initLoop proc)

/-- The function `sjf_metrics(proc, n)` with `n = proc.length`, in exact
arithmetic. -/
def sjf_metrics (proc : List Process) : Metrics :=
  averages (sjfIter proc proc.length) proc.length

/-- Input record with the three caller-supplied fields; the simulation fields
are zero. -/
def mkProc (pid arrivalTime burstTime : Int) : Process :=
  { pid := pid, arrivalTime := arrivalTime, burstTime := burstTime
    remainingTime := 0, startTime := 0, completionTime := 0 }

/-- Local variables of `rr_metrics` that live across iterations of its main
loop.  Indices and counters are natural numbers; `ready_queue` is the `n`-slot
circular buffer of indices into `procs`. -/
structure RRState where
  procs : List Process
  ready_queue : List Nat
  q_head : Nat
  q_tail : Nat
  q_count : Nat
  currentTime : Int
  completed_count : Nat
  next_arrival_check_idx : Nat
  totalTurnaroundTime : Int
  totalWaitingTime : Int
  totalResponseTime : Int
deriving DecidableEq

/-- Lines 126-149 of `rr_metrics`: the working copy with `remainingTime` and
`startTime` reset, sorted; an empty queue (the slots of the freshly allocated
buffer are taken as `0`); the clock moved to the first arrival. -/
def rrInit (proc : List Process) : RRState :=
  let procs := proc.map (fun p => { p with remainingTime := p.burstTime, startTime := -1 })
  let procs := qsort compareByArrival procs
  { procs := procs
    ready_queue := List.replicate proc.length 0
    q_head := 0
    q_tail := 0
    q_count := 0
    currentTime :=
      if proc.length > 0 ∧ (nth procs 0).arrivalTime > 0 then (nth procs 0).arrivalTime else 0
    completed_count := 0
    next_arrival_check_idx := 0
    totalTurnaroundTime := 0
    totalWaitingTime := 0
    totalResponseTime := 0 }

/-- The three statements `ready_queue[q_tail] = idx; q_tail = (q_tail + 1) % n;
q_count++;`. -/
def enqueue (n : Nat) (st : RRState) (idx : Nat) : RRState :=
  { st with
    ready_queue := st.ready_queue.set st.q_tail idx
    q_tail := (st.q_tail + 1) % n
    q_count := st.q_count + 1 }

/-- The admission loop of lines 152-157 and 201-206,
`while (next_arrival_check_idx < n && procs[next_arrival_check_idx].arrivalTime <= currentTime)`.
The first argument bounds the number of iterations; the loop is always run with
the bound `n - next_arrival_check_idx`, which it cannot exceed. -/
def admissionLoop (n : Nat) : Nat → RRState → RRState
  | 0, st => st
  | bound + 1, st =>
    if st.next_arrival_check_idx < n ∧
        (nth st.procs st.next_arrival_check_idx).arrivalTime ≤ st.currentTime then
      admissionLoop n bound
        { enqueue n st st.next_arrival_check_idx with
          next_arrival_check_idx := st.next_arrival_check_idx + 1 }
    else st

/-- The admission loop, run from the current cursor. -/
def admission (n : Nat) (st : RRState) : RRState :=
  admissionLoop n (n - st.next_arrival_check_idx) st

/-- Lines 170-172: the index read at `q_head`, and the state after the head
moved on. -/
def dequeue (n : Nat) (st : RRState) : Nat × RRState :=
  (st.ready_queue.getD st.q_head 0,
   { st with q_head := (st.q_head + 1) % n, q_count := st.q_count - 1 })

/-- Lines 176-178: the first dispatch of a process records its start time. -/
def markStart (p : Process) (currentTime : Int) : Process :=
  if p.startTime = -1 then { p with startTime := currentTime } else p

/-- One pass through the body of the main loop of `rr_metrics` (lines 152-211),
with the totals in exact arithmetic.  The flag is `true` when the pass left the
loop through `break`.  The same pass with the totals in the C type `float` is
`rrBody_f32`. -/
def rrBody (n : Nat) (timeQuantum : Int) (st0 : RRState) : RRState × Bool :=
  let st := admission n st0
  if st.q_count = 0 then
    if st.completed_count < n then
      if st.next_arrival_check_idx < n then
        ({ st with currentTime := (nth st.procs st.next_arrival_check_idx).arrivalTime }, false)
      else (st, true)
    else (st, false)
  else
    let (current_proc_array_idx, st) := dequeue n st
    let current_p := markStart (nth st.procs current_proc_array_idx) st.currentTime
    if current_p.remainingTime ≤ timeQuantum then
      let time_slice_used := current_p.remainingTime
      let currentTime := st.currentTime + time_slice_used
      let current_p := { current_p with remainingTime := 0, completionTime := currentTime }
      let turnaroundTime := current_p.completionTime - current_p.arrivalTime
      let waitingTime := turnaroundTime - current_p.burstTime
      let responseTime := current_p.startTime - current_p.arrivalTime
      ({ st with
         procs := st.procs.set current_proc_array_idx current_p
         currentTime := currentTime
         completed_count := st.completed_count + 1
         totalTurnaroundTime := st.totalTurnaroundTime + turnaroundTime
         totalWaitingTime := st.totalWaitingTime + waitingTime
         totalResponseTime := st.totalResponseTime + responseTime }, false)
    else
      let time_slice_used := timeQuantum
      let currentTime := st.currentTime + time_slice_used
      let current_p := { current_p with remainingTime := current_p.remainingTime - time_slice_used }
      let st := { st with
                  procs := st.procs.set current_proc_array_idx current_p
                  currentTime := currentTime }
      let st := admission n st
      (enqueue n st current_proc_array_idx, false)

/-- The main loop `while (completed_count < n)` of `rr_metrics`, with fuel: the
state on exit, or `none` when the fuel runs out before the loop ends. -/
def rrLoop (n : Nat) (timeQuantum : Int) : Nat → RRState → Option RRState
  | 0, st => if st.completed_count < n then none else some st
  | fuel + 1, st =>
    if st.completed_count < n then
      match rrBody n timeQuantum st with
      | (st', true) => some st'
      | (st', false) => rrLoop n timeQuantum fuel st'
    else some st

/-- The function `rr_metrics(proc, n, timeQuantum)` with `n = proc.length`, in
exact arithmetic; `none` when the main loop has not ended within `fuel`
passes. -/
def rr_metrics (fuel : Nat) (proc : List Process) (timeQuantum : Int) : Option Metrics :=
  (rrLoop proc.length timeQuantum fuel (rrInit proc)).map fun st =>
    { avgTurnaround := fdiv st.totalTurnaroundTime proc.length
      avgWaiting := fdiv st.totalWaitingTime proc.length
      avgResponse := fdiv st.totalResponseTime proc.length }

/-- The state at the head of the main loop of `rr_metrics` after `k` complete
passes from `st`, or `none` when the loop has ended before. -/
def rrIter (n : Nat) (timeQuantum : Int) : Nat → RRState → Option RRState
  | 0, st => some st
  | k + 1, st =>
    if st.completed_count < n then
      match rrBody n timeQuantum st with
      | (_, true) => none
      | (st', false) => rrIter n timeQuantum k st'
    else none

/-- The ready queue read off the circular buffer, head first. -/
def queueList (n : Nat) (st : RRState) : List Nat :=
  (List.range st.q_count).map fun k => st.ready_queue.getD ((st.q_head + k) % n) 0

/-- Valid input of the engines: pairwise distinct pids, no negative arrival
time, positive burst times. -/
def Valid (proc : List Process) : Prop :=
  (proc.map Process.pid).Nodup ∧ ∀ p ∈ proc, 0 ≤ p.arrivalTime ∧ 0 < p.burstTime

instance (proc : List Process) : Decidable (Valid proc) :=
  inferInstanceAs (Decidable (_ ∧ _))

/-- Sum of the burst times of an array. -/
def sumBurst (proc : List Process) : Int :=
  (proc.map Process.burstTime).sum

/-- Mean burst time of the input, in exact arithmetic. -/
def avgBurst (proc : List Process) : ℚ :=
  (sumBurst proc : ℚ) / (proc.length : ℚ)

/-- The arrival ordering: earlier arrival first, lower pid first among equal
arrivals. -/
def ArrivesBefore (a b : Process) : Prop :=
  a.arrivalTime < b.arrivalTime ∨ (a.arrivalTime = b.arrivalTime ∧ a.pid < b.pid)

instance (a b : Process) : Decidable (ArrivesBefore a b) :=
  inferInstanceAs (Decidable (_ ∨ _))

/-- Turnaround time of a finished record, `completionTime - arrivalTime`. -/
def turnaround (p : Process) : Int := p.completionTime - p.arrivalTime

/-- Waiting time of a finished record, turnaround minus burst. -/
def waiting (p : Process) : Int := p.completionTime - p.arrivalTime - p.burstTime

/-- Response time of a finished record, `startTime - arrivalTime`. -/
def response (p : Process) : Int := p.startTime - p.arrivalTime

/-- Arithmetic mean of a list of integers in exact arithmetic; undefined (`none`)
for the empty list. -/
def mean (xs : List Int) : Option ℚ :=
  if xs.length = 0 then none else some ((xs.sum : ℚ) / (xs.length : ℚ))

/-- The FCFS timeline as the specification words it: the processes run in the
given order, each one starting at the later of its arrival and the completion
of its predecessor (`clock`, which is `0` for the first one), and completing one
burst later. -/
def fcfsTimeline (clock : Int) : List Process → List Process
  | [] => []
  | p :: rest =>
    let start := max p.arrivalTime clock
    let completion := start + p.burstTime
    { p with startTime := start, completionTime := completion } :: fcfsTimeline completion rest

/-- Completion time of the last process of the FCFS timeline (`clock` when there
is none). -/
def fcfsClock (clock : Int) : List Process → Int
  | [] => clock
  | p :: rest => fcfsClock (max p.arrivalTime clock + p.burstTime) rest

/-- The caller-supplied part of a record: pid, arrival time and burst time. -/
def ident (p : Process) : Int × Int × Int :=
  (p.pid, p.arrivalTime, p.burstTime)

/-- Loop invariant of `sjf_metrics` at the head of iteration `k`: the working
array still holds the input records; within the unscheduled window `[k, n)` a
record is either already arrived or not later than every record behind it; the
waiting total is the turnaround total minus the bursts of the `k` scheduled
records, and equals the response total; a scheduled record started no earlier
than it arrived and completed one burst after it started. -/
structure SjfInv (proc : List Process) (k : Nat) (st : LoopState) : Prop where
  len : st.processes.length = proc.length
  perm : (st.processes.map ident).Perm (proc.map ident)
  win : ∀ j₁ j₂, k ≤ j₁ → j₁ < j₂ → j₂ < proc.length →
    (nth st.processes j₁).arrivalTime ≤ st.currentTime ∨
    (nth st.processes j₁).arrivalTime ≤ (nth st.processes j₂).arrivalTime
  tot : st.totalWaiting = st.totalTurnaround - sumBurst (st.processes.take k)
  resp : st.totalResponse = st.totalWaiting
  run : ∀ j, j < k →
    (nth st.processes j).completionTime
      = (nth st.processes j).startTime + (nth st.processes j).burstTime
  late : ∀ j, j < k → (nth st.processes j).arrivalTime ≤ (nth st.processes j).startTime

/-- Well-formedness of the circular buffer of `rr_metrics`: `n` slots, the head
inside the buffer, the tail `q_count` slots behind the head, at most `n`
entries. -/
structure QueueOK (n : Nat) (st : RRState) : Prop where
  buf : st.ready_queue.length = n
  head : st.q_head < n
  tail : st.q_tail = (st.q_head + st.q_count) % n
  count : st.q_count ≤ n

/-- Sum of the remaining times of an array. -/
def sumRemaining (procs : List Process) : Int :=
  (procs.map Process.remainingTime).sum

/-- Sum of the burst times of the records whose remaining time is `0`. -/
def doneBurst (procs : List Process) : Int :=
  (procs.map fun p => if p.remainingTime = 0 then p.burstTime else 0).sum

/-- Loop invariant of `rr_metrics` at the head of its main loop, relative to the
sorted working copy `procs0` the loop started from. -/
structure RRInv (procs0 : List Process) (st : RRState) : Prop where
  len : st.procs.length = procs0.length
  key : ∀ i, ident (nth st.procs i) = ident (nth procs0 i)
  queue : QueueOK procs0.length st
  next_le : st.next_arrival_check_idx ≤ procs0.length
  nodup : (queueList procs0.length st).Nodup
  queued : ∀ x ∈ queueList procs0.length st,
    x < st.next_arrival_check_idx ∧ 0 < (nth st.procs x).remainingTime
  done : ∀ i, i < st.next_arrival_check_idx → i ∉ queueList procs0.length st →
    (nth st.procs i).remainingTime = 0
  fresh : ∀ i, st.next_arrival_check_idx ≤ i → i < procs0.length →
    (nth st.procs i).remainingTime = (nth st.procs i).burstTime ∧
    (nth st.procs i).startTime = -1
  rem : ∀ i, i < procs0.length →
    0 ≤ (nth st.procs i).remainingTime ∧
    (nth st.procs i).remainingTime ≤ (nth st.procs i).burstTime
  cnt : st.completed_count + st.q_count = st.next_arrival_check_idx
  tot : st.totalWaitingTime = st.totalTurnaroundTime - doneBurst st.procs
  arrived : ∀ i, i < st.next_arrival_check_idx →
    (nth st.procs i).arrivalTime ≤ st.currentTime

/-- What the invariant of `rr_metrics` needs of the sorted working copy: positive
burst times and non-decreasing arrival times. -/
structure RRStatic (procs0 : List Process) : Prop where
  pos : ∀ i, i < procs0.length → 0 < (nth procs0 i).burstTime
  sorted : ∀ i j, i < j → j < procs0.length →
    (nth procs0 i).arrivalTime ≤ (nth procs0 j).arrivalTime

/-- Termination measure of the main loop of `rr_metrics`: twice the work left,
plus one when the next pass finds the queue empty. -/
def rrMeasure (n : Nat) (st : RRState) : Nat :=
  2 * (sumRemaining st.procs).toNat + (if (admission n st).q_count = 0 then 1 else 0)

/-- The index that the dispatch of lines 170-172 reads at the head of the queue
of `s`, the state after the admission loop. -/
def headIdx (n : Nat) (s : RRState) : Nat :=
  (dequeue n s).1

/-- The record `*current_p` after lines 174-178: the record at the head of the
queue of `s`, with its start time recorded on its first dispatch. -/
def current (n : Nat) (s : RRState) : Process :=
  markStart (nth s.procs (headIdx n s)) s.currentTime

/-- The state that the idle branch of the loop body (lines 159-168) leaves from
`s`, the state after the admission loop: the clock is moved to the arrival of the
record under the cursor. -/
def idleJump (s : RRState) : RRState :=
  { s with currentTime := (nth s.procs s.next_arrival_check_idx).arrivalTime }

/-- The state that the completing branch of the loop body (lines 181-195) leaves
from `s`, the state after the admission loop. -/
def finish (n : Nat) (s : RRState) : RRState :=
  { (dequeue n s).2 with
    procs := s.procs.set (headIdx n s)
      { current n s with
        remainingTime := 0
        completionTime := s.currentTime + (current n s).remainingTime }
    currentTime := s.currentTime + (current n s).remainingTime
    completed_count := s.completed_count + 1
    totalTurnaroundTime := s.totalTurnaroundTime +
      (s.currentTime + (current n s).remainingTime - (current n s).arrivalTime)
    totalWaitingTime := s.totalWaitingTime +
      (s.currentTime + (current n s).remainingTime - (current n s).arrivalTime
        - (current n s).burstTime)
    totalResponseTime := s.totalResponseTime +
      ((current n s).startTime - (current n s).arrivalTime) }

/-- The state of the preempting branch of the loop body after lines 198-199:
the head is dequeued from `s`, a quantum is charged to it and the clock has
advanced by the quantum. -/
def charge (n : Nat) (timeQuantum : Int) (s : RRState) : RRState :=
  { (dequeue n s).2 with
    procs := s.procs.set (headIdx n s)
      { current n s with remainingTime := (current n s).remainingTime - timeQuantum }
    currentTime := s.currentTime + timeQuantum }

/-- The state that the preempting branch of the loop body (lines 197-211) leaves
from `s`: after the charge, the admission loop runs and the preempted index is
written at the tail. -/
def preempt (n : Nat) (timeQuantum : Int) (s : RRState) : RRState :=
  enqueue n (admission n (charge n timeQuantum s)) (headIdx n s)

/-- The identity `avgWaiting = avgTurnaround - avgBurst` on a returned record:
both averages are numbers (not NaN) and differ by the mean burst time of the
input. -/
def WaitingIdentity (proc : List Process) (m : Metrics) : Prop :=
  ∃ t w : ℚ, m.avgTurnaround = some t ∧ m.avgWaiting = some w ∧ w = t - avgBurst proc

/-- Two processes arriving together at time `0`: pid 1 with burst 5 and pid 2
with burst 3. -/
def twoAtZero : List Process := [mkProc 1 0 5, mkProc 2 0 3]

/-- The not-yet-scheduled records of `sjf_metrics` at the head of iteration `i`
of its outer loop: the slots `[i, n)` of the working array. -/
def sjfWindow (proc : List Process) (i : Nat) : List Process :=
  (sjfIter proc i).processes.drop i

/-- The clock of `sjf_metrics` at the decision of iteration `i`, that is after
the idle jump of lines 76-78. -/
def sjfClock (proc : List Process) (i : Nat) : Int :=
  bumpClock (sjfIter proc i) i

/-- The value of `shortestIndex` after the selection loop of iteration `i`. -/
def sjfChoice (proc : List Process) (i : Nat) : Option Nat :=
  findShortest (sjfIter proc i).processes (sjfClock proc i) i proc.length

/-- The record dispatched in iteration `i` of `sjf_metrics`, if any, as it
stands in the working array before the exchange. -/
def sjfDispatched (proc : List Process) (i : Nat) : Option Process :=
  (sjfChoice proc i).map (nth (sjfIter proc i).processes)

/-- The records dispatched by `sjf_metrics`, in the order of dispatch. -/
def sjfDispatchList (proc : List Process) : List Process :=
  (List.range proc.length).filterMap (sjfDispatched proc)

/-- One process arriving at `3` with burst 2 and one arriving at `10` with
burst 1: the processor idles from `5` to `10`. -/
def idleGap : List Process := [mkProc 1 3 2, mkProc 2 10 1]

/-- Two processes arriving together at time `0`: pid 1 with burst 4 and pid 2
with burst 2. -/
def tieAtZero : List Process := [mkProc 1 0 4, mkProc 2 0 2]

/-- Three processes arriving together at time `0`: pid 1 and pid 2 with burst 5,
pid 3 with burst 1. -/
def tieAfterExchange : List Process := [mkProc 1 0 5, mkProc 2 0 5, mkProc 3 0 1]

/-- One process arriving at `0` with burst 4 and one arriving at `2` with
burst 2. -/
def arrivalDuringSlice : List Process := [mkProc 1 0 4, mkProc 2 2 2]

/-- The state at the head of the main loop of `rr_metrics` run on the single
record `p`, after that record has been preempted at least once and has `r` time
units left. -/
def singleState (p : Process) (r : Int) : RRState :=
  { procs := [{ p with remainingTime := r, startTime := p.arrivalTime }]
    ready_queue := [0]
    q_head := 0
    q_tail := 0
    q_count := 1
    currentTime := p.arrivalTime + (p.burstTime - r)
    completed_count := 0
    next_arrival_check_idx := 1
    totalTurnaroundTime := 0
    totalWaitingTime := 0
    totalResponseTime := 0 }

/-- The state in which the main loop of `rr_metrics` run on the single record `p`
completes that record. -/
def singleFinal (p : Process) : RRState :=
  { procs := [{ p with remainingTime := 0, startTime := p.arrivalTime
                       completionTime := p.arrivalTime + p.burstTime }]
    ready_queue := [0]
    q_head := 0
    q_tail := 0
    q_count := 0
    currentTime := p.arrivalTime + p.burstTime
    completed_count := 1
    next_arrival_check_idx := 1
    totalTurnaroundTime := p.burstTime
    totalWaitingTime := 0
    totalResponseTime := 0 }

/-- The record with `avgTurnaround = b`, `avgWaiting = 0` and `avgResponse = 0`. -/
def singleMetrics (b : Int) : Metrics :=
  { avgTurnaround := some (b : ℚ), avgWaiting := some 0, avgResponse := some 0 }

/-- Invariant of the main loop of `rr_metrics` under a quantum `timeQuantum ≤ 0`:
no process has completed, every admitted index is in the queue, the queue
holds indices of the array, and every record has work left. -/
structure StuckInv (n : Nat) (st : RRState) : Prop where
  len : st.procs.length = n
  queue : QueueOK n st
  next_le : st.next_arrival_check_idx ≤ n
  cnt : st.q_count = st.next_arrival_check_idx
  none_done : st.completed_count = 0
  inb : ∀ x ∈ queueList n st, x < n
  rem : ∀ i, i < n → 1 ≤ (nth st.procs i).remainingTime

/-- One process arriving at `0` with burst 5. -/
def oneAtZero : List Process := [mkProc 1 0 5]

/-- One process with the negative arrival time `-3` and burst 2. -/
def negativeArrival : List Process := [mkProc 1 (-3) 2]

/-- One process arriving at `0` with burst time `0`. -/
def zeroBurst : List Process := [mkProc 1 0 0]

/-- Two processes with the same pid 1: arrival 0 with burst 2, and arrival 5 with
burst 3. -/
def duplicatePid : List Process := [mkProc 1 0 2, mkProc 1 5 3]

/-- Timing invariant of `rr_metrics`, on the working array and the clock: a
record that has been given a slice started no earlier than it arrived; a record
that has not been given a slice has no start time; the slices given to an
unfinished record fit between its start and the clock; a finished record
completed at least one burst after it started. -/
structure RRTimes (procs : List Process) (clock : Int) : Prop where
  begun : ∀ i, i < procs.length →
    (nth procs i).remainingTime < (nth procs i).burstTime →
    (nth procs i).arrivalTime ≤ (nth procs i).startTime
  unbegun : ∀ i, i < procs.length →
    (nth procs i).remainingTime = (nth procs i).burstTime →
    (nth procs i).startTime = -1
  prog : ∀ i, i < procs.length → 0 < (nth procs i).remainingTime →
    (nth procs i).remainingTime < (nth procs i).burstTime →
    (nth procs i).startTime
      + ((nth procs i).burstTime - (nth procs i).remainingTime) ≤ clock
  fin : ∀ i, i < procs.length → (nth procs i).remainingTime = 0 →
    (nth procs i).startTime + (nth procs i).burstTime ≤ (nth procs i).completionTime

/-- A finished record started no earlier than it arrived and completed no
earlier than one burst after its arrival. -/
def TimesOK (p : Process) : Prop :=
  p.arrivalTime ≤ p.startTime ∧ p.arrivalTime + p.burstTime ≤ p.completionTime

/-- None of the three totals of `fcfs_metrics` or `sjf_metrics` is smaller in `b`
than in `a`. -/
def TotalsLe (a b : LoopState) : Prop :=
  a.totalTurnaround ≤ b.totalTurnaround ∧ a.totalWaiting ≤ b.totalWaiting ∧
  a.totalResponse ≤ b.totalResponse

/-- None of the three totals of `rr_metrics` is smaller in `b` than in `a`. -/
def RRTotalsLe (a b : RRState) : Prop :=
  a.totalTurnaroundTime ≤ b.totalTurnaroundTime ∧ a.totalWaitingTime ≤ b.totalWaitingTime ∧
  a.totalResponseTime ≤ b.totalResponseTime

/-- The record with only its caller-supplied fields: `remainingTime`,
`startTime` and `completionTime` are cleared. -/
def core (p : Process) : Process :=
  mkProc p.pid p.arrivalTime p.burstTime

/-- The loop state of `fcfs_metrics` or `sjf_metrics` with the simulation fields
of every record of the working array cleared. -/
def eraseLoop (st : LoopState) : LoopState :=
  { st with processes := st.processes.map core }

/-- The input `twoAtZero` with arbitrary values in the simulation fields. -/
def twoAtZeroDirty : List Process :=
  [{ pid := 1, arrivalTime := 0, burstTime := 5, remainingTime := 9, startTime := 7,
     completionTime := 3 },
   { pid := 2, arrivalTime := 0, burstTime := 3, remainingTime := -4, startTime := -1,
     completionTime := 11 }]

/-- The record with its `completionTime` cleared. -/
def clearCompletion (p : Process) : Process :=
  { p with completionTime := 0 }

/-- The state of `rr_metrics` with the completion time of every record of the
working array cleared. -/
def eraseRR (st : RRState) : RRState :=
  { st with procs := st.procs.map clearCompletion }

/-- The index that the pass of the main loop of `rr_metrics` from `st`
dispatches (lines 170-172), or `none` when the pass finds the queue empty. -/
def dispatched (n : Nat) (st : RRState) : Option Nat :=
  if (admission n st).q_count = 0 then none else some (headIdx n (admission n st))

/-- The value of `time_slice_used` (lines 182 and 198) in the pass from `st`. -/
def sliceUsed (n : Nat) (timeQuantum : Int) (st : RRState) : Int :=
  if (current n (admission n st)).remainingTime ≤ timeQuantum then
    (current n (admission n st)).remainingTime
  else timeQuantum

/-- The processor time that the pass from `st` gives to the record at index `i`:
the slice when `i` is dispatched, nothing otherwise. -/
def sliceOf (n : Nat) (timeQuantum : Int) (st : RRState) (i : Nat) : Int :=
  if dispatched n st = some i then sliceUsed n timeQuantum st else 0

/-- The pass from `st` takes the completing branch (lines 181-195) for the
record at index `i`. -/
def completesIn (n : Nat) (timeQuantum : Int) (st : RRState) (i : Nat) : Prop :=
  dispatched n st = some i ∧ (current n (admission n st)).remainingTime ≤ timeQuantum

instance (n : Nat) (timeQuantum : Int) (st : RRState) (i : Nat) :
    Decidable (completesIn n timeQuantum st i) :=
  inferInstanceAs (Decidable (_ ∧ _))

/-- The state after up to `k` passes of the main loop of `rr_metrics` from `st`;
the state the loop ends in when it ends within `k` passes. -/
def rrRun (n : Nat) (timeQuantum : Int) : Nat → RRState → RRState
  | 0, st => st
  | k + 1, st =>
    if st.completed_count < n then rrRun n timeQuantum k (rrBody n timeQuantum st).1 else st

/-- The sum of the slices given to the record at index `i` in the first `k`
passes of the main loop from `st`. -/
def served (n : Nat) (timeQuantum : Int) (i : Nat) : Nat → RRState → Int
  | 0, _ => 0
  | k + 1, st =>
    if st.completed_count < n then
      sliceOf n timeQuantum st i + served n timeQuantum i k (rrBody n timeQuantum st).1
    else 0

/-- The number of times the record at index `i` is marked complete in the first
`k` passes of the main loop from `st`. -/
def completions (n : Nat) (timeQuantum : Int) (i : Nat) : Nat → RRState → Nat
  | 0, _ => 0
  | k + 1, st =>
    if st.completed_count < n then
      (if completesIn n timeQuantum st i then 1 else 0)
        + completions n timeQuantum i k (rrBody n timeQuantum st).1
    else 0

/-- The input `twoAtZero` listed in the other order. -/
def twoAtZeroSwapped : List Process := [mkProc 2 0 3, mkProc 1 0 5]

/-- The condition of the admission loop (lines 152 and 201):
`next_arrival_check_idx < n && procs[next_arrival_check_idx].arrivalTime <= currentTime`. -/
def admits (n : Nat) (st : RRState) : Prop :=
  st.next_arrival_check_idx < n ∧
    (nth st.procs st.next_arrival_check_idx).arrivalTime ≤ st.currentTime

instance (n : Nat) (st : RRState) : Decidable (admits n st) :=
  inferInstanceAs (Decidable (_ ∧ _))

/-- The slot at `q_tail` holds no entry that waits to be dequeued: it is none of
the `q_count` slots counted from `q_head`. -/
def TailFree (n : Nat) (st : RRState) : Prop :=
  ∀ k, k < st.q_count → (st.q_head + k) % n ≠ st.q_tail

instance (n : Nat) (st : RRState) : Decidable (TailFree n st) :=
  inferInstanceAs (Decidable (∀ k, k < st.q_count → _))

/-- No index is in the ready queue twice, and the entries of the queue and the
completed processes together are at most `n`. -/
def QueuePoint (n : Nat) (st : RRState) : Prop :=
  (queueList n st).Nodup ∧ st.q_count + st.completed_count ≤ n

instance (n : Nat) (st : RRState) : Decidable (QueuePoint n st) :=
  inferInstanceAs (Decidable (_ ∧ _))

/-- The invariant of the ready queue at any point of the loop body of
`rr_metrics`; `d` is the number of admitted processes that are neither in the
queue nor completed: `1` between the dequeue and the end of the pass, `0`
elsewhere. -/
structure QueueInv (n d : Nat) (st : RRState) : Prop where
  ok : QueueOK n st
  nodup : (queueList n st).Nodup
  below : ∀ x ∈ queueList n st, x < st.next_arrival_check_idx
  cnt : st.q_count + st.completed_count + d = st.next_arrival_check_idx
  next_le : st.next_arrival_check_idx ≤ n

/-- The invariant of `rr_metrics` at the head of its main loop when no record
can be preempted: the queue holds the admitted indices from `completed_count`
on, in increasing order; the records from `completed_count` on have not been
touched; the clock lies between the completion of the FCFS timeline of the
completed records and the start of the next record in that timeline; the
completed records carry the start and completion times of the FCFS timeline of
the sorted array `procs0`; the totals are the sums over that timeline. -/
structure FcfsLike (procs0 : List Process) (st : RRState) : Prop where
  queue : queueList procs0.length st
    = List.range' st.completed_count (st.next_arrival_check_idx - st.completed_count)
  untouched : ∀ i, st.completed_count ≤ i → i < procs0.length →
    (nth st.procs i).remainingTime = (nth st.procs i).burstTime ∧
    (nth st.procs i).startTime = -1
  clock_ge : fcfsClock 0 (procs0.take st.completed_count) ≤ st.currentTime
  clock_le : st.completed_count < procs0.length →
    st.currentTime ≤ max (nth procs0 st.completed_count).arrivalTime
      (fcfsClock 0 (procs0.take st.completed_count))
  times : ∀ i, i < st.completed_count →
    (nth st.procs i).startTime = (nth (fcfsTimeline 0 procs0) i).startTime ∧
    (nth st.procs i).completionTime = (nth (fcfsTimeline 0 procs0) i).completionTime
  tt : st.totalTurnaroundTime
    = ((fcfsTimeline 0 (procs0.take st.completed_count)).map turnaround).sum
  tw : st.totalWaitingTime
    = ((fcfsTimeline 0 (procs0.take st.completed_count)).map waiting).sum
  tr : st.totalResponseTime
    = ((fcfsTimeline 0 (procs0.take st.completed_count)).map response).sum

/-- Lines 129-132 of `rr_metrics` on one record: `remainingTime` is set to the
burst time and `startTime` to `-1`. -/
def resetProc (p : Process) : Process :=
  { p with remainingTime := p.burstTime, startTime := -1 }

/-- The order of the reference SJF: by burst time, then by arrival time, then by
pid. -/
def refLess (a b : Process) : Prop :=
  a.burstTime < b.burstTime ∨
    (a.burstTime = b.burstTime ∧
      (a.arrivalTime < b.arrivalTime ∨ (a.arrivalTime = b.arrivalTime ∧ a.pid < b.pid)))

instance (a b : Process) : Decidable (refLess a b) :=
  inferInstanceAs (Decidable (_ ∨ _))

/-- The record of a list that is minimal by `(burstTime, arrivalTime, pid)`. -/
def refMin : List Process → Option Process
  | [] => none
  | p :: l =>
    match refMin l with
    | none => some p
    | some m => if refLess m p then some m else some p

/-- The earliest arrival time of a list of records. -/
def refEarliest : List Process → Option Int
  | [] => none
  | p :: l =>
    match refEarliest l with
    | none => some p.arrivalTime
    | some a => some (min p.arrivalTime a)

/-- State of the reference SJF: the set of unscheduled processes, the clock and
the three totals. -/
structure RefState where
  unscheduled : List Process
  currentTime : Int
  totalTurnaround : Int
  totalWaiting : Int
  totalResponse : Int
deriving DecidableEq

/-- The clock of the reference SJF at its next decision: the current time when
an unscheduled process has arrived, the earliest unscheduled arrival when none
has. -/
def refClock (st : RefState) : Int :=
  if st.unscheduled.any (fun p => p.arrivalTime ≤ st.currentTime) then st.currentTime
  else (refEarliest st.unscheduled).getD st.currentTime

/-- The process the reference SJF picks at its next decision: among the
unscheduled processes arrived by the clock, the one minimal by
`(burstTime, arrivalTime, pid)`. -/
def refChoice (st : RefState) : Option Process :=
  refMin (st.unscheduled.filter fun p => p.arrivalTime ≤ refClock st)

/-- One decision of the reference non-preemptive SJF: the picked process is
taken out of the set of unscheduled processes and run to completion from the
clock of the decision. -/
def refStep (st : RefState) : RefState :=
  match refChoice st with
  | none => st
  | some p =>
    { unscheduled := st.unscheduled.erase p
      currentTime := refClock st + p.burstTime
      totalTurnaround := st.totalTurnaround + (refClock st + p.burstTime - p.arrivalTime)
      totalWaiting :=
        st.totalWaiting + (refClock st + p.burstTime - p.arrivalTime - p.burstTime)
      totalResponse := st.totalResponse + (refClock st - p.arrivalTime) }

/-- The reference SJF after `k` decisions on the input `proc`, started at time
`0` with every process unscheduled. -/
def refRun (proc : List Process) : Nat → RefState
  | 0 =>
    { unscheduled := proc, currentTime := 0, totalTurnaround := 0, totalWaiting := 0
      totalResponse := 0 }
  | k + 1 => refStep (refRun proc k)

/-- The `Metrics` of the reference SJF: the averages of its totals after one
decision per process. -/
def sjf_reference (proc : List Process) : Metrics :=
  { avgTurnaround := fdiv (refRun proc proc.length).totalTurnaround proc.length
    avgWaiting := fdiv (refRun proc proc.length).totalWaiting proc.length
    avgResponse := fdiv (refRun proc proc.length).totalResponse proc.length }

/-- What a scheduler sees of an unscheduled record at time `c`: the time from
which it can run and its burst time. -/
def eff (c : Int) (p : Process) : Int × Int :=
  (max p.arrivalTime c, p.burstTime)

/-- Sum of the arrival times of a list of records. -/
def sumArrival (l : List Process) : Int :=
  (l.map Process.arrivalTime).sum

/-- One decision of a non-preemptive SJF scheduler, whatever its tie-break: from
the clock `c` and the unscheduled records `W`, the clock moves to `c1`, the
earliest time at which a record of `W` can run, and `x`, a record of least burst
time among the records of `W` arrived by `c1`, is taken out, leaving `W'`. -/
structure SjfStep (c : Int) (W : List Process) (c1 : Int) (x : Process)
    (W' : List Process) : Prop where
  perm : W.Perm (x :: W')
  clock_ge : c ≤ c1
  clock_min : ∀ p ∈ W, c1 ≤ max p.arrivalTime c
  arrived : x.arrivalTime ≤ c1
  shortest : ∀ p ∈ W, p.arrivalTime ≤ c1 → x.burstTime ≤ p.burstTime

/-! ## The engines in single precision -/

/-- The number of low-order bits of `a` beyond the 24 bits that the significand
of a `float` holds: the least `s` with `a / 2 ^ s < 2 ^ 24`.  The second
argument bounds the recursion; `a` itself is enough. -/
def excessBits (a : Nat) : Nat → Nat
  | 0 => 0
  | bound + 1 => if a < 2 ^ 24 then 0 else excessBits (a / 2) bound + 1

/-- Conversion of an integer to the C type `float` (IEEE 754 binary32), and the
rounding of an integer-valued result to `float`: the nearest integer with a
24-bit significand, ties to the even significand.  The magnitudes that occur are
far below the overflow threshold `2 ^ 128`. -/
def f32 (x : Int) : Int :=
  let sh := excessBits x.natAbs x.natAbs
  let m := x.natAbs / 2 ^ sh
  let r := x.natAbs % 2 ^ sh
  let m' := if 2 * r < 2 ^ sh then m else if 2 ^ sh < 2 * r then m + 1
            else if m % 2 = 0 then m else m + 1
  x.sign * ((m' * 2 ^ sh : Nat) : Int)

/-- Rounding of a rational result to the C type `float`: the nearest number
`m * 2 ^ (e - 23)` with a 24-bit significand `m`, ties to the even significand.
The magnitudes that occur are quotients of integers below `2 ^ 128` by counts of
at most `2 ^ 31`, inside the normal range of `float`. -/
def f32q (x : ℚ) : ℚ :=
  if x = 0 then 0
  else
    let e := Int.log 2 |x|
    let t := |x| * 2 ^ (23 - e)
    let m := ⌊t⌋
    let m' := if 2 * (t - m) < 1 then m else if 1 < 2 * (t - m) then m + 1
              else if m % 2 = 0 then m else m + 1
    (if x < 0 then -1 else 1) * (m' : ℚ) * 2 ^ (e - 23)

/-- The C statement `total += x` for a `float total` holding an integer value and
an `int x`: `x` is converted to `float` and the sum is rounded to `float`. -/
def fadd (total x : Int) : Int :=
  f32 (total + f32 x)

/-- The C expression `total / n` for a `float total` and an `int n`: `n` is
converted to `float` and the quotient is rounded to `float`; `0.0 / 0` is a NaN
(`none`). -/
def fdiv_f32 (total : Int) (n : Nat) : Option ℚ :=
  if n = 0 then none else some (f32q ((total : ℚ) / ((f32 (n : Int) : Int) : ℚ)))

/-- The `float` sum of a list of `int` values, accumulated from `0` in the order
of the list. -/
def fsum (xs : List Int) : Int :=
  xs.foldl fadd 0

/-- Lines 39-49 of `fcfs_metrics` and 100-110 of `sjf_metrics` with the three
accumulators in the C type `float`, as declared in the source: the same run of
`processes[i]`, each figure added to its total in single precision. -/
def dispatch_f32 (st : LoopState) (currentTime : Int) (i : Nat) : LoopState :=
  let p := nth st.processes i
  let p := { p with startTime := currentTime }
  let currentTime := currentTime + p.burstTime
  let p := { p with completionTime := currentTime }
  let turnaroundTime := p.completionTime - p.arrivalTime
  let waitingTime := turnaroundTime - p.burstTime
  let responseTime := p.startTime - p.arrivalTime
  { processes := st.processes.set i p
    currentTime := currentTime
    totalTurnaround := fadd st.totalTurnaround turnaroundTime
    totalWaiting := fadd st.totalWaiting waitingTime
    totalResponse := fadd st.totalResponse responseTime }

/-- Body of the `for` loop of `fcfs_metrics` for index `i`, in single
precision. -/
def fcfsBody_f32 (st : LoopState) (i : Nat) : LoopState :=
  dispatch_f32 st (bumpClock st i) i

/-- State of `fcfs_metrics` after the first `k` iterations of its loop, in single
precision. -/
def fcfsIter_f32 (proc : List Process) (k : Nat) : LoopState :=
  (List.range k).foldl fcfsBody_f32 (initLoop proc)

/-- The three final divisions by `n`, in single precision. -/
def averages_f32 (st : LoopState) (n : Nat) : Metrics :=
  { avgTurnaround := fdiv_f32 st.totalTurnaround n
    avgWaiting := fdiv_f32 st.totalWaiting n
    avgResponse := fdiv_f32 st.totalResponse n }

/-- The function `fcfs_metrics(proc, n)` with `n = proc.length`, with its `float`
accumulators and `float` results in single precision. -/
def fcfs_metrics_f32 (proc : List Process) : Metrics :=
  averages_f32 (fcfsIter_f32 proc proc.length) proc.length

/-- Body of the outer `for` loop of `sjf_metrics` for index `i`, in single
precision. -/
def sjfBody_f32 (n : Nat) (st : LoopState) (i : Nat) : LoopState :=
  let currentTime := bumpClock st i
  match findShortest st.processes currentTime i n with
  | none => { st with currentTime := currentTime }
  | some shortestIndex =>
    let processes := if shortestIndex ≠ i then swap st.processes i shortestIndex else st.processes
    dispatch_f32 { st with processes := processes } currentTime i

/-- State of `sjf_metrics` after the first `k` iterations of its outer loop, in
single precision. -/
def sjfIter_f32 (proc : List Process) (k : Nat) : LoopState :=
  (List.range k).foldl (sjfBody_f32 proc.length) (initLoop proc)

/-- The function `sjf_metrics(proc, n)` with `n = proc.length`, with its `float`
accumulators and `float` results in single precision. -/
def sjf_metrics_f32 (proc : List Process) : Metrics :=
  averages_f32 (sjfIter_f32 proc proc.length) proc.length

/-- The three totals of a loop state are not negative and at most `2 ^ 24`, the
range in which a `float` holds every integer. -/
def TotalsSmall (st : LoopState) : Prop :=
  (0 ≤ st.totalTurnaround ∧ st.totalTurnaround ≤ 2 ^ 24) ∧
  (0 ≤ st.totalWaiting ∧ st.totalWaiting ≤ 2 ^ 24) ∧
  (0 ≤ st.totalResponse ∧ st.totalResponse ≤ 2 ^ 24)

instance (st : LoopState) : Decidable (TotalsSmall st) :=
  inferInstanceAs (Decidable (_ ∧ _))

/-- One pass through the body of the main loop of `rr_metrics` (lines 152-211)
with the three accumulators in the C type `float`, as declared in the source:
the same pass, each figure of a completed process added to its total in single
precision.  The flag is `true` when the pass left the loop through `break`. -/
def rrBody_f32 (n : Nat) (timeQuantum : Int) (st0 : RRState) : RRState × Bool :=
  let st := admission n st0
  if st.q_count = 0 then
    if st.completed_count < n then
      if st.next_arrival_check_idx < n then
        ({ st with currentTime := (nth st.procs st.next_arrival_check_idx).arrivalTime }, false)
      else (st, true)
    else (st, false)
  else
    let (current_proc_array_idx, st) := dequeue n st
    let current_p := markStart (nth st.procs current_proc_array_idx) st.currentTime
    if current_p.remainingTime ≤ timeQuantum then
      let time_slice_used := current_p.remainingTime
      let currentTime := st.currentTime + time_slice_used
      let current_p := { current_p with remainingTime := 0, completionTime := currentTime }
      let turnaroundTime := current_p.completionTime - current_p.arrivalTime
      let waitingTime := turnaroundTime - current_p.burstTime
      let responseTime := current_p.startTime - current_p.arrivalTime
      ({ st with
         procs := st.procs.set current_proc_array_idx current_p
         currentTime := currentTime
         completed_count := st.completed_count + 1
         totalTurnaroundTime := fadd st.totalTurnaroundTime turnaroundTime
         totalWaitingTime := fadd st.totalWaitingTime waitingTime
         totalResponseTime := fadd st.totalResponseTime responseTime }, false)
    else
      let time_slice_used := timeQuantum
      let currentTime := st.currentTime + time_slice_used
      let current_p := { current_p with remainingTime := current_p.remainingTime - time_slice_used }
      let st := { st with
                  procs := st.procs.set current_proc_array_idx current_p
                  currentTime := currentTime }
      let st := admission n st
      (enqueue n st current_proc_array_idx, false)

/-- The main loop `while (completed_count < n)` of `rr_metrics` in single
precision, with fuel: the state on exit, or `none` when the fuel runs out before
the loop ends. -/
def rrLoop_f32 (n : Nat) (timeQuantum : Int) : Nat → RRState → Option RRState
  | 0, st => if st.completed_count < n then none else some st
  | fuel + 1, st =>
    if st.completed_count < n then
      match rrBody_f32 n timeQuantum st with
      | (st', true) => some st'
      | (st', false) => rrLoop_f32 n timeQuantum fuel st'
    else some st

/-- The function `rr_metrics(proc, n, timeQuantum)` with `n = proc.length`, with
its `float` accumulators and `float` results in single precision; `none` when
the main loop has not ended within `fuel` passes. -/
def rr_metrics_f32 (fuel : Nat) (proc : List Process) (timeQuantum : Int) : Option Metrics :=
  (rrLoop_f32 proc.length timeQuantum fuel (rrInit proc)).map fun st =>
    { avgTurnaround := fdiv_f32 st.totalTurnaroundTime proc.length
      avgWaiting := fdiv_f32 st.totalWaitingTime proc.length
      avgResponse := fdiv_f32 st.totalResponseTime proc.length }

/-- The state that the completing branch of the loop body leaves from `s`, the
state after the admission loop, in single precision. -/
def finish_f32 (n : Nat) (s : RRState) : RRState :=
  { (dequeue n s).2 with
    procs := s.procs.set (headIdx n s)
      { current n s with
        remainingTime := 0
        completionTime := s.currentTime + (current n s).remainingTime }
    currentTime := s.currentTime + (current n s).remainingTime
    completed_count := s.completed_count + 1
    totalTurnaroundTime := fadd s.totalTurnaroundTime
      (s.currentTime + (current n s).remainingTime - (current n s).arrivalTime)
    totalWaitingTime := fadd s.totalWaitingTime
      (s.currentTime + (current n s).remainingTime - (current n s).arrivalTime
        - (current n s).burstTime)
    totalResponseTime := fadd s.totalResponseTime
      ((current n s).startTime - (current n s).arrivalTime) }

/-- The three totals of a state of `rr_metrics` are not negative and at most
`2 ^ 24`, the range in which a `float` holds every integer. -/
def RRTotalsSmall (st : RRState) : Prop :=
  (0 ≤ st.totalTurnaroundTime ∧ st.totalTurnaroundTime ≤ 2 ^ 24) ∧
  (0 ≤ st.totalWaitingTime ∧ st.totalWaitingTime ≤ 2 ^ 24) ∧
  (0 ≤ st.totalResponseTime ∧ st.totalResponseTime ≤ 2 ^ 24)

instance (st : RRState) : Decidable (RRTotalsSmall st) :=
  inferInstanceAs (Decidable (_ ∧ _))

/-- Two processes arriving at `0`: pid 1 with burst `2 ^ 24 = 16777216` and pid 2
with burst 1.  Their turnaround times are `16777216` and `16777217`. -/
def bigPair : List Process := [mkProc 1 0 16777216, mkProc 2 0 1]

/-- One process arriving at `0` with burst `2 ^ 24 + 1 = 16777217`, the least
positive integer that the C type `float` does not hold. -/
def bigBurst : List Process := [mkProc 1 0 16777217]

/-! ## Helper lemmas on array reads and writes -/

theorem nth_eq_getElem (l : List Process) (i : Nat) (h : i < l.length) : nth l i = l[i] := by
  simp [nth, List.getD_eq_getElem?_getD, List.getElem?_eq_getElem h]

theorem nth_set_self (l : List Process) (i : Nat) (a : Process) (h : i < l.length) :
    nth (l.set i a) i = a := by
  simp [nth, h]

theorem nth_set_ne (l : List Process) (i j : Nat) (a : Process) (h : i ≠ j) :
    nth (l.set i a) j = nth l j := by
  simp [nth, h]

theorem nth_set (l : List Process) (i j : Nat) (a : Process) (hi : i < l.length) :
    nth (l.set i a) j = if j = i then a else nth l j := by
  by_cases h : j = i
  · subst h; rw [if_pos rfl, nth_set_self _ _ _ hi]
  · rw [if_neg h, nth_set_ne _ _ _ _ (Ne.symm h)]

theorem nth_mem (l : List Process) (i : Nat) (h : i < l.length) : nth l i ∈ l := by
  rw [nth_eq_getElem l i h]; exact List.getElem_mem h

theorem take_succ_nth (l : List Process) (k : Nat) (h : k < l.length) :
    l.take (k + 1) = l.take k ++ [nth l k] := by
  rw [List.take_succ, nth_eq_getElem l k h, List.getElem?_eq_getElem h]; rfl

theorem take_set_of_le (l : List Process) (k i : Nat) (a : Process) (h : k ≤ i) :
    (l.set i a).take k = l.take k := by
  apply List.ext_getElem?
  intro j
  by_cases hj : j < k
  · simp [List.getElem?_take, hj, List.getElem?_set_ne (show i ≠ j by omega)]
  · simp [List.getElem?_take, hj]

theorem drop_eq_nth_cons (l : List Process) (k : Nat) (h : k < l.length) :
    l.drop k = nth l k :: l.drop (k + 1) := by
  rw [nth_eq_getElem l k h]; exact List.drop_eq_getElem_cons h

theorem mem_drop_iff (l : List Process) (k : Nat) (p : Process) :
    p ∈ l.drop k ↔ ∃ j, k ≤ j ∧ j < l.length ∧ nth l j = p := by
  constructor
  · intro h
    obtain ⟨j, hj, rfl⟩ := List.getElem_of_mem h
    simp at hj
    refine ⟨k + j, by omega, by omega, ?_⟩
    rw [nth_eq_getElem l (k + j) (by omega)]
    simp
  · rintro ⟨j, hkj, hj, rfl⟩
    rw [List.mem_iff_getElem?]
    refine ⟨j - k, ?_⟩
    rw [List.getElem?_drop, show k + (j - k) = j by omega, nth_eq_getElem l j hj,
      List.getElem?_eq_getElem hj]

/-! ## The sorting step -/

theorem compareByArrival_neg_iff (a b : Process) :
    compareByArrival a b < 0 ↔ ArrivesBefore a b := by
  unfold compareByArrival ArrivesBefore
  split_ifs <;> constructor <;> intro h <;> omega

theorem qsortInsert_perm (cmp : Process → Process → Int) (a : Process) (l : List Process) :
    (qsortInsert cmp a l).Perm (a :: l) := by
  induction l with
  | nil => exact List.Perm.refl _
  | cons b l ih =>
    unfold qsortInsert
    split_ifs
    · exact List.Perm.refl _
    · exact (List.Perm.cons b ih).trans (List.Perm.swap a b l)

theorem qsort_perm (cmp : Process → Process → Int) (l : List Process) :
    (qsort cmp l).Perm l := by
  induction l with
  | nil => exact List.Perm.refl _
  | cons a l ih =>
    unfold qsort
    exact (qsortInsert_perm cmp a _).trans (List.Perm.cons a ih)

theorem qsort_length (cmp : Process → Process → Int) (l : List Process) :
    (qsort cmp l).length = l.length :=
  (qsort_perm cmp l).length_eq

theorem qsortInsert_pairwise (a : Process) (l : List Process)
    (h : l.Pairwise (fun x y => ¬ ArrivesBefore y x)) :
    (qsortInsert compareByArrival a l).Pairwise (fun x y => ¬ ArrivesBefore y x) := by
  induction l with
  | nil => simp [qsortInsert]
  | cons b l ih =>
    unfold qsortInsert
    rw [List.pairwise_cons] at h
    split_ifs with hc
    · rw [compareByArrival_neg_iff] at hc
      refine List.Pairwise.cons ?_ (List.Pairwise.cons h.1 h.2)
      intro x hx
      rcases List.mem_cons.1 hx with rfl | hx
      · unfold ArrivesBefore at hc ⊢; omega
      · have := h.1 x hx
        unfold ArrivesBefore at hc this ⊢; omega
    · rw [compareByArrival_neg_iff] at hc
      refine List.Pairwise.cons ?_ (ih h.2)
      intro x hx
      rcases List.mem_cons.1 ((qsortInsert_perm _ a l).mem_iff.1 hx) with rfl | hx
      · exact hc
      · exact h.1 x hx

theorem qsort_pairwise (l : List Process) :
    (qsort compareByArrival l).Pairwise (fun x y => ¬ ArrivesBefore y x) := by
  induction l with
  | nil => simp [qsort]
  | cons a l ih => exact qsortInsert_pairwise a _ ih

/-- The sorted working copy is in arrival order when the pids are distinct. -/
theorem qsort_sorted (l : List Process) (h : (l.map Process.pid).Nodup) :
    (qsort compareByArrival l).Pairwise ArrivesBefore := by
  have hp : ((qsort compareByArrival l).map Process.pid).Nodup :=
    ((qsort_perm compareByArrival l).map Process.pid).nodup_iff.2 h
  have hw := qsort_pairwise l
  rw [List.Nodup, List.pairwise_map] at hp
  refine (hw.and hp).imp ?_
  intro a b hab
  unfold ArrivesBefore at hab ⊢
  omega

theorem qsort_arrival_le (l : List Process) :
    (qsort compareByArrival l).Pairwise (fun x y => x.arrivalTime ≤ y.arrivalTime) := by
  refine (qsort_pairwise l).imp ?_
  intro a b hab
  unfold ArrivesBefore at hab
  omega


theorem nth_append_length (T rest : List Process) (x : Process) :
    nth (T ++ x :: rest) T.length = x := by
  induction T with
  | nil => rfl
  | cons b T ih => simpa [nth] using ih

theorem set_append_length (T rest : List Process) (x a : Process) :
    (T ++ x :: rest).set T.length a = T ++ a :: rest := by
  induction T with
  | nil => rfl
  | cons b T ih => simp [ih]

/-! ## FCFS -/

theorem fcfsIter_succ (proc : List Process) (k : Nat) :
    fcfsIter proc (k + 1) = fcfsBody (fcfsIter proc k) k := by
  simp [fcfsIter, List.range_succ, List.foldl_append]

theorem fcfsTimeline_length (c : Int) (l : List Process) :
    (fcfsTimeline c l).length = l.length := by
  induction l generalizing c with
  | nil => rfl
  | cons p l ih => simp [fcfsTimeline, ih]

theorem fcfsTimeline_append (c : Int) (l₁ l₂ : List Process) :
    fcfsTimeline c (l₁ ++ l₂) = fcfsTimeline c l₁ ++ fcfsTimeline (fcfsClock c l₁) l₂ := by
  induction l₁ generalizing c with
  | nil => rfl
  | cons p l ih => simp [fcfsTimeline, fcfsClock, ih]

theorem fcfsClock_append (c : Int) (l₁ l₂ : List Process) :
    fcfsClock c (l₁ ++ l₂) = fcfsClock (fcfsClock c l₁) l₂ := by
  induction l₁ generalizing c with
  | nil => rfl
  | cons p l ih => simp [fcfsClock, ih]

/-- Loop invariant of `fcfs_metrics`: after `k` iterations the first `k` slots
hold the FCFS timeline of the first `k` sorted records, the rest is untouched,
the clock is the last completion and the totals are the sums over the timeline. -/
theorem fcfsIter_spec (proc : List Process) (k : Nat) (hk : k ≤ proc.length) :
    (fcfsIter proc k).processes
        = fcfsTimeline 0 ((qsort compareByArrival proc).take k)
          ++ (qsort compareByArrival proc).drop k ∧
    (fcfsIter proc k).currentTime = fcfsClock 0 ((qsort compareByArrival proc).take k) ∧
    (fcfsIter proc k).totalTurnaround
        = ((fcfsTimeline 0 ((qsort compareByArrival proc).take k)).map turnaround).sum ∧
    (fcfsIter proc k).totalWaiting
        = ((fcfsTimeline 0 ((qsort compareByArrival proc).take k)).map waiting).sum ∧
    (fcfsIter proc k).totalResponse
        = ((fcfsTimeline 0 ((qsort compareByArrival proc).take k)).map response).sum := by
  induction k with
  | zero => simp [fcfsIter, initLoop, fcfsTimeline, fcfsClock]
  | succ k ih =>
    obtain ⟨h1, h2, h3, h4, h5⟩ := ih (by omega)
    have hlen : k < (qsort compareByArrival proc).length := by
      rw [qsort_length]; omega
    have htl : (fcfsTimeline 0 ((qsort compareByArrival proc).take k)).length = k := by
      rw [fcfsTimeline_length, List.length_take]; omega
    rw [drop_eq_nth_cons _ k hlen] at h1
    have hnth : nth (fcfsIter proc k).processes k = nth (qsort compareByArrival proc) k := by
      rw [h1]
      have := nth_append_length (fcfsTimeline 0 ((qsort compareByArrival proc).take k))
        ((qsort compareByArrival proc).drop (k + 1)) (nth (qsort compareByArrival proc) k)
      rwa [htl] at this
    have hset : ∀ a, (fcfsIter proc k).processes.set k a
        = fcfsTimeline 0 ((qsort compareByArrival proc).take k)
          ++ a :: (qsort compareByArrival proc).drop (k + 1) := by
      intro a
      rw [h1]
      have := set_append_length (fcfsTimeline 0 ((qsort compareByArrival proc).take k))
        ((qsort compareByArrival proc).drop (k + 1)) (nth (qsort compareByArrival proc) k) a
      rwa [htl] at this
    rw [fcfsIter_succ, take_succ_nth _ k hlen, fcfsTimeline_append, fcfsClock_append]
    simp only [fcfsBody, dispatch, bumpClock, hnth, hset, h2, h3, h4, h5, fcfsTimeline, fcfsClock,
      List.map_append, List.sum_append, List.map_cons, List.map_nil, List.sum_cons, List.sum_nil,
      turnaround, waiting, response, List.append_assoc, List.singleton_append, add_zero]
    have hmax : ∀ a c : Int, (if a > c then a else c) = max a c := by
      intro a c; split_ifs <;> omega
    simp only [hmax]
    exact ⟨trivial, trivial, trivial, trivial, trivial⟩


theorem fcfsTimeline_burst (c : Int) (l : List Process) :
    (fcfsTimeline c l).map Process.burstTime = l.map Process.burstTime := by
  induction l generalizing c with
  | nil => rfl
  | cons p l ih => simp [fcfsTimeline, ih]

theorem fcfsTimeline_response (c : Int) (l : List Process) :
    (fcfsTimeline c l).map response = (fcfsTimeline c l).map waiting := by
  induction l generalizing c with
  | nil => rfl
  | cons p l ih =>
    simp only [fcfsTimeline, List.map_cons, ih, response, waiting]
    congr 1
    omega

theorem sum_waiting (l : List Process) :
    (l.map waiting).sum = (l.map turnaround).sum - (l.map Process.burstTime).sum := by
  induction l with
  | nil => rfl
  | cons p l ih =>
    simp only [List.map_cons, List.sum_cons, ih, waiting, turnaround]
    omega

theorem sumBurst_perm (l₁ l₂ : List Process) (h : l₁.Perm l₂) : sumBurst l₁ = sumBurst l₂ :=
  (h.map Process.burstTime).sum_eq

/-- State of `fcfs_metrics` on exit from its loop. -/
theorem fcfsIter_final (proc : List Process) :
    (fcfsIter proc proc.length).processes = fcfsTimeline 0 (qsort compareByArrival proc) ∧
    (fcfsIter proc proc.length).totalTurnaround
        = ((fcfsTimeline 0 (qsort compareByArrival proc)).map turnaround).sum ∧
    (fcfsIter proc proc.length).totalWaiting
        = ((fcfsTimeline 0 (qsort compareByArrival proc)).map waiting).sum ∧
    (fcfsIter proc proc.length).totalResponse
        = ((fcfsTimeline 0 (qsort compareByArrival proc)).map response).sum := by
  have h := fcfsIter_spec proc proc.length (le_refl _)
  have hl := qsort_length compareByArrival proc
  rw [← hl, List.take_length, List.drop_length, List.append_nil] at h
  rw [← hl]
  exact ⟨h.1, h.2.2.1, h.2.2.2.1, h.2.2.2.2⟩

theorem fcfs_totals (proc : List Process) :
    (fcfsIter proc proc.length).totalWaiting
        = (fcfsIter proc proc.length).totalTurnaround - sumBurst proc ∧
    (fcfsIter proc proc.length).totalResponse = (fcfsIter proc proc.length).totalWaiting := by
  obtain ⟨_, h2, h3, h4⟩ := fcfsIter_final proc
  rw [h2, h3, h4, fcfsTimeline_response, sum_waiting, fcfsTimeline_burst]
  refine ⟨?_, rfl⟩
  rw [← sumBurst_perm _ _ (qsort_perm compareByArrival proc)]
  rfl

theorem mean_eq_fdiv (xs : List Int) : mean xs = fdiv xs.sum xs.length := rfl

theorem fdiv_sub (a b : Int) (n : Nat) (hn : 0 < n) :
    ∃ x y : ℚ, fdiv a n = some x ∧ fdiv (a - b) n = some y ∧ y = x - (b : ℚ) / (n : ℚ) := by
  have : n ≠ 0 := by omega
  refine ⟨(a : ℚ) / (n : ℚ), ((a - b : Int) : ℚ) / (n : ℚ), by simp [fdiv, this],
    by simp [fdiv, this], ?_⟩
  push_cast
  ring


/-! ## SJF: the selection loop -/

theorem scan_spec (ps : List Process) (c : Int) (i m : Nat) :
    ((List.range' i m).foldl (scanStep ps c) none = none →
        ∀ j, i ≤ j → j < i + m → ¬ (nth ps j).arrivalTime ≤ c) ∧
    (∀ s, (List.range' i m).foldl (scanStep ps c) none = some s →
        i ≤ s ∧ s < i + m ∧ (nth ps s).arrivalTime ≤ c ∧
        (∀ j, i ≤ j → j < i + m → (nth ps j).arrivalTime ≤ c →
            (nth ps s).burstTime ≤ (nth ps j).burstTime) ∧
        (∀ j, i ≤ j → j < s → (nth ps j).arrivalTime ≤ c →
            (nth ps s).burstTime < (nth ps j).burstTime)) := by
  induction m with
  | zero =>
    refine ⟨fun _ j h1 h2 => by omega, fun s hs => ?_⟩
    simp at hs
  | succ m ih =>
    rw [List.range'_concat, List.foldl_append, List.foldl_cons, List.foldl_nil, Nat.one_mul]
    obtain ⟨ihn, ihs⟩ := ih
    generalize (List.range' i m).foldl (scanStep ps c) none = r at ihn ihs
    unfold scanStep
    by_cases hel : (nth ps (i + m)).arrivalTime ≤ c
    · rw [if_pos hel]
      cases r with
      | none =>
        refine ⟨fun h => by simp at h, fun s hs => ?_⟩
        have hs' : i + m = s := by simpa using hs
        subst hs'
        refine ⟨by omega, by omega, hel, fun j h1 h2 h3 => ?_, fun j h1 h2 h3 => ?_⟩
        · by_cases hj : j = i + m
          · subst hj; exact le_refl _
          · exact absurd h3 (ihn rfl j h1 (by omega))
        · exact absurd h3 (ihn rfl j h1 (by omega))
      | some t =>
        obtain ⟨t1, t2, t3, t4, t5⟩ := ihs t rfl
        refine ⟨fun h => ?_, fun s hs => ?_⟩
        · simp only at h
          split_ifs at h
        · simp only at hs
          split_ifs at hs with hlt
          · have hs' : i + m = s := by simpa using hs
            subst hs'
            refine ⟨by omega, by omega, hel, fun j h1 h2 h3 => ?_, fun j h1 h2 h3 => ?_⟩
            · by_cases hj : j = i + m
              · subst hj; exact le_refl _
              · have := t4 j h1 (by omega) h3
                omega
            · have := t4 j h1 (by omega) h3
              omega
          · have hs' : t = s := by simpa using hs
            subst hs'
            refine ⟨t1, by omega, t3, fun j h1 h2 h3 => ?_, t5⟩
            by_cases hj : j = i + m
            · subst hj; omega
            · exact t4 j h1 (by omega) h3
    · rw [if_neg hel]
      refine ⟨fun h j h1 h2 => ?_, fun s hs => ?_⟩
      · by_cases hj : j = i + m
        · subst hj; exact hel
        · exact ihn h j h1 (by omega)
      · obtain ⟨t1, t2, t3, t4, t5⟩ := ihs s hs
        refine ⟨t1, by omega, t3, fun j h1 h2 h3 => ?_, t5⟩
        by_cases hj : j = i + m
        · subst hj; exact absurd h3 hel
        · exact t4 j h1 (by omega) h3

/-- What the selection loop of `sjf_metrics` returns: the first index of the
window `[i, n)` whose record has arrived and has the least burst time among the
arrived records of the window; the sentinel exactly when none has arrived. -/
theorem findShortest_spec (ps : List Process) (c : Int) (i n : Nat) (hin : i ≤ n) :
    (findShortest ps c i n = none →
        ∀ j, i ≤ j → j < n → ¬ (nth ps j).arrivalTime ≤ c) ∧
    (∀ s, findShortest ps c i n = some s →
        i ≤ s ∧ s < n ∧ (nth ps s).arrivalTime ≤ c ∧
        (∀ j, i ≤ j → j < n → (nth ps j).arrivalTime ≤ c →
            (nth ps s).burstTime ≤ (nth ps j).burstTime) ∧
        (∀ j, i ≤ j → j < s → (nth ps j).arrivalTime ≤ c →
            (nth ps s).burstTime < (nth ps j).burstTime)) := by
  have h := scan_spec ps c i (n - i)
  have e : i + (n - i) = n := by omega
  rw [e] at h
  exact h

theorem bumpClock_ge (st : LoopState) (i : Nat) :
    st.currentTime ≤ bumpClock st i ∧ (nth st.processes i).arrivalTime ≤ bumpClock st i := by
  unfold bumpClock
  split_ifs <;> omega

/-- After the idle jump the record at the front of the window has arrived, so
the selection loop of `sjf_metrics` never leaves the sentinel in place. -/
theorem findShortest_isSome (st : LoopState) (i n : Nat) (hin : i < n) :
    ∃ s, findShortest st.processes (bumpClock st i) i n = some s := by
  cases h : findShortest st.processes (bumpClock st i) i n with
  | some s => exact ⟨s, rfl⟩
  | none =>
    exact absurd (bumpClock_ge st i).2
      ((findShortest_spec _ _ i n (by omega)).1 h i (le_refl _) hin)


/-! ## SJF: the exchange and the loop invariant -/

theorem swap_length (l : List Process) (i s : Nat) : (swap l i s).length = l.length := by
  simp [swap]

theorem nth_swap (l : List Process) (i s j : Nat) (hi : i < l.length) (hs : s < l.length) :
    nth (swap l i s) j = if j = s then nth l i else if j = i then nth l s else nth l j := by
  unfold swap
  by_cases h1 : j = s
  · subst h1
    rw [if_pos rfl, nth_set_self _ _ _ (by simpa using hs)]
  · rw [if_neg h1, nth_set_ne _ _ _ _ (Ne.symm h1)]
    by_cases h2 : j = i
    · subst h2
      rw [if_pos rfl, nth_set_self _ _ _ hi]
    · rw [if_neg h2, nth_set_ne _ _ _ _ (Ne.symm h2)]

theorem swap_perm (l : List Process) (i s : Nat) (hi : i < l.length) (hs : s < l.length) :
    (swap l i s).Perm l := by
  rw [List.perm_iff_count]
  intro a
  unfold swap
  rw [List.count_set _ _ _ _ (by simpa using hs), List.count_set _ _ _ _ hi]
  have e1 : nth l i = l[i] := nth_eq_getElem l i hi
  have e2 : nth l s = l[s] := nth_eq_getElem l s hs
  have c1 : (if l[i] == a then 1 else 0) ≤ l.count a := by
    split_ifs with h
    · have : l[i] = a := by simpa using h
      exact List.count_pos_iff.2 (this ▸ List.getElem_mem hi)
    · omega
  have c2 : (if l[s] == a then 1 else 0) ≤ l.count a := by
    split_ifs with h
    · have : l[s] = a := by simpa using h
      exact List.count_pos_iff.2 (this ▸ List.getElem_mem hs)
    · omega
  by_cases his : i = s
  · subst his
    simp only [List.getElem_set_self, e1]
    split_ifs at c1 ⊢ <;> omega
  · rw [List.getElem_set_ne his, e1, e2]
    split_ifs at c1 c2 ⊢ <;> omega

theorem swap_self (l : List Process) (i : Nat) (hi : i < l.length) : swap l i i = l := by
  apply List.ext_getElem (swap_length l i i)
  intro j h1 h2
  have := nth_swap l i i j hi hi
  rw [nth_eq_getElem _ _ h1] at this
  rw [this]
  split_ifs with h
  · subst h; exact nth_eq_getElem l j h2
  · exact nth_eq_getElem l j h2

theorem take_swap (l : List Process) (k i s : Nat) (hi : k ≤ i) (hs : k ≤ s) :
    (swap l i s).take k = l.take k := by
  unfold swap
  rw [take_set_of_le _ _ _ _ hs, take_set_of_le _ _ _ _ hi]

/-- The body of the outer loop of `sjf_metrics`, once it is known that the
selection loop finds an index: exchange, then dispatch. -/
theorem sjfBody_eq (n : Nat) (st : LoopState) (i : Nat) (hin : i < n)
    (hlen : st.processes.length = n) :
    ∃ s, findShortest st.processes (bumpClock st i) i n = some s ∧
      sjfBody n st i
        = dispatch { st with processes := swap st.processes i s } (bumpClock st i) i := by
  obtain ⟨s, hs⟩ := findShortest_isSome st i n hin
  refine ⟨s, hs, ?_⟩
  unfold sjfBody
  simp only [hs]
  by_cases h : s = i
  · subst h
    rw [swap_self _ _ (by omega)]
    simp
  · simp [h]

theorem sjfIter_succ (proc : List Process) (k : Nat) :
    sjfIter proc (k + 1) = sjfBody proc.length (sjfIter proc k) k := by
  simp [sjfIter, List.range_succ, List.foldl_append]

theorem ident_mem_of_perm (l proc : List Process) (h : (l.map ident).Perm (proc.map ident))
    (p : Process) (hp : p ∈ l) : ∃ q ∈ proc, ident q = ident p := by
  have : ident p ∈ proc.map ident := h.mem_iff.1 (List.mem_map_of_mem ident hp)
  obtain ⟨q, hq, e⟩ := List.mem_map.1 this
  exact ⟨q, hq, e⟩

theorem map_ident_set (l : List Process) (i : Nat) (a : Process) (hi : i < l.length)
    (h : ident a = ident (nth l i)) : (l.set i a).map ident = l.map ident := by
  apply List.ext_getElem (by simp)
  intro j h1 h2
  simp only [List.getElem_map, List.getElem_set]
  split_ifs with hj
  · subst hj; rw [h, nth_eq_getElem l i hi]
  · rfl


theorem sjfInv_init (proc : List Process) : SjfInv proc 0 (initLoop proc) where
  len := qsort_length _ _
  perm := (qsort_perm compareByArrival proc).map ident
  win := by
    intro j₁ j₂ _ h12 h2
    right
    have hl := qsort_length compareByArrival proc
    have hp := qsort_arrival_le proc
    rw [List.pairwise_iff_getElem] at hp
    have := hp j₁ j₂ (by omega) (by omega) h12
    simpa [initLoop, nth_eq_getElem _ _ (show j₁ < (qsort compareByArrival proc).length by omega),
      nth_eq_getElem _ _ (show j₂ < (qsort compareByArrival proc).length by omega)] using this
  tot := by simp [initLoop, sumBurst]
  resp := rfl
  run := fun j hj => by omega
  late := fun j hj => by omega

theorem sjfInv_step (proc : List Process) (hb : ∀ p ∈ proc, 0 ≤ p.burstTime) (k : Nat)
    (hk : k < proc.length) (st : LoopState) (inv : SjfInv proc k st) :
    SjfInv proc (k + 1) (sjfBody proc.length st k) := by
  obtain ⟨s, hs, hbody⟩ := sjfBody_eq proc.length st k hk inv.len
  obtain ⟨s1, s2, s3, -, -⟩ := (findShortest_spec _ _ k proc.length (by omega)).2 s hs
  have hk' : k < st.processes.length := by rw [inv.len]; exact hk
  have hs' : s < st.processes.length := by rw [inv.len]; exact s2
  have hc := bumpClock_ge st k
  have hnk : nth (swap st.processes k s) k = nth st.processes s := by
    rw [nth_swap _ _ _ _ hk' hs']
    by_cases h : k = s
    · rw [if_pos h, h]
    · rw [if_neg h, if_pos rfl]
  have hburst : 0 ≤ (nth st.processes s).burstTime := by
    obtain ⟨q, hq, e⟩ := ident_mem_of_perm _ _ inv.perm _ (nth_mem _ s hs')
    have := hb q hq
    simp only [ident, Prod.mk.injEq] at e
    omega
  rw [hbody]
  constructor
  · simp [dispatch, swap_length, inv.len]
  · simp only [dispatch]
    rw [map_ident_set _ _ _ (by rw [swap_length]; exact hk') (by simp [ident])]
    exact ((swap_perm _ _ _ hk' hs').map ident).trans inv.perm
  · intro j₁ j₂ h1 h12 h2
    simp only [dispatch, hnk]
    rw [nth_set_ne _ _ _ _ (show k ≠ j₁ by omega), nth_set_ne _ _ _ _ (show k ≠ j₂ by omega),
      nth_swap _ _ _ _ hk' hs', nth_swap _ _ _ _ hk' hs', if_neg (show ¬ j₂ = k by omega),
      if_neg (show ¬ j₁ = k by omega)]
    by_cases e1 : j₁ = s
    · rw [if_pos e1]; left; omega
    · rw [if_neg e1]
      by_cases e2 : j₂ = s
      · rw [if_pos e2]
        subst e2
        rcases inv.win j₁ j₂ (by omega) h12 h2 with h | h
        · left; omega
        · left; omega
      · rw [if_neg e2]
        rcases inv.win j₁ j₂ (by omega) h12 h2 with h | h
        · left; omega
        · right; exact h
  · simp only [dispatch, hnk]
    rw [take_succ_nth _ k (by simp [swap_length]; exact hk'),
      nth_set_self _ _ _ (by rw [swap_length]; exact hk'),
      take_set_of_le _ _ _ _ (le_refl k), take_swap _ _ _ _ (le_refl k) s1, inv.tot]
    simp only [sumBurst, List.map_append, List.sum_append, List.map_cons, List.map_nil,
      List.sum_cons, List.sum_nil]
    omega
  · simp only [dispatch, hnk, inv.resp]
    omega
  · intro j hj
    simp only [dispatch, hnk]
    rw [nth_set _ _ _ _ (by rw [swap_length]; exact hk')]
    split_ifs with h
    · rfl
    · rw [nth_swap _ _ _ _ hk' hs', if_neg (by omega), if_neg h]
      exact inv.run j (by omega)
  · intro j hj
    simp only [dispatch, hnk]
    rw [nth_set _ _ _ _ (by rw [swap_length]; exact hk')]
    split_ifs with h
    · exact s3
    · rw [nth_swap _ _ _ _ hk' hs', if_neg (by omega), if_neg h]
      exact inv.late j (by omega)

/-- The loop invariant of `sjf_metrics` holds at the head of every iteration. -/
theorem sjfIter_inv (proc : List Process) (hb : ∀ p ∈ proc, 0 ≤ p.burstTime) (k : Nat)
    (hk : k ≤ proc.length) : SjfInv proc k (sjfIter proc k) := by
  induction k with
  | zero => exact sjfInv_init proc
  | succ k ih =>
    rw [sjfIter_succ]
    exact sjfInv_step proc hb k (by omega) _ (ih (by omega))

theorem sumBurst_eq_of_ident_perm (l proc : List Process)
    (h : (l.map ident).Perm (proc.map ident)) : sumBurst l = sumBurst proc := by
  have := (h.map (fun t : Int × Int × Int => t.2.2)).sum_eq
  simpa [sumBurst, List.map_map, Function.comp_def, ident] using this

theorem sjf_totals (proc : List Process) (hb : ∀ p ∈ proc, 0 ≤ p.burstTime) :
    (sjfIter proc proc.length).totalWaiting
        = (sjfIter proc proc.length).totalTurnaround - sumBurst proc ∧
    (sjfIter proc proc.length).totalResponse = (sjfIter proc proc.length).totalWaiting := by
  have inv := sjfIter_inv proc hb proc.length (le_refl _)
  refine ⟨?_, inv.resp⟩
  have h := inv.tot
  rw [List.take_of_length_le (le_of_eq inv.len), sumBurst_eq_of_ident_perm _ _ inv.perm] at h
  exact h


/-! ## Round Robin: the circular buffer -/

theorem mod_add_ne (n h k c : Nat) (hk : k < c) (hc : c < n) :
    (h + k) % n ≠ (h + c) % n := by
  intro e
  have h1 : Nat.ModEq n (h + k) (h + c) := e
  have h2 : Nat.ModEq n k c := Nat.ModEq.add_left_cancel' h h1
  have h3 : k % n = c % n := h2
  rw [Nat.mod_eq_of_lt (by omega), Nat.mod_eq_of_lt hc] at h3
  omega

theorem queueList_length (n : Nat) (st : RRState) : (queueList n st).length = st.q_count := by
  simp [queueList]

theorem queueList_enqueue (n : Nat) (st : RRState) (x : Nat) (ok : QueueOK n st)
    (hc : st.q_count < n) :
    QueueOK n (enqueue n st x) ∧ queueList n (enqueue n st x) = queueList n st ++ [x] := by
  have hn : 0 < n := by omega
  constructor
  · constructor
    · simp [enqueue, ok.buf]
    · exact ok.head
    · simp only [enqueue]
      rw [ok.tail, Nat.mod_add_mod, Nat.add_assoc]
    · simp only [enqueue]; omega
  · simp only [queueList, enqueue, List.range_succ, List.map_append, List.map_cons, List.map_nil]
    congr 1
    · apply List.map_congr_left
      intro k hk
      rw [List.mem_range] at hk
      have hne : st.q_tail ≠ (st.q_head + k) % n := by
        rw [ok.tail]; exact (mod_add_ne n _ k _ hk hc).symm
      simp [List.getD_eq_getElem?_getD, List.getElem?_set_ne hne]
    · have ht : st.q_tail < st.ready_queue.length := by
        rw [ok.buf, ok.tail]; exact Nat.mod_lt _ hn
      rw [← ok.tail]
      simp [List.getD_eq_getElem?_getD, ht]

theorem queueList_dequeue (n : Nat) (st : RRState) (ok : QueueOK n st) (hc : 0 < st.q_count) :
    QueueOK n (dequeue n st).2 ∧
    queueList n st = (dequeue n st).1 :: queueList n (dequeue n st).2 := by
  have hn : 0 < n := by have := ok.head; omega
  constructor
  · constructor
    · exact ok.buf
    · exact Nat.mod_lt _ hn
    · simp only [dequeue]
      rw [ok.tail, Nat.mod_add_mod]
      congr 1; omega
    · simp only [dequeue]; have := ok.count; omega
  · obtain ⟨c, hc'⟩ : ∃ c, st.q_count = c + 1 := ⟨st.q_count - 1, by omega⟩
    simp only [queueList, dequeue, hc', List.range_succ_eq_map, List.map_cons, List.map_map,
      Nat.add_sub_cancel, Nat.add_zero, Nat.mod_eq_of_lt ok.head]
    congr 1
    apply List.map_congr_left
    intro k _
    simp only [Function.comp, Nat.succ_eq_add_one, Nat.mod_add_mod]
    congr 2; omega


/-! ## Round Robin: the admission loop -/

/-- Effect of the admission loop of `rr_metrics`: it appends to the queue the
indices from the cursor up to the first record that has not arrived, in
increasing order, and touches nothing but the queue and the cursor. -/
theorem admissionLoop_spec (n b : Nat) (st : RRState) (ok : QueueOK n st)
    (hq : st.q_count ≤ st.next_arrival_check_idx) (hnext : st.next_arrival_check_idx ≤ n)
    (hb : n - st.next_arrival_check_idx ≤ b) :
    ∃ m, st.next_arrival_check_idx + m ≤ n ∧
      (admissionLoop n b st).next_arrival_check_idx = st.next_arrival_check_idx + m ∧
      (admissionLoop n b st).q_count = st.q_count + m ∧
      queueList n (admissionLoop n b st)
        = queueList n st ++ List.range' st.next_arrival_check_idx m ∧
      QueueOK n (admissionLoop n b st) ∧
      (admissionLoop n b st).procs = st.procs ∧
      (admissionLoop n b st).currentTime = st.currentTime ∧
      (admissionLoop n b st).completed_count = st.completed_count ∧
      (admissionLoop n b st).totalTurnaroundTime = st.totalTurnaroundTime ∧
      (admissionLoop n b st).totalWaitingTime = st.totalWaitingTime ∧
      (admissionLoop n b st).totalResponseTime = st.totalResponseTime ∧
      (∀ i, st.next_arrival_check_idx ≤ i → i < st.next_arrival_check_idx + m →
        (nth st.procs i).arrivalTime ≤ st.currentTime) ∧
      (st.next_arrival_check_idx + m < n →
        st.currentTime < (nth st.procs (st.next_arrival_check_idx + m)).arrivalTime) := by
  induction b generalizing st with
  | zero =>
    refine ⟨0, by omega, rfl, rfl, by simp [admissionLoop], ok, rfl, rfl, rfl, rfl, rfl, rfl,
      fun i h1 h2 => by omega, fun h => by omega⟩
  | succ b ih =>
    unfold admissionLoop
    by_cases hc : st.next_arrival_check_idx < n ∧
        (nth st.procs st.next_arrival_check_idx).arrivalTime ≤ st.currentTime
    · rw [if_pos hc]
      obtain ⟨ok1, hl1⟩ := queueList_enqueue n st st.next_arrival_check_idx ok (by omega)
      have ok1' : QueueOK n { enqueue n st st.next_arrival_check_idx with
          next_arrival_check_idx := st.next_arrival_check_idx + 1 } :=
        ⟨ok1.buf, ok1.head, ok1.tail, ok1.count⟩
      obtain ⟨m, h1, h2, h3, h4, h5, h6, h7, h8, h9, h10, h11, h12, h13⟩ :=
        ih _ ok1' (by simp only [enqueue]; omega) (by simp only; omega) (by simp only; omega)
      refine ⟨m + 1, by simp only at h1; omega, by rw [h2]; simp only; omega,
        by rw [h3]; simp only [enqueue]; omega, ?_, h5, h6, h7, h8, h9, h10, h11, ?_, ?_⟩
      · rw [h4, List.range'_succ]
        have : queueList n { enqueue n st st.next_arrival_check_idx with
            next_arrival_check_idx := st.next_arrival_check_idx + 1 }
            = queueList n (enqueue n st st.next_arrival_check_idx) := rfl
        rw [this, hl1]
        simp
      · intro i hi1 hi2
        by_cases e : i = st.next_arrival_check_idx
        · subst e; exact hc.2
        · exact h12 i (by simp only; omega) (by simp only; omega)
      · intro hlt
        have := h13 (by simp only; omega)
        simp only [enqueue] at this
        rw [show st.next_arrival_check_idx + (m + 1) = st.next_arrival_check_idx + 1 + m by omega]
        exact this
    · rw [if_neg hc]
      refine ⟨0, by omega, rfl, rfl, by simp, ok, rfl, rfl, rfl, rfl, rfl, rfl,
        fun i h1 h2 => by omega, fun h => ?_⟩
      rw [Nat.add_zero] at h ⊢
      by_contra hle
      exact hc ⟨h, by omega⟩

theorem admission_spec (n : Nat) (st : RRState) (ok : QueueOK n st)
    (hq : st.q_count ≤ st.next_arrival_check_idx) (hnext : st.next_arrival_check_idx ≤ n) :
    ∃ m, st.next_arrival_check_idx + m ≤ n ∧
      (admission n st).next_arrival_check_idx = st.next_arrival_check_idx + m ∧
      (admission n st).q_count = st.q_count + m ∧
      queueList n (admission n st)
        = queueList n st ++ List.range' st.next_arrival_check_idx m ∧
      QueueOK n (admission n st) ∧
      (admission n st).procs = st.procs ∧
      (admission n st).currentTime = st.currentTime ∧
      (admission n st).completed_count = st.completed_count ∧
      (admission n st).totalTurnaroundTime = st.totalTurnaroundTime ∧
      (admission n st).totalWaitingTime = st.totalWaitingTime ∧
      (admission n st).totalResponseTime = st.totalResponseTime ∧
      (∀ i, st.next_arrival_check_idx ≤ i → i < st.next_arrival_check_idx + m →
        (nth st.procs i).arrivalTime ≤ st.currentTime) ∧
      (st.next_arrival_check_idx + m < n →
        st.currentTime < (nth st.procs (st.next_arrival_check_idx + m)).arrivalTime) :=
  admissionLoop_spec n _ st ok hq hnext (le_refl _)


/-! ## Round Robin: the ways through the loop body -/

/-- The body of the main loop of `rr_metrics` by cases on the state after the
admission loop. -/
theorem rrBody_cases (n : Nat) (q : Int) (st : RRState) :
    rrBody n q st =
      if (admission n st).q_count = 0 then
        if (admission n st).completed_count < n then
          if (admission n st).next_arrival_check_idx < n then (idleJump (admission n st), false)
          else (admission n st, true)
        else (admission n st, false)
      else if (current n (admission n st)).remainingTime ≤ q then (finish n (admission n st), false)
      else (preempt n q (admission n st), false) := by
  unfold rrBody
  simp only [dequeue, headIdx, current, idleJump, finish, preempt, charge]

theorem rrBody_idle (n : Nat) (q : Int) (st : RRState) (h0 : (admission n st).q_count = 0)
    (hc : (admission n st).completed_count < n) (hn : (admission n st).next_arrival_check_idx < n) :
    rrBody n q st = (idleJump (admission n st), false) := by
  rw [rrBody_cases, if_pos h0, if_pos hc, if_pos hn]

theorem rrBody_complete (n : Nat) (q : Int) (st : RRState) (h0 : (admission n st).q_count ≠ 0)
    (hr : (current n (admission n st)).remainingTime ≤ q) :
    rrBody n q st = (finish n (admission n st), false) := by
  rw [rrBody_cases, if_neg h0, if_pos hr]

theorem rrBody_preempt (n : Nat) (q : Int) (st : RRState) (h0 : (admission n st).q_count ≠ 0)
    (hr : ¬ (current n (admission n st)).remainingTime ≤ q) :
    rrBody n q st = (preempt n q (admission n st), false) := by
  rw [rrBody_cases, if_neg h0, if_neg hr]


/-! ## Round Robin: sums over the working array -/

theorem sum_map_set (f : Process → Int) (l : List Process) (i : Nat) (a : Process)
    (h : i < l.length) :
    ((l.set i a).map f).sum = (l.map f).sum - f (nth l i) + f a := by
  induction l generalizing i with
  | nil => simp at h
  | cons b l ih =>
    cases i with
    | zero => simp [nth]; omega
    | succ i =>
      have := ih i (by simpa using h)
      simp only [List.set_cons_succ, List.map_cons, List.sum_cons, this]
      have e : nth (b :: l) (i + 1) = nth l i := by simp [nth]
      rw [e]; omega

theorem sum_map_nonneg (f : Process → Int) (l : List Process)
    (h : ∀ i, i < l.length → 0 ≤ f (nth l i)) : 0 ≤ (l.map f).sum := by
  apply List.sum_nonneg
  intro x hx
  obtain ⟨p, hp, rfl⟩ := List.mem_map.1 hx
  obtain ⟨i, hi, rfl⟩ := List.getElem_of_mem hp
  rw [← nth_eq_getElem l i hi]
  exact h i hi

theorem sum_map_congr_nth (f g : Process → Int) (l : List Process)
    (h : ∀ i, i < l.length → f (nth l i) = g (nth l i)) : (l.map f).sum = (l.map g).sum := by
  congr 1
  apply List.map_congr_left
  intro p hp
  obtain ⟨i, hi, rfl⟩ := List.getElem_of_mem hp
  rw [← nth_eq_getElem l i hi]
  exact h i hi

theorem markStart_ident (p : Process) (c : Int) : ident (markStart p c) = ident p := by
  unfold markStart; split_ifs <;> rfl

theorem markStart_remaining (p : Process) (c : Int) :
    (markStart p c).remainingTime = p.remainingTime := by
  unfold markStart; split_ifs <;> rfl

theorem markStart_burst (p : Process) (c : Int) : (markStart p c).burstTime = p.burstTime := by
  unfold markStart; split_ifs <;> rfl

theorem markStart_arrival (p : Process) (c : Int) :
    (markStart p c).arrivalTime = p.arrivalTime := by
  unfold markStart; split_ifs <;> rfl

theorem ident_burst {p q : Process} (h : ident p = ident q) : p.burstTime = q.burstTime := by
  simp only [ident, Prod.mk.injEq] at h; exact h.2.2

theorem ident_arrival {p q : Process} (h : ident p = ident q) :
    p.arrivalTime = q.arrivalTime := by
  simp only [ident, Prod.mk.injEq] at h; exact h.2.1

theorem ident_pid {p q : Process} (h : ident p = ident q) : p.pid = q.pid := by
  simp only [ident, Prod.mk.injEq] at h; exact h.1


/-! ## Round Robin: the loop invariant -/

theorem range'_nodup (s m : Nat) : (List.range' s m).Nodup := by
  rw [List.Nodup, List.pairwise_iff_getElem]
  intro i j hi hj hij
  simp only [List.getElem_range']
  omega

/-- The admission loop preserves the invariant of `rr_metrics`, and on its exit
the record under the cursor, if any, has not arrived. -/
theorem admission_inv (procs0 : List Process) (hs : RRStatic procs0) (st : RRState)
    (inv : RRInv procs0 st) :
    RRInv procs0 (admission procs0.length st) ∧
    (admission procs0.length st).procs = st.procs ∧
    (admission procs0.length st).currentTime = st.currentTime ∧
    (admission procs0.length st).completed_count = st.completed_count ∧
    (admission procs0.length st).totalTurnaroundTime = st.totalTurnaroundTime ∧
    (admission procs0.length st).totalWaitingTime = st.totalWaitingTime ∧
    (admission procs0.length st).totalResponseTime = st.totalResponseTime ∧
    ((admission procs0.length st).next_arrival_check_idx < procs0.length →
      st.currentTime <
        (nth st.procs (admission procs0.length st).next_arrival_check_idx).arrivalTime) := by
  obtain ⟨m, h1, h2, h3, h4, h5, h6, h7, h8, h9, h10, h11, h12, h13⟩ :=
    admission_spec procs0.length st inv.queue (by have := inv.cnt; omega) inv.next_le
  refine ⟨?_, h6, h7, h8, h9, h10, h11, ?_⟩
  · constructor
    · rw [h6]; exact inv.len
    · rw [h6]; exact inv.key
    · exact h5
    · rw [h2]; exact h1
    · rw [h4]
      refine List.Nodup.append inv.nodup (range'_nodup _ _) ?_
      intro x hx1 hx2
      have := (inv.queued x hx1).1
      rw [List.mem_range'_1] at hx2
      omega
    · intro x hx
      rw [h4, List.mem_append] at hx
      rw [h2, h6]
      rcases hx with hx | hx
      · have := inv.queued x hx
        exact ⟨by omega, this.2⟩
      · rw [List.mem_range'_1] at hx
        refine ⟨by omega, ?_⟩
        rw [(inv.fresh x hx.1 (by omega)).1, ident_burst (inv.key x)]
        exact hs.pos x (by omega)
    · intro i hi hni
      rw [h4, List.mem_append, not_or, List.mem_range'_1] at hni
      rw [h2] at hi
      rw [h6]
      exact inv.done i (by omega) hni.1
    · intro i hi hin
      rw [h2] at hi
      rw [h6]
      exact inv.fresh i (by omega) hin
    · rw [h6]; exact inv.rem
    · rw [h8, h3, h2]; have := inv.cnt; omega
    · rw [h10, h9, h6]; exact inv.tot
    · intro i hi
      rw [h2] at hi
      rw [h6, h7]
      by_cases hlt : i < st.next_arrival_check_idx
      · exact inv.arrived i hlt
      · exact h12 i (by omega) hi
  · intro hlt
    rw [h2] at hlt ⊢
    exact h13 hlt


theorem dequeue_facts (procs0 : List Process) (s : RRState) (inv : RRInv procs0 s)
    (h0 : s.q_count ≠ 0) :
    (dequeue procs0.length s).1 < s.next_arrival_check_idx ∧
    0 < (nth s.procs (dequeue procs0.length s).1).remainingTime ∧
    queueList procs0.length s
      = (dequeue procs0.length s).1 :: queueList procs0.length (dequeue procs0.length s).2 ∧
    QueueOK procs0.length (dequeue procs0.length s).2 ∧
    (dequeue procs0.length s).1 ∉ queueList procs0.length (dequeue procs0.length s).2 ∧
    (queueList procs0.length (dequeue procs0.length s).2).Nodup ∧
    (dequeue procs0.length s).2.q_count + 1 = s.q_count := by
  obtain ⟨ok, hl⟩ := queueList_dequeue procs0.length s inv.queue (by omega)
  have hmem : (dequeue procs0.length s).1 ∈ queueList procs0.length s := by
    rw [hl]; exact List.mem_cons_self _ _
  have hnd := inv.nodup
  rw [hl, List.nodup_cons] at hnd
  refine ⟨(inv.queued _ hmem).1, (inv.queued _ hmem).2, hl, ok, hnd.1, hnd.2, ?_⟩
  simp only [dequeue]; omega

theorem idle_inv (procs0 : List Process) (hs : RRStatic procs0) (s : RRState)
    (inv : RRInv procs0 s) (hn : s.next_arrival_check_idx < procs0.length) :
    RRInv procs0 (idleJump s) where
  len := inv.len
  key := inv.key
  queue := ⟨inv.queue.buf, inv.queue.head, inv.queue.tail, inv.queue.count⟩
  next_le := inv.next_le
  nodup := inv.nodup
  queued := inv.queued
  done := inv.done
  fresh := inv.fresh
  rem := inv.rem
  cnt := inv.cnt
  tot := inv.tot
  arrived := by
    intro i hi
    show (nth s.procs i).arrivalTime ≤ (nth s.procs s.next_arrival_check_idx).arrivalTime
    rw [ident_arrival (inv.key i), ident_arrival (inv.key s.next_arrival_check_idx)]
    exact hs.sorted i _ hi hn

theorem complete_inv (procs0 : List Process) (hs : RRStatic procs0) (s : RRState)
    (inv : RRInv procs0 s) (h0 : s.q_count ≠ 0) (p' : Process) (c' tt tr : Int)
    (hid : ident p' = ident (nth s.procs (dequeue procs0.length s).1))
    (hrem : p'.remainingTime = 0)
    (hc' : c' = s.currentTime + (nth s.procs (dequeue procs0.length s).1).remainingTime)
    (htt : tt = c' - p'.arrivalTime) :
    RRInv procs0
      { (dequeue procs0.length s).2 with
        procs := s.procs.set (dequeue procs0.length s).1 p'
        currentTime := c'
        completed_count := s.completed_count + 1
        totalTurnaroundTime := s.totalTurnaroundTime + tt
        totalWaitingTime := s.totalWaitingTime + (tt - p'.burstTime)
        totalResponseTime := s.totalResponseTime + tr } ∧
    sumRemaining (s.procs.set (dequeue procs0.length s).1 p')
      = sumRemaining s.procs - (nth s.procs (dequeue procs0.length s).1).remainingTime := by
  obtain ⟨d1, d2, d3, d4, d5, d6, d7⟩ := dequeue_facts procs0 s inv h0
  have hidx : (dequeue procs0.length s).1 < s.procs.length := by
    rw [inv.len]; have := inv.next_le; omega
  have hq : ∀ x, x ∈ queueList procs0.length (dequeue procs0.length s).2 →
      x ∈ queueList procs0.length s ∧ x ≠ (dequeue procs0.length s).1 := by
    intro x hx
    refine ⟨by rw [d3]; exact List.mem_cons_of_mem _ hx, ?_⟩
    rintro rfl
    exact d5 hx
  constructor
  · constructor
    · simp [inv.len]
    · intro i
      show ident (nth (s.procs.set _ p') i) = _
      rw [nth_set _ _ _ _ hidx]
      split_ifs with h
      · rw [hid, h]; exact inv.key _
      · exact inv.key i
    · exact ⟨d4.buf, d4.head, d4.tail, d4.count⟩
    · exact inv.next_le
    · exact d6
    · intro x hx
      obtain ⟨hx1, hx2⟩ := hq x hx
      show x < s.next_arrival_check_idx ∧ 0 < (nth (s.procs.set _ p') x).remainingTime
      rw [nth_set _ _ _ _ hidx, if_neg hx2]
      exact inv.queued x hx1
    · intro i hi hni
      show (nth (s.procs.set _ p') i).remainingTime = 0
      rw [nth_set _ _ _ _ hidx]
      split_ifs with h
      · exact hrem
      · apply inv.done i hi
        rw [d3, List.mem_cons, not_or]
        exact ⟨h, hni⟩
    · intro i hi hin
      show (nth (s.procs.set _ p') i).remainingTime = (nth (s.procs.set _ p') i).burstTime ∧
        (nth (s.procs.set _ p') i).startTime = -1
      have hi' : s.next_arrival_check_idx ≤ i := hi
      rw [nth_set _ _ _ _ hidx, if_neg (by omega)]
      exact inv.fresh i hi' hin
    · intro i hi
      show 0 ≤ (nth (s.procs.set _ p') i).remainingTime ∧
        (nth (s.procs.set _ p') i).remainingTime ≤ (nth (s.procs.set _ p') i).burstTime
      rw [nth_set _ _ _ _ hidx]
      split_ifs with h
      · rw [hrem, ident_burst hid, ident_burst (inv.key _)]
        have := hs.pos _ (show (dequeue procs0.length s).1 < procs0.length by
          have := inv.next_le; omega)
        omega
      · exact inv.rem i hi
    · show s.completed_count + 1 + (dequeue procs0.length s).2.q_count = s.next_arrival_check_idx
      have := inv.cnt; omega
    · show s.totalWaitingTime + (tt - p'.burstTime)
        = s.totalTurnaroundTime + tt - doneBurst (s.procs.set _ p')
      unfold doneBurst
      rw [sum_map_set _ _ _ _ hidx, if_pos hrem, if_neg (by omega)]
      have := inv.tot
      unfold doneBurst at this
      omega
    · intro i hi
      show (nth (s.procs.set _ p') i).arrivalTime ≤ c'
      have hi' : i < s.next_arrival_check_idx := hi
      have e : (nth (s.procs.set (dequeue procs0.length s).1 p') i).arrivalTime
          = (nth s.procs i).arrivalTime := by
        rw [nth_set _ _ _ _ hidx]
        split_ifs with h
        · rw [ident_arrival hid, h]
        · rfl
      rw [e, hc']
      have := inv.arrived i hi'
      omega
  · unfold sumRemaining
    rw [sum_map_set _ _ _ _ hidx, hrem]
    omega


theorem preempt_inv (procs0 : List Process) (hs : RRStatic procs0) (s : RRState)
    (inv : RRInv procs0 s) (h0 : s.q_count ≠ 0) (q : Int) (hq : 0 ≤ q) (p' : Process)
    (hid : ident p' = ident (nth s.procs (dequeue procs0.length s).1))
    (hrem : p'.remainingTime = (nth s.procs (dequeue procs0.length s).1).remainingTime - q)
    (hpos : 0 < p'.remainingTime) (s3 : RRState)
    (hs3 : s3 = { (dequeue procs0.length s).2 with
                  procs := s.procs.set (dequeue procs0.length s).1 p'
                  currentTime := s.currentTime + q }) :
    RRInv procs0 (enqueue procs0.length (admission procs0.length s3) (dequeue procs0.length s).1) ∧
    (enqueue procs0.length (admission procs0.length s3) (dequeue procs0.length s).1).procs
      = s.procs.set (dequeue procs0.length s).1 p' ∧
    sumRemaining (s.procs.set (dequeue procs0.length s).1 p') = sumRemaining s.procs - q := by
  obtain ⟨d1, d2, d3, d4, d5, d6, d7⟩ := dequeue_facts procs0 s inv h0
  have hidx : (dequeue procs0.length s).1 < s.procs.length := by
    rw [inv.len]; have := inv.next_le; omega
  have hcnt := inv.cnt
  have hnl := inv.next_le
  have f1 : s3.procs = s.procs.set (dequeue procs0.length s).1 p' := by rw [hs3]
  have f2 : s3.q_count = (dequeue procs0.length s).2.q_count := by rw [hs3]
  have f3 : s3.next_arrival_check_idx = s.next_arrival_check_idx := by rw [hs3]; rfl
  have f4 : s3.currentTime = s.currentTime + q := by rw [hs3]
  have f5 : s3.completed_count = s.completed_count := by rw [hs3]; rfl
  have f6 : s3.totalWaitingTime = s.totalWaitingTime := by rw [hs3]; rfl
  have f7 : s3.totalTurnaroundTime = s.totalTurnaroundTime := by rw [hs3]; rfl
  have f8 : queueList procs0.length s3 = queueList procs0.length (dequeue procs0.length s).2 := by
    rw [hs3]; rfl
  have ok3 : QueueOK procs0.length s3 := by
    rw [hs3]; exact ⟨d4.buf, d4.head, d4.tail, d4.count⟩
  obtain ⟨m, h1, h2', h3', h4', h5, h6, h7, h8, h9, h10, h11, h12, h13⟩ :=
    admission_spec procs0.length s3 ok3 (by rw [f2, f3]; omega) (by rw [f3]; exact hnl)
  rw [f3] at h1 h2' h12 h13
  rw [f2] at h3'
  rw [f8, f3] at h4'
  rw [f1] at h6 h12 h13
  rw [f4] at h7 h12 h13
  rw [f5] at h8
  rw [f7] at h9
  rw [f6] at h10
  obtain ⟨e1, e2⟩ := queueList_enqueue procs0.length _ (dequeue procs0.length s).1 h5
    (by rw [h3']; omega)
  rw [h4'] at e2
  have hq' : ∀ x, x ∈ queueList procs0.length (dequeue procs0.length s).2 →
      x ∈ queueList procs0.length s ∧ x ≠ (dequeue procs0.length s).1 := by
    intro x hx
    refine ⟨by rw [d3]; exact List.mem_cons_of_mem _ hx, ?_⟩
    rintro rfl
    exact d5 hx
  have hprocs : (enqueue procs0.length (admission procs0.length s3)
      (dequeue procs0.length s).1).procs = s.procs.set (dequeue procs0.length s).1 p' := h6
  refine ⟨?_, hprocs, ?_⟩
  · constructor
    · rw [hprocs]; simp [inv.len]
    · intro i
      rw [hprocs, nth_set _ _ _ _ hidx]
      split_ifs with h
      · rw [hid, h]; exact inv.key _
      · exact inv.key i
    · exact e1
    · show (admission procs0.length _).next_arrival_check_idx ≤ procs0.length
      rw [h2']; exact h1
    · rw [e2]
      refine List.Nodup.append (List.Nodup.append d6 (range'_nodup _ _) ?_) (by simp) ?_
      · intro x hx1 hx2
        have := (inv.queued x (hq' x hx1).1).1
        rw [List.mem_range'_1] at hx2
        omega
      · intro x hx1 hx2
        rw [List.mem_singleton] at hx2
        subst hx2
        rw [List.mem_append, List.mem_range'_1] at hx1
        rcases hx1 with hx1 | hx1
        · exact d5 hx1
        · omega
    · intro x hx
      rw [e2, List.mem_append, List.mem_append, List.mem_range'_1, List.mem_singleton] at hx
      show x < (admission procs0.length _).next_arrival_check_idx ∧ _
      rw [h2', hprocs, nth_set _ _ _ _ hidx]
      rcases hx with (hx | hx) | hx
      · obtain ⟨hx1, hx2⟩ := hq' x hx
        rw [if_neg hx2]
        have := inv.queued x hx1
        exact ⟨by omega, this.2⟩
      · rw [if_neg (by omega)]
        refine ⟨by omega, ?_⟩
        rw [(inv.fresh x hx.1 (by omega)).1, ident_burst (inv.key x)]
        exact hs.pos x (by omega)
      · rw [if_pos hx]
        exact ⟨by omega, hpos⟩
    · intro i hi hni
      rw [e2, List.mem_append, List.mem_append, List.mem_range'_1, List.mem_singleton] at hni
      have hi' : i < (admission procs0.length _).next_arrival_check_idx := hi
      rw [h2'] at hi'
      push_neg at hni
      rw [hprocs, nth_set _ _ _ _ hidx, if_neg hni.2]
      apply inv.done i
      · by_contra hge
        exact absurd hi' (by have := hni.1.2 (by omega); omega)
      · rw [d3, List.mem_cons, not_or]
        exact ⟨hni.2, hni.1.1⟩
    · intro i hi hin
      have hi' : (admission procs0.length _).next_arrival_check_idx ≤ i := hi
      rw [h2'] at hi'
      rw [hprocs, nth_set _ _ _ _ hidx, if_neg (by omega)]
      exact inv.fresh i (by omega) hin
    · intro i hi
      rw [hprocs, nth_set _ _ _ _ hidx]
      split_ifs with h
      · rw [ident_burst hid]
        have := inv.rem _ (show (dequeue procs0.length s).1 < procs0.length by omega)
        omega
      · exact inv.rem i hi
    · show (admission procs0.length _).completed_count + ((admission procs0.length _).q_count + 1)
        = (admission procs0.length _).next_arrival_check_idx
      rw [h8, h3', h2']; omega
    · show (admission procs0.length _).totalWaitingTime
        = (admission procs0.length _).totalTurnaroundTime - doneBurst _
      rw [h10, h9, hprocs]
      unfold doneBurst
      rw [sum_map_set _ _ _ _ hidx, if_neg (by omega), if_neg (by omega)]
      have := inv.tot
      unfold doneBurst at this
      omega
    · intro i hi
      have hi' : i < (admission procs0.length _).next_arrival_check_idx := hi
      rw [h2'] at hi'
      show (nth _ i).arrivalTime ≤ (admission procs0.length _).currentTime
      rw [hprocs, h7]
      by_cases hlt : i < s.next_arrival_check_idx
      · have e : (nth (s.procs.set (dequeue procs0.length s).1 p') i).arrivalTime
            = (nth s.procs i).arrivalTime := by
          rw [nth_set _ _ _ _ hidx]
          split_ifs with h
          · rw [ident_arrival hid, h]
          · rfl
        rw [e]
        have := inv.arrived i hlt
        omega
      · exact h12 i (by omega) hi'
  · unfold sumRemaining
    rw [sum_map_set _ _ _ _ hidx, hrem]
    omega


theorem finish_inv (procs0 : List Process) (hs : RRStatic procs0) (s : RRState)
    (inv : RRInv procs0 s) (h0 : s.q_count ≠ 0) :
    RRInv procs0 (finish procs0.length s) ∧
    sumRemaining (finish procs0.length s).procs
      = sumRemaining s.procs - (nth s.procs (headIdx procs0.length s)).remainingTime :=
  complete_inv procs0 hs s inv h0 _ _ _ _ (markStart_ident _ _) rfl
    (by unfold current; rw [markStart_remaining]; rfl) rfl

theorem preempt_inv' (procs0 : List Process) (hs : RRStatic procs0) (s : RRState)
    (inv : RRInv procs0 s) (h0 : s.q_count ≠ 0) (q : Int) (hq : 0 ≤ q)
    (hr : ¬ (current procs0.length s).remainingTime ≤ q) :
    RRInv procs0 (preempt procs0.length q s) ∧
    sumRemaining (preempt procs0.length q s).procs = sumRemaining s.procs - q := by
  have h := preempt_inv procs0 hs s inv h0 q hq
    { current procs0.length s with
      remainingTime := (current procs0.length s).remainingTime - q }
    (markStart_ident _ _) (by simp only [current, markStart_remaining]; rfl)
    (by simp only; omega) (charge procs0.length q s) rfl
  refine ⟨h.1, ?_⟩
  rw [← h.2.2, ← h.2.1]
  rfl

theorem rrMeasure_le (n : Nat) (s : RRState) :
    rrMeasure n s ≤ 2 * (sumRemaining s.procs).toNat + 1 := by
  unfold rrMeasure; split_ifs <;> omega

theorem sumRemaining_nonneg (procs0 : List Process) (s : RRState) (inv : RRInv procs0 s) :
    0 ≤ sumRemaining s.procs :=
  sum_map_nonneg _ _ fun i hi => (inv.rem i (by rw [← inv.len]; exact hi)).1

/-- One pass through the body of the main loop of `rr_metrics`, started in a
state that satisfies the invariant with processes still to complete: the pass
does not leave the loop through `break`, it re-establishes the invariant, and
it decreases the termination measure. -/
theorem rrBody_inv (procs0 : List Process) (hs : RRStatic procs0) (q : Int) (hq : 1 ≤ q)
    (st : RRState) (inv : RRInv procs0 st) (hrun : st.completed_count < procs0.length) :
    (rrBody procs0.length q st).2 = false ∧
    RRInv procs0 (rrBody procs0.length q st).1 ∧
    rrMeasure procs0.length (rrBody procs0.length q st).1 < rrMeasure procs0.length st := by
  obtain ⟨inv1, a1, a2, a3, a4, a5, a6, a7⟩ := admission_inv procs0 hs st inv
  generalize hs1 : admission procs0.length st = s1 at inv1 a1 a2 a3 a4 a5 a6 a7
  by_cases h0 : s1.q_count = 0
  · have hcnt := inv1.cnt
    have hn : s1.next_arrival_check_idx < procs0.length := by omega
    rw [rrBody_idle _ _ _ (by rw [hs1]; exact h0) (by rw [hs1]; omega) (by rw [hs1]; exact hn),
      hs1]
    have inv' := idle_inv procs0 hs _ inv1 hn
    refine ⟨rfl, inv', ?_⟩
    obtain ⟨inv2, b1, b2, b3, -, -, -, b7⟩ := admission_inv procs0 hs _ inv'
    have c1 : (idleJump s1).procs = s1.procs := rfl
    have c2 : (idleJump s1).currentTime
        = (nth s1.procs s1.next_arrival_check_idx).arrivalTime := rfl
    have c3 : (idleJump s1).completed_count = s1.completed_count := rfl
    have hne : (admission procs0.length (idleJump s1)).q_count ≠ 0 := by
      intro hz
      have hcnt2 := inv2.cnt
      rw [hz, b3, c3] at hcnt2
      rw [c1, c2] at b7
      have hlt := b7 (by omega)
      have e : (admission procs0.length (idleJump s1)).next_arrival_check_idx
          = s1.next_arrival_check_idx := by omega
      rw [e] at hlt
      omega
    unfold rrMeasure
    rw [if_neg hne, if_pos (by rw [hs1]; exact h0)]
    show 2 * (sumRemaining (idleJump s1).procs).toNat + 0
      < 2 * (sumRemaining st.procs).toNat + 1
    rw [c1, a1]; omega
  · obtain ⟨d1, d2, -, -, -, -, -⟩ := dequeue_facts procs0 _ inv1 h0
    have hM : rrMeasure procs0.length st = 2 * (sumRemaining s1.procs).toNat := by
      unfold rrMeasure; rw [hs1, if_neg h0, a1]; omega
    have hcur : (current procs0.length s1).remainingTime
        = (nth s1.procs (headIdx procs0.length s1)).remainingTime := markStart_remaining _ _
    have d2' : 0 < (nth s1.procs (headIdx procs0.length s1)).remainingTime := d2
    by_cases hr : (current procs0.length s1).remainingTime ≤ q
    · rw [rrBody_complete _ _ _ (by rw [hs1]; exact h0) (by rw [hs1]; exact hr), hs1]
      obtain ⟨inv', hsum⟩ := finish_inv procs0 hs _ inv1 h0
      refine ⟨rfl, inv', ?_⟩
      have hnn := sumRemaining_nonneg procs0 _ inv'
      have hle := rrMeasure_le procs0.length (finish procs0.length s1)
      rw [hM]
      show rrMeasure procs0.length (finish procs0.length s1) < _
      omega
    · rw [rrBody_preempt _ _ _ (by rw [hs1]; exact h0) (by rw [hs1]; exact hr), hs1]
      obtain ⟨inv', hsum⟩ := preempt_inv' procs0 hs _ inv1 h0 q (by omega) hr
      refine ⟨rfl, inv', ?_⟩
      have hnn := sumRemaining_nonneg procs0 _ inv'
      have hle := rrMeasure_le procs0.length (preempt procs0.length q s1)
      rw [hM]
      show rrMeasure procs0.length (preempt procs0.length q s1) < _
      omega


/-! ## Round Robin: the initial state and the main loop -/

theorem rrInit_procs_perm (proc : List Process) :
    (rrInit proc).procs.Perm
      (proc.map fun p => { p with remainingTime := p.burstTime, startTime := -1 }) :=
  qsort_perm _ _

theorem rrInit_procs_length (proc : List Process) : (rrInit proc).procs.length = proc.length := by
  rw [(rrInit_procs_perm proc).length_eq, List.length_map]

theorem rrInit_mem (proc : List Process) (i : Nat) (hi : i < proc.length) :
    ∃ p ∈ proc, nth (rrInit proc).procs i
      = { p with remainingTime := p.burstTime, startTime := -1 } := by
  have hm := nth_mem (rrInit proc).procs i (by rw [rrInit_procs_length]; exact hi)
  have := (rrInit_procs_perm proc).mem_iff.1 hm
  obtain ⟨p, hp, e⟩ := List.mem_map.1 this
  exact ⟨p, hp, e.symm⟩

theorem rrInit_static (proc : List Process) (hv : Valid proc) :
    RRStatic (rrInit proc).procs where
  pos := by
    intro i hi
    rw [rrInit_procs_length] at hi
    obtain ⟨p, hp, e⟩ := rrInit_mem proc i hi
    rw [e]
    exact (hv.2 p hp).2
  sorted := by
    intro i j hij hj
    have hp := qsort_arrival_le
      (proc.map fun p => { p with remainingTime := p.burstTime, startTime := -1 })
    rw [List.pairwise_iff_getElem] at hp
    have hj' : j < (rrInit proc).procs.length := hj
    have := hp i j (by unfold rrInit at hj'; simp only at hj'; omega)
      (by unfold rrInit at hj'; simp only at hj'; omega) hij
    rw [nth_eq_getElem _ i (by omega), nth_eq_getElem _ j hj']
    exact this

theorem rrInit_inv (proc : List Process) (hv : Valid proc) (hn : 0 < proc.length) :
    RRInv (rrInit proc).procs (rrInit proc) where
  len := rfl
  key := fun _ => rfl
  queue := by
    rw [rrInit_procs_length]
    exact ⟨by simp [rrInit], hn, by simp [rrInit], Nat.zero_le _⟩
  next_le := Nat.zero_le _
  nodup := by simp [queueList, rrInit]
  queued := by intro x hx; simp [queueList, rrInit] at hx
  done := by intro i hi; simp [rrInit] at hi
  fresh := by
    intro i _ hi
    rw [rrInit_procs_length] at hi
    obtain ⟨p, hp, e⟩ := rrInit_mem proc i hi
    rw [e]
    exact ⟨rfl, rfl⟩
  rem := by
    intro i hi
    rw [rrInit_procs_length] at hi
    obtain ⟨p, hp, e⟩ := rrInit_mem proc i hi
    rw [e]
    have := (hv.2 p hp).2
    simp only
    omega
  cnt := rfl
  tot := by
    have : doneBurst (rrInit proc).procs = 0 := by
      unfold doneBurst
      apply List.sum_eq_zero
      intro x hx
      obtain ⟨p, hp, rfl⟩ := List.mem_map.1 hx
      obtain ⟨p0, hp0, rfl⟩ := List.mem_map.1 ((rrInit_procs_perm proc).mem_iff.1 hp)
      have := (hv.2 p0 hp0).2
      simp only
      rw [if_neg (by omega)]
    rw [this]
    rfl
  arrived := by intro i hi; simp [rrInit] at hi

theorem rrInit_sumBurst (proc : List Process) : sumBurst (rrInit proc).procs = sumBurst proc := by
  rw [sumBurst_perm _ _ (rrInit_procs_perm proc)]
  simp [sumBurst, List.map_map, Function.comp_def]

/-- Partial correctness of the main loop of `rr_metrics`: a state it exits with
satisfies the invariant and has every process completed. -/
theorem rrLoop_sound (procs0 : List Process) (hs : RRStatic procs0) (q : Int) (hq : 1 ≤ q)
    (fuel : Nat) (st final : RRState) (inv : RRInv procs0 st)
    (h : rrLoop procs0.length q fuel st = some final) :
    RRInv procs0 final ∧ final.completed_count = procs0.length := by
  induction fuel generalizing st with
  | zero =>
    unfold rrLoop at h
    split_ifs at h with hc
    have e : st = final := by simpa using h
    subst e
    have := inv.cnt
    have := inv.next_le
    exact ⟨inv, by omega⟩
  | succ fuel ih =>
    unfold rrLoop at h
    split_ifs at h with hc
    · obtain ⟨b1, b2, -⟩ := rrBody_inv procs0 hs q hq st inv hc
      generalize rrBody procs0.length q st = r at h b1 b2
      obtain ⟨st', flag⟩ := r
      simp only at b1
      subst b1
      exact ih st' b2 h
    · have e : st = final := by simpa using h
      subst e
      have := inv.cnt
      have := inv.next_le
      exact ⟨inv, by omega⟩

/-- Termination of the main loop of `rr_metrics`: fuel equal to the measure of
the starting state is enough for the loop to reach its exit. -/
theorem rrLoop_total (procs0 : List Process) (hs : RRStatic procs0) (q : Int) (hq : 1 ≤ q)
    (fuel : Nat) (st : RRState) (inv : RRInv procs0 st)
    (hf : rrMeasure procs0.length st ≤ fuel) :
    ∃ final, rrLoop procs0.length q fuel st = some final := by
  induction fuel generalizing st with
  | zero =>
    unfold rrLoop
    split_ifs with hc
    · have := (rrBody_inv procs0 hs q hq st inv hc).2.2
      omega
    · exact ⟨st, rfl⟩
  | succ fuel ih =>
    unfold rrLoop
    split_ifs with hc
    · obtain ⟨b1, b2, b3⟩ := rrBody_inv procs0 hs q hq st inv hc
      generalize rrBody procs0.length q st = r at b1 b2 b3
      obtain ⟨st', flag⟩ := r
      simp only at b1
      subst b1
      exact ih st' b2 (by simp only at b3; omega)
    · exact ⟨st, rfl⟩


theorem sum_map_eq_of_nth (f : Process → Int) (l₁ l₂ : List Process)
    (hl : l₁.length = l₂.length) (h : ∀ i, f (nth l₁ i) = f (nth l₂ i)) :
    (l₁.map f).sum = (l₂.map f).sum := by
  congr 1
  apply List.ext_getElem (by simp [hl])
  intro i h1 h2
  simp only [List.length_map] at h1 h2
  simp only [List.getElem_map]
  rw [← nth_eq_getElem l₁ i h1, ← nth_eq_getElem l₂ i h2]
  exact h i

/-- On exit from the main loop of `rr_metrics` the queue is empty, every record
has been admitted and has no work left. -/
theorem rr_exit_all_done (procs0 : List Process) (final : RRState) (inv : RRInv procs0 final)
    (hc : final.completed_count = procs0.length) :
    final.q_count = 0 ∧ final.next_arrival_check_idx = procs0.length ∧
    ∀ i, i < procs0.length → (nth final.procs i).remainingTime = 0 := by
  have h1 := inv.cnt
  have h2 := inv.next_le
  have h3 : final.q_count = 0 := by omega
  refine ⟨h3, by omega, fun i hi => inv.done i (by omega) ?_⟩
  have : queueList procs0.length final = [] := by
    rw [← List.length_eq_zero, queueList_length, h3]
  rw [this]
  exact List.not_mem_nil _

theorem rr_exit_totals (procs0 : List Process) (final : RRState) (inv : RRInv procs0 final)
    (hc : final.completed_count = procs0.length) :
    final.totalWaitingTime = final.totalTurnaroundTime - sumBurst procs0 := by
  obtain ⟨-, -, hdone⟩ := rr_exit_all_done procs0 final inv hc
  have h1 : doneBurst final.procs = sumBurst final.procs := by
    unfold doneBurst sumBurst
    apply sum_map_congr_nth
    intro i hi
    rw [if_pos (hdone i (by rw [← inv.len]; exact hi))]
  have h2 : sumBurst final.procs = sumBurst procs0 := by
    unfold sumBurst
    exact sum_map_eq_of_nth _ _ _ inv.len fun i => ident_burst (inv.key i)
  rw [inv.tot, h1, h2]

/-- For valid input and a positive quantum the main loop of `rr_metrics` ends,
within `rrMeasure` passes. -/
theorem rr_terminates (proc : List Process) (hv : Valid proc) (hn : 0 < proc.length) (q : Int)
    (hq : 1 ≤ q) :
    ∃ final, rrLoop proc.length q (rrMeasure proc.length (rrInit proc)) (rrInit proc)
      = some final := by
  have h := rrLoop_total (rrInit proc).procs (rrInit_static proc hv) q hq
    (rrMeasure proc.length (rrInit proc)) (rrInit proc) (rrInit_inv proc hv hn)
    (by rw [rrInit_procs_length])
  rw [rrInit_procs_length] at h
  exact h

theorem rr_final (proc : List Process) (hv : Valid proc) (hn : 0 < proc.length) (q : Int)
    (hq : 1 ≤ q) (fuel : Nat) (final : RRState)
    (h : rrLoop proc.length q fuel (rrInit proc) = some final) :
    RRInv (rrInit proc).procs final ∧ final.completed_count = proc.length ∧
    final.totalWaitingTime = final.totalTurnaroundTime - sumBurst proc := by
  rw [← rrInit_procs_length proc] at h
  obtain ⟨inv, hc⟩ := rrLoop_sound (rrInit proc).procs (rrInit_static proc hv) q hq fuel
    (rrInit proc) final (rrInit_inv proc hv hn) h
  refine ⟨inv, by rw [hc, rrInit_procs_length], ?_⟩
  rw [rr_exit_totals _ final inv hc, rrInit_sumBurst]


/-! ## The contract of the three engines -/

theorem averages_waitingIdentity (proc : List Process) (hn : 1 ≤ proc.length)
    (tt tw : Int) (h : tw = tt - sumBurst proc) (m : Metrics)
    (h1 : m.avgTurnaround = fdiv tt proc.length) (h2 : m.avgWaiting = fdiv tw proc.length) :
    WaitingIdentity proc m := by
  obtain ⟨x, y, e1, e2, e3⟩ := fdiv_sub tt (sumBurst proc) proc.length (by omega)
  refine ⟨x, y, by rw [h1, e1], by rw [h2, h, e2], ?_⟩
  rw [e3]; rfl

/-- C1.  For at least one process, valid input and a quantum of at least `1`,
each engine returns `avgWaiting = avgTurnaround - avgBurst` in exact arithmetic;
equivalently the waiting total is the turnaround total minus the sum of all `n`
burst times.  For `rr_metrics` the main loop ends (some amount of fuel yields a
record), and whatever amount of fuel yields a record, the identity holds of it. -/
theorem waiting_eq_turnaround_sub_burst (proc : List Process) (hn : 1 ≤ proc.length)
    (hv : Valid proc) (timeQuantum : Int) (hq : 1 ≤ timeQuantum) :
    (WaitingIdentity proc (fcfs_metrics proc) ∧
      (fcfsIter proc proc.length).totalWaiting
        = (fcfsIter proc proc.length).totalTurnaround - sumBurst proc) ∧
    (WaitingIdentity proc (sjf_metrics proc) ∧
      (sjfIter proc proc.length).totalWaiting
        = (sjfIter proc proc.length).totalTurnaround - sumBurst proc) ∧
    (∃ fuel m, rr_metrics fuel proc timeQuantum = some m) ∧
    (∀ fuel m, rr_metrics fuel proc timeQuantum = some m → WaitingIdentity proc m) ∧
    (∀ fuel final, rrLoop proc.length timeQuantum fuel (rrInit proc) = some final →
      final.totalWaitingTime = final.totalTurnaroundTime - sumBurst proc) := by
  have hb : ∀ p ∈ proc, 0 ≤ p.burstTime := fun p hp => le_of_lt (hv.2 p hp).2
  refine ⟨⟨?_, (fcfs_totals proc).1⟩, ⟨?_, (sjf_totals proc hb).1⟩, ?_, ?_, ?_⟩
  · exact averages_waitingIdentity proc hn _ _ (fcfs_totals proc).1 _ rfl rfl
  · exact averages_waitingIdentity proc hn _ _ (sjf_totals proc hb).1 _ rfl rfl
  · obtain ⟨final, hf⟩ := rr_terminates proc hv (by omega) timeQuantum hq
    exact ⟨_, _, by unfold rr_metrics; rw [hf]; rfl⟩
  · intro fuel m hm
    unfold rr_metrics at hm
    cases hl : rrLoop proc.length timeQuantum fuel (rrInit proc) with
    | none => rw [hl] at hm; simp at hm
    | some final =>
      rw [hl] at hm
      have e : m = _ := (Option.some.inj hm).symm
      obtain ⟨-, -, ht⟩ := rr_final proc hv (by omega) timeQuantum hq fuel final hl
      exact averages_waitingIdentity proc hn _ _ ht m (by rw [e]) (by rw [e])
  · intro fuel final hl
    exact (rr_final proc hv (by omega) timeQuantum hq fuel final hl).2.2

theorem waiting_eq_turnaround_sub_burst_witness :
    (1 ≤ twoAtZero.length ∧ Valid twoAtZero ∧ (1 : Int) ≤ 2) ∧
    WaitingIdentity twoAtZero (fcfs_metrics twoAtZero) ∧
    WaitingIdentity twoAtZero (sjf_metrics twoAtZero) ∧
    (∃ fuel m, rr_metrics fuel twoAtZero 2 = some m) ∧
    (∀ fuel m, rr_metrics fuel twoAtZero 2 = some m → WaitingIdentity twoAtZero m) :=
  have h := waiting_eq_turnaround_sub_burst twoAtZero (by decide) (by decide) 2 (by decide)
  ⟨⟨by decide, by decide, by decide⟩, h.1.1, h.2.1.1, h.2.2.1, h.2.2.2.1⟩


theorem sjfIter_processes_succ (proc : List Process) (k : Nat) (hk : k < proc.length)
    (hlen : (sjfIter proc k).processes.length = proc.length) :
    ∃ s, sjfChoice proc k = some s ∧ k ≤ s ∧ s < proc.length ∧
      (sjfIter proc (k + 1)).processes
        = (swap (sjfIter proc k).processes k s).set k
            { nth (sjfIter proc k).processes s with
              startTime := sjfClock proc k
              completionTime := sjfClock proc k + (nth (sjfIter proc k).processes s).burstTime } := by
  obtain ⟨s, hs, hbody⟩ := sjfBody_eq proc.length (sjfIter proc k) k hk hlen
  obtain ⟨s1, s2, -⟩ := (findShortest_spec _ _ k proc.length (by omega)).2 s hs
  refine ⟨s, hs, s1, s2, ?_⟩
  have hnk : nth (swap (sjfIter proc k).processes k s) k = nth (sjfIter proc k).processes s := by
    rw [nth_swap _ _ _ _ (by omega) (by omega)]
    by_cases h : k = s
    · rw [if_pos h, h]
    · rw [if_neg h, if_pos rfl]
  rw [sjfIter_succ, hbody]
  simp only [dispatch, hnk, sjfClock]

theorem sjfDispatch_take (proc : List Process) (hb : ∀ p ∈ proc, 0 ≤ p.burstTime) (k : Nat)
    (hk : k ≤ proc.length) :
    ((List.range k).filterMap (sjfDispatched proc)).map ident
      = ((sjfIter proc k).processes.take k).map ident := by
  induction k with
  | zero => rfl
  | succ k ih =>
    have inv := sjfIter_inv proc hb k (by omega)
    obtain ⟨s, hs, s1, s2, hp⟩ := sjfIter_processes_succ proc k (by omega) inv.len
    have hlen : k < (swap (sjfIter proc k).processes k s).length := by
      rw [swap_length, inv.len]; omega
    rw [List.range_succ, List.filterMap_append, List.map_append, ih (by omega), hp,
      take_succ_nth _ k (by simpa using hlen), nth_set_self _ _ _ hlen,
      take_set_of_le _ _ _ _ (le_refl k), take_swap _ _ _ _ (le_refl k) s1, List.map_append]
    congr 1
    simp [sjfDispatched, hs, ident]

/-- C2.  In `sjf_metrics` on valid input, at every iteration `i` of the outer
loop: when no unscheduled record has arrived by the clock, the idle jump moves
the clock to the least arrival time among the unscheduled records; the selection
loop always finds an index; and over the whole run the dispatched records are,
up to order, exactly the input records, each one once. -/
theorem sjf_idle_jump_and_dispatch (proc : List Process) (hv : Valid proc) (i : Nat)
    (hi : i < proc.length) :
    ((∀ p ∈ sjfWindow proc i, (sjfIter proc i).currentTime < p.arrivalTime) →
      (∃ p ∈ sjfWindow proc i, sjfClock proc i = p.arrivalTime) ∧
      ∀ p ∈ sjfWindow proc i, sjfClock proc i ≤ p.arrivalTime) ∧
    sjfChoice proc i ≠ none ∧
    ((sjfDispatchList proc).map ident).Perm (proc.map ident) ∧
    (sjfDispatchList proc).length = proc.length := by
  have hb : ∀ p ∈ proc, 0 ≤ p.burstTime := fun p hp => le_of_lt (hv.2 p hp).2
  have inv := sjfIter_inv proc hb i (by omega)
  have hi' : i < (sjfIter proc i).processes.length := by rw [inv.len]; exact hi
  have hfin := sjfIter_inv proc hb proc.length (le_refl _)
  have hpre := sjfDispatch_take proc hb proc.length (le_refl _)
  rw [List.take_of_length_le (le_of_eq hfin.len)] at hpre
  refine ⟨?_, ?_, ?_, ?_⟩
  · intro hnone
    have hfront : nth (sjfIter proc i).processes i ∈ sjfWindow proc i := by
      unfold sjfWindow
      rw [drop_eq_nth_cons _ i hi']
      exact List.mem_cons_self _ _
    have hlt := hnone _ hfront
    have hclock : sjfClock proc i = (nth (sjfIter proc i).processes i).arrivalTime := by
      unfold sjfClock bumpClock
      rw [if_pos hlt]
    refine ⟨⟨_, hfront, hclock⟩, ?_⟩
    intro p hp
    unfold sjfWindow at hp
    rw [mem_drop_iff] at hp
    obtain ⟨j, hij, hj, rfl⟩ := hp
    rw [hclock]
    by_cases e : j = i
    · rw [e]
    · rcases inv.win i j (le_refl _) (by omega) (by rw [← inv.len]; exact hj) with h | h
      · omega
      · exact h
  · obtain ⟨s, hs⟩ := findShortest_isSome (sjfIter proc i) i proc.length hi
    unfold sjfChoice sjfClock
    rw [hs]
    simp
  · unfold sjfDispatchList
    rw [hpre]
    exact hfin.perm
  · have := congrArg List.length hpre
    simp only [List.length_map] at this
    unfold sjfDispatchList
    rw [this, hfin.len]

theorem sjf_idle_jump_and_dispatch_witness :
    (Valid idleGap ∧ 1 < idleGap.length) ∧
    (∀ p ∈ sjfWindow idleGap 1, (sjfIter idleGap 1).currentTime < p.arrivalTime) ∧
    (sjfIter idleGap 1).currentTime = 5 ∧ sjfClock idleGap 1 = 10 ∧
    sjfChoice idleGap 1 ≠ none ∧
    ((sjfDispatchList idleGap).map ident).Perm (idleGap.map ident) :=
  have h := sjf_idle_jump_and_dispatch idleGap (by decide) 1 (by decide)
  ⟨⟨by decide, by decide⟩, by decide, by decide, by decide, h.2.1, h.2.2.1⟩


/-- C3.  In `sjf_metrics` on valid input, the record dispatched at the decision
of iteration `i` is an unscheduled record that has arrived by the clock, and no
unscheduled record that has arrived by the clock has a smaller burst time; it is
started at that clock and run to completion. -/
theorem sjf_dispatches_shortest_arrived (proc : List Process) (hv : Valid proc) (i : Nat)
    (hi : i < proc.length) :
    ∃ p, sjfDispatched proc i = some p ∧ p ∈ sjfWindow proc i ∧
      p.arrivalTime ≤ sjfClock proc i ∧
      (∀ r ∈ sjfWindow proc i, r.arrivalTime ≤ sjfClock proc i → p.burstTime ≤ r.burstTime) ∧
      nth (sjfIter proc (i + 1)).processes i
        = { p with startTime := sjfClock proc i
                   completionTime := sjfClock proc i + p.burstTime } := by
  have hb : ∀ p ∈ proc, 0 ≤ p.burstTime := fun p hp => le_of_lt (hv.2 p hp).2
  have inv := sjfIter_inv proc hb i (by omega)
  obtain ⟨s, hs, s1, s2, hp⟩ := sjfIter_processes_succ proc i hi inv.len
  obtain ⟨-, -, s3, s4, -⟩ := (findShortest_spec _ _ i proc.length (by omega)).2 s hs
  refine ⟨nth (sjfIter proc i).processes s, by simp [sjfDispatched, hs], ?_, s3, ?_, ?_⟩
  · unfold sjfWindow
    rw [mem_drop_iff]
    exact ⟨s, s1, by rw [inv.len]; exact s2, rfl⟩
  · intro r hr hra
    unfold sjfWindow at hr
    rw [mem_drop_iff] at hr
    obtain ⟨j, hij, hj, rfl⟩ := hr
    exact s4 j hij (by rw [← inv.len]; exact hj) hra
  · rw [hp, nth_set_self _ _ _ (by rw [swap_length, inv.len]; exact hi)]

theorem sjf_dispatches_shortest_arrived_witness :
    (Valid tieAtZero ∧ 0 < tieAtZero.length) ∧
    (∃ p, sjfDispatched tieAtZero 0 = some p ∧ p ∈ sjfWindow tieAtZero 0 ∧
      p.arrivalTime ≤ sjfClock tieAtZero 0 ∧
      (∀ r ∈ sjfWindow tieAtZero 0, r.arrivalTime ≤ sjfClock tieAtZero 0 →
        p.burstTime ≤ r.burstTime) ∧
      nth (sjfIter tieAtZero (0 + 1)).processes 0
        = { p with startTime := sjfClock tieAtZero 0
                   completionTime := sjfClock tieAtZero 0 + p.burstTime }) ∧
    (sjfIter tieAtZero 2).processes.map (fun p => (p.pid, p.completionTime)) = [(2, 2), (1, 6)] ∧
    (sjf_metrics tieAtZero).avgTurnaround = some 4 := by
  refine ⟨⟨by decide, by decide⟩,
    sjf_dispatches_shortest_arrived tieAtZero (by decide) 0 (by decide), by decide, ?_⟩
  have h8 : (sjfIter tieAtZero tieAtZero.length).totalTurnaround = 8 := by decide
  show fdiv (sjfIter tieAtZero tieAtZero.length).totalTurnaround tieAtZero.length = some 4
  rw [h8]
  norm_num [fdiv, tieAtZero]


/-- C4, evaluated at the input of three processes arriving at `0` with bursts
5, 5 and 1 (pids 1, 2, 3).  The first iteration exchanges pid 3 with pid 1, so
at the decision of the second iteration the unscheduled window holds pid 2 in
front of pid 1; both have arrived and share the smallest burst, and the record
dispatched is pid 2 although pid 1 precedes it in the arrival ordering. -/
theorem sjf_tie_break_after_exchange :
    Valid tieAfterExchange ∧
    sjfClock tieAfterExchange 1 = 1 ∧
    (sjfWindow tieAfterExchange 1).map ident = [(2, 0, 5), (1, 0, 5)] ∧
    (sjfDispatched tieAfterExchange 1).map ident = some (2, 0, 5) ∧
    (sjfDispatchList tieAfterExchange).map Process.pid = [3, 2, 1] ∧
    ∃ p r, sjfDispatched tieAfterExchange 1 = some p ∧ r ∈ sjfWindow tieAfterExchange 1 ∧
      r.arrivalTime ≤ sjfClock tieAfterExchange 1 ∧ r.burstTime = p.burstTime ∧
      ArrivesBefore r p := by
  refine ⟨by decide, by decide, by decide, by decide, by decide,
    nth (sjfIter tieAfterExchange 1).processes 1, nth (sjfIter tieAfterExchange 1).processes 2,
    by decide, by decide, by decide, by decide, by decide⟩

theorem fcfsTimeline_run (c : Int) (l : List Process) :
    ∀ p ∈ fcfsTimeline c l, p.completionTime = p.startTime + p.burstTime := by
  induction l generalizing c with
  | nil => intro p hp; simp [fcfsTimeline] at hp
  | cons a l ih =>
    intro p hp
    simp only [fcfsTimeline, List.mem_cons] at hp
    rcases hp with rfl | hp
    · rfl
    · exact ih _ p hp

theorem fdiv_isSome (t : Int) (n : Nat) (hn : 1 ≤ n) : ∃ w, fdiv t n = some w := by
  have : n ≠ 0 := by omega
  exact ⟨(t : ℚ) / (n : ℚ), by simp [fdiv, this]⟩

/-- C8.  For at least one process and valid input, `fcfs_metrics` and
`sjf_metrics` each return equal numbers as `avgResponse` and `avgWaiting`: every
record of the working array on exit has `start - arrival` equal to
`completion - arrival - burst`, and the two totals are equal. -/
theorem response_eq_waiting (proc : List Process) (hn : 1 ≤ proc.length) (hv : Valid proc) :
    ((∃ w, (fcfs_metrics proc).avgWaiting = some w ∧ (fcfs_metrics proc).avgResponse = some w) ∧
      ∀ p ∈ (fcfsIter proc proc.length).processes,
        p.startTime - p.arrivalTime = p.completionTime - p.arrivalTime - p.burstTime) ∧
    ((∃ w, (sjf_metrics proc).avgWaiting = some w ∧ (sjf_metrics proc).avgResponse = some w) ∧
      ∀ p ∈ (sjfIter proc proc.length).processes,
        p.startTime - p.arrivalTime = p.completionTime - p.arrivalTime - p.burstTime) := by
  have hb : ∀ p ∈ proc, 0 ≤ p.burstTime := fun p hp => le_of_lt (hv.2 p hp).2
  refine ⟨⟨?_, ?_⟩, ⟨?_, ?_⟩⟩
  · obtain ⟨w, hw⟩ := fdiv_isSome (fcfsIter proc proc.length).totalWaiting proc.length hn
    refine ⟨w, hw, ?_⟩
    show fdiv (fcfsIter proc proc.length).totalResponse proc.length = some w
    rw [(fcfs_totals proc).2]
    exact hw
  · intro p hp
    rw [(fcfsIter_final proc).1] at hp
    have := fcfsTimeline_run _ _ p hp
    omega
  · obtain ⟨w, hw⟩ := fdiv_isSome (sjfIter proc proc.length).totalWaiting proc.length hn
    refine ⟨w, hw, ?_⟩
    show fdiv (sjfIter proc proc.length).totalResponse proc.length = some w
    rw [(sjf_totals proc hb).2]
    exact hw
  · intro p hp
    have inv := sjfIter_inv proc hb proc.length (le_refl _)
    obtain ⟨j, hj, rfl⟩ := List.getElem_of_mem hp
    rw [← nth_eq_getElem _ j hj]
    have := inv.run j (by rw [← inv.len]; exact hj)
    omega

theorem response_eq_waiting_witness :
    (1 ≤ tieAtZero.length ∧ Valid tieAtZero) ∧
    (∃ w, (fcfs_metrics tieAtZero).avgWaiting = some w ∧
      (fcfs_metrics tieAtZero).avgResponse = some w) ∧
    (∃ w, (sjf_metrics tieAtZero).avgWaiting = some w ∧
      (sjf_metrics tieAtZero).avgResponse = some w) :=
  have h := response_eq_waiting tieAtZero (by decide) (by decide)
  ⟨⟨by decide, by decide⟩, h.1.1, h.2.1⟩


/-! ## Round Robin: states at the head of the main loop -/

theorem rrIter_inv (procs0 : List Process) (hs : RRStatic procs0) (q : Int) (hq : 1 ≤ q)
    (k : Nat) (st0 st : RRState) (inv : RRInv procs0 st0)
    (h : rrIter procs0.length q k st0 = some st) : RRInv procs0 st := by
  induction k generalizing st0 with
  | zero =>
    have e : st0 = st := by simpa [rrIter] using h
    subst e
    exact inv
  | succ k ih =>
    unfold rrIter at h
    split_ifs at h with hc
    obtain ⟨b1, b2, -⟩ := rrBody_inv procs0 hs q hq st0 inv hc
    generalize rrBody procs0.length q st0 = r at h b1 b2
    obtain ⟨st', flag⟩ := r
    simp only at b1
    subst b1
    exact ih st' b2 h

theorem rr_reach_inv (proc : List Process) (hv : Valid proc) (hn : 0 < proc.length) (q : Int)
    (hq : 1 ≤ q) (k : Nat) (st : RRState)
    (h : rrIter proc.length q k (rrInit proc) = some st) :
    RRInv (rrInit proc).procs st := by
  rw [← rrInit_procs_length proc] at h
  exact rrIter_inv _ (rrInit_static proc hv) q hq k _ st (rrInit_inv proc hv hn) h

theorem rrInit_arrival_order (proc : List Process) (hv : Valid proc) :
    (rrInit proc).procs.Pairwise ArrivesBefore := by
  apply qsort_sorted
  rw [List.map_map]
  exact hv.1

theorem arrivesBefore_of_ident {a b a' b' : Process} (ha : ident a = ident a')
    (hb : ident b = ident b') (h : ArrivesBefore a' b') : ArrivesBefore a b := by
  unfold ArrivesBefore at h ⊢
  rw [ident_arrival ha, ident_arrival hb, ident_pid ha, ident_pid hb]
  exact h

/-- In every state of `rr_metrics` that satisfies the invariant the working
array is in arrival order. -/
theorem rr_arrival_order (proc : List Process) (hv : Valid proc) (st : RRState)
    (inv : RRInv (rrInit proc).procs st) (i j : Nat) (hij : i < j) (hj : j < proc.length) :
    ArrivesBefore (nth st.procs i) (nth st.procs j) := by
  have hp := rrInit_arrival_order proc hv
  rw [List.pairwise_iff_getElem] at hp
  have hl := rrInit_procs_length proc
  have := hp i j (by omega) (by omega) hij
  rw [← nth_eq_getElem _ i (by omega), ← nth_eq_getElem _ j (by omega)] at this
  exact arrivesBefore_of_ident (inv.key i) (inv.key j) this

theorem filter_range'_initial (P : Nat → Bool) (a m r : Nat)
    (h1 : ∀ i, a ≤ i → i < a + m → P i = true)
    (h2 : ∀ i, a + m ≤ i → i < a + m + r → P i = false) :
    (List.range' a (m + r)).filter P = List.range' a m := by
  have e : List.range' a (m + r) = List.range' a m ++ List.range' (a + m) r := by
    rw [List.range'_append_1, Nat.add_comm]
  have e1 : (List.range' a m).filter P = List.range' a m := by
    rw [List.filter_eq_self]
    intro i hi
    rw [List.mem_range'_1] at hi
    exact h1 i hi.1 hi.2
  have e2 : (List.range' (a + m) r).filter P = [] := by
    rw [List.filter_eq_nil_iff]
    intro i hi
    rw [List.mem_range'_1] at hi
    rw [h2 i hi.1 hi.2]
    simp
  rw [e, List.filter_append, e1, e2, List.append_nil]

/-- The queue after the preempting branch of the loop body: what was behind the
head, then the indices from the cursor up to the first record that has not
arrived by the advanced clock, then the preempted index. -/
theorem preempt_queue (procs0 : List Process) (s : RRState) (inv : RRInv procs0 s)
    (h0 : s.q_count ≠ 0) (q : Int) :
    ∃ m, s.next_arrival_check_idx + m ≤ procs0.length ∧
      queueList procs0.length (preempt procs0.length q s)
        = (queueList procs0.length s).tail ++ List.range' s.next_arrival_check_idx m
          ++ [headIdx procs0.length s] ∧
      (preempt procs0.length q s).currentTime = s.currentTime + q ∧
      (∀ i, s.next_arrival_check_idx ≤ i → i < s.next_arrival_check_idx + m →
        (nth s.procs i).arrivalTime ≤ s.currentTime + q) ∧
      (s.next_arrival_check_idx + m < procs0.length →
        s.currentTime + q < (nth s.procs (s.next_arrival_check_idx + m)).arrivalTime) := by
  obtain ⟨d1, d2, d3, d4, d5, d6, d7⟩ := dequeue_facts procs0 s inv h0
  have hidx : headIdx procs0.length s < s.procs.length := by
    rw [inv.len]; have := inv.next_le; unfold headIdx; omega
  have hcnt := inv.cnt
  have hnl := inv.next_le
  have f2 : (charge procs0.length q s).q_count = (dequeue procs0.length s).2.q_count := rfl
  have f3 : (charge procs0.length q s).next_arrival_check_idx = s.next_arrival_check_idx := rfl
  have f4 : (charge procs0.length q s).currentTime = s.currentTime + q := rfl
  have f8 : queueList procs0.length (charge procs0.length q s)
      = queueList procs0.length (dequeue procs0.length s).2 := rfl
  have ok3 : QueueOK procs0.length (charge procs0.length q s) :=
    ⟨d4.buf, d4.head, d4.tail, d4.count⟩
  have farr : ∀ i, s.next_arrival_check_idx ≤ i →
      (nth (charge procs0.length q s).procs i).arrivalTime = (nth s.procs i).arrivalTime := by
    intro i hi
    show (nth (s.procs.set (headIdx procs0.length s) _) i).arrivalTime = _
    rw [nth_set _ _ _ _ hidx, if_neg (by unfold headIdx; omega)]
  obtain ⟨m, h1, h2, h3, h4, h5, h6, h7, -, -, -, -, h12, h13⟩ :=
    admission_spec procs0.length (charge procs0.length q s) ok3 (by rw [f2, f3]; omega)
      (by rw [f3]; exact hnl)
  rw [f3] at h1 h12 h13
  rw [f4] at h12 h13
  rw [f8, f3] at h4
  obtain ⟨-, e2⟩ := queueList_enqueue procs0.length _ (headIdx procs0.length s) h5
    (by rw [h3, f2]; omega)
  refine ⟨m, h1, ?_, ?_, ?_, ?_⟩
  · show queueList procs0.length (enqueue procs0.length _ _) = _
    rw [e2, h4, d3]
    rfl
  · show (admission procs0.length (charge procs0.length q s)).currentTime = _
    rw [h7, f4]
  · intro i hi1 hi2
    rw [← farr i hi1]
    exact h12 i hi1 hi2
  · intro hlt
    rw [← farr _ (by omega)]
    exact h13 hlt


/-- C5.  In `rr_metrics` on valid input with a quantum of at least `1`, take any
pass of the main loop in which the process at the head of the queue is preempted
with work remaining, and let `t` be the clock after its slice.  The queue at the
end of the pass is: what stood behind the head, then every record that was not
admitted before the slice and has arrived by `t`, in increasing index order
(which is arrival order, the working array being sorted), then the preempted
process at the tail. -/
theorem rr_preempt_admits_before_requeue (proc : List Process) (hv : Valid proc) (q : Int)
    (hq : 1 ≤ q) (k : Nat) (st : RRState)
    (hreach : rrIter proc.length q k (rrInit proc) = some st)
    (hrun : st.completed_count < proc.length) (s : RRState) (hs : s = admission proc.length st)
    (h0 : s.q_count ≠ 0) (hr : q < (current proc.length s).remainingTime) :
    rrBody proc.length q st = (preempt proc.length q s, false) ∧
    (preempt proc.length q s).currentTime = s.currentTime + q ∧
    queueList proc.length (preempt proc.length q s)
      = (queueList proc.length s).tail
        ++ (List.range' s.next_arrival_check_idx (proc.length - s.next_arrival_check_idx)).filter
            (fun i => decide ((nth s.procs i).arrivalTime ≤ s.currentTime + q))
        ++ [headIdx proc.length s] ∧
    ∀ i j, i < j → j < proc.length → ArrivesBefore (nth s.procs i) (nth s.procs j) := by
  have hn : 0 < proc.length := by omega
  have hl := rrInit_procs_length proc
  have hst := rrInit_static proc hv
  have inv := rr_reach_inv proc hv hn q hq k st hreach
  have inv1 : RRInv (rrInit proc).procs s := by
    rw [hs, ← hl]; exact (admission_inv _ hst st inv).1
  subst hs
  refine ⟨rrBody_preempt _ _ _ h0 (by omega), ?_, ?_, fun i j hij hj =>
    rr_arrival_order proc hv _ inv1 i j hij hj⟩
  · obtain ⟨m, -, -, h3, -, -⟩ := preempt_queue _ _ inv1 h0 q
    rw [hl] at h3
    exact h3
  · obtain ⟨m, h1, h2, -, h4, h5⟩ := preempt_queue _ _ inv1 h0 q
    rw [hl] at h1 h2 h5
    rw [h2]
    congr 2
    have e : proc.length - (admission proc.length st).next_arrival_check_idx
        = m + (proc.length - (admission proc.length st).next_arrival_check_idx - m) := by omega
    rw [e]
    symm
    apply filter_range'_initial
    · intro i hi1 hi2
      exact decide_eq_true (h4 i hi1 hi2)
    · intro i hi1 hi2
      apply decide_eq_false
      have hlt := h5 (by omega)
      have hs1 := hst.sorted
      rw [hl] at hs1
      have hle : (nth (admission proc.length st).procs
            ((admission proc.length st).next_arrival_check_idx + m)).arrivalTime
          ≤ (nth (admission proc.length st).procs i).arrivalTime := by
        rcases Nat.eq_or_lt_of_le hi1 with e' | hlt'
        · rw [e']
        · rw [ident_arrival (inv1.key _), ident_arrival (inv1.key i)]
          exact hs1 _ i hlt' (by omega)
      omega

theorem rr_preempt_admits_before_requeue_witness :
    (Valid arrivalDuringSlice ∧ (1 : Int) ≤ 2 ∧
      rrIter arrivalDuringSlice.length 2 0 (rrInit arrivalDuringSlice)
        = some (rrInit arrivalDuringSlice) ∧
      (rrInit arrivalDuringSlice).completed_count < arrivalDuringSlice.length ∧
      (admission arrivalDuringSlice.length (rrInit arrivalDuringSlice)).q_count ≠ 0 ∧
      (2 : Int) < (current arrivalDuringSlice.length
        (admission arrivalDuringSlice.length (rrInit arrivalDuringSlice))).remainingTime) ∧
    rrBody arrivalDuringSlice.length 2 (rrInit arrivalDuringSlice)
      = (preempt arrivalDuringSlice.length 2
          (admission arrivalDuringSlice.length (rrInit arrivalDuringSlice)), false) ∧
    queueList arrivalDuringSlice.length
      (preempt arrivalDuringSlice.length 2
        (admission arrivalDuringSlice.length (rrInit arrivalDuringSlice))) = [1, 0] ∧
    (rrLoop arrivalDuringSlice.length 2 4 (rrInit arrivalDuringSlice)).map
      (fun final => final.procs.map fun p => (p.pid, p.completionTime))
      = some [(1, 6), (2, 4)] :=
  have h := rr_preempt_admits_before_requeue arrivalDuringSlice (by decide) 2 (by decide) 0
    (rrInit arrivalDuringSlice) rfl (by decide) _ rfl (by decide) (by decide)
  ⟨⟨by decide, by decide, rfl, by decide, by decide, by decide⟩, h.1, by decide, by decide⟩


theorem rr_dispatch_step (procs0 : List Process) (hst : RRStatic procs0) (q : Int)
    (hq : 1 ≤ q) (s : RRState) (inv1 : RRInv procs0 s) (h0 : s.q_count ≠ 0) :
    (queueList procs0.length s).head? = some (headIdx procs0.length s) ∧
    ((nth s.procs (headIdx procs0.length s)).remainingTime ≤ q →
      (finish procs0.length s).currentTime
        = s.currentTime + (nth s.procs (headIdx procs0.length s)).remainingTime ∧
      (nth (finish procs0.length s).procs (headIdx procs0.length s)).remainingTime = 0 ∧
      queueList procs0.length (finish procs0.length s) = (queueList procs0.length s).tail) ∧
    (q < (nth s.procs (headIdx procs0.length s)).remainingTime →
      (preempt procs0.length q s).currentTime = s.currentTime + q ∧
      (nth (preempt procs0.length q s).procs (headIdx procs0.length s)).remainingTime
        = (nth s.procs (headIdx procs0.length s)).remainingTime - q ∧
      (queueList procs0.length (preempt procs0.length q s)).getLast?
        = some (headIdx procs0.length s)) := by
  obtain ⟨d1, d2, d3, -, -, -, -⟩ := dequeue_facts _ s inv1 h0
  have hidx : headIdx procs0.length s < s.procs.length := by
    rw [inv1.len]; have := inv1.next_le; unfold headIdx; omega
  have hcur : (current procs0.length s).remainingTime
      = (nth s.procs (headIdx procs0.length s)).remainingTime := markStart_remaining _ _
  refine ⟨by rw [d3]; rfl, fun hr => ⟨?_, ?_, ?_⟩, fun hr => ?_⟩
  · show s.currentTime + (current procs0.length s).remainingTime = _
    rw [hcur]
  · show (nth (s.procs.set _ _) _).remainingTime = _
    rw [nth_set_self _ _ _ hidx]
  · show queueList procs0.length (dequeue procs0.length s).2 = _
    rw [d3]; rfl
  · obtain ⟨m, -, h2, h3, -, -⟩ := preempt_queue _ _ inv1 h0 q
    have hp := (preempt_inv _ hst _ inv1 h0 q (by omega)
      { current procs0.length s with
        remainingTime := (current procs0.length s).remainingTime - q }
      (markStart_ident _ _) (by simp only [current, markStart_remaining]; rfl)
      (by simp only; rw [hcur]; omega) (charge procs0.length q s) rfl).2.1
    have hp' : (preempt procs0.length q s).procs = _ := hp
    refine ⟨h3, ?_, ?_⟩
    · rw [hp']
      have e := nth_set_self s.procs (headIdx procs0.length s)
        { current procs0.length s with
          remainingTime := (current procs0.length s).remainingTime - q } hidx
      show (nth (s.procs.set (headIdx procs0.length s) _)
        (headIdx procs0.length s)).remainingTime = _
      rw [e]
      show (current procs0.length s).remainingTime - q = _
      rw [hcur]
    · rw [h2, List.getLast?_append]
      rfl

/-- C7.  In `rr_metrics` on valid input with a quantum of at least `1`, every
pass of the main loop that dispatches takes the index at the head of the queue,
advances the clock by the smaller of that process's remaining time and the
quantum, and takes the same amount off its remaining time; a process that
finishes leaves the queue, a process with work left is written at the tail. -/
theorem rr_dispatch_head_min_slice (proc : List Process) (hv : Valid proc) (q : Int)
    (hq : 1 ≤ q) (k : Nat) (st : RRState)
    (hreach : rrIter proc.length q k (rrInit proc) = some st)
    (hrun : st.completed_count < proc.length) (s : RRState) (hs : s = admission proc.length st)
    (h0 : s.q_count ≠ 0) :
    (queueList proc.length s).head? = some (headIdx proc.length s) ∧
    (rrBody proc.length q st).1.currentTime
      = s.currentTime + min (nth s.procs (headIdx proc.length s)).remainingTime q ∧
    (nth (rrBody proc.length q st).1.procs (headIdx proc.length s)).remainingTime
      = (nth s.procs (headIdx proc.length s)).remainingTime
        - min (nth s.procs (headIdx proc.length s)).remainingTime q ∧
    ((nth s.procs (headIdx proc.length s)).remainingTime ≤ q →
      queueList proc.length (rrBody proc.length q st).1 = (queueList proc.length s).tail) ∧
    (q < (nth s.procs (headIdx proc.length s)).remainingTime →
      (queueList proc.length (rrBody proc.length q st).1).getLast?
        = some (headIdx proc.length s)) := by
  have hn : 0 < proc.length := by omega
  have hst := rrInit_static proc hv
  have inv := rr_reach_inv proc hv hn q hq k st hreach
  have inv1 := (admission_inv _ hst st inv).1
  subst hs
  rw [← rrInit_procs_length proc] at h0 ⊢
  obtain ⟨a1, a2, a3⟩ := rr_dispatch_step _ hst q hq _ inv1 h0
  have hcur : (current (rrInit proc).procs.length
        (admission (rrInit proc).procs.length st)).remainingTime
      = (nth (admission (rrInit proc).procs.length st).procs
          (headIdx (rrInit proc).procs.length
            (admission (rrInit proc).procs.length st))).remainingTime := markStart_remaining _ _
  by_cases hr : (nth (admission (rrInit proc).procs.length st).procs
      (headIdx (rrInit proc).procs.length
        (admission (rrInit proc).procs.length st))).remainingTime ≤ q
  · obtain ⟨b1, b2, b3⟩ := a2 hr
    rw [rrBody_complete _ _ _ h0 (by rw [hcur]; exact hr), min_eq_left hr]
    exact ⟨a1, b1, by rw [b2]; omega, fun _ => b3, fun h => by omega⟩
  · obtain ⟨b1, b2, b3⟩ := a3 (by omega)
    rw [rrBody_preempt _ _ _ h0 (by rw [hcur]; exact hr), min_eq_right (by omega)]
    exact ⟨a1, b1, b2, fun h => absurd h hr, fun _ => b3⟩

theorem rr_dispatch_head_min_slice_witness :
    (Valid twoAtZero ∧ (1 : Int) ≤ 2 ∧
      rrIter twoAtZero.length 2 0 (rrInit twoAtZero) = some (rrInit twoAtZero) ∧
      (rrInit twoAtZero).completed_count < twoAtZero.length ∧
      (admission twoAtZero.length (rrInit twoAtZero)).q_count ≠ 0) ∧
    (queueList twoAtZero.length (admission twoAtZero.length (rrInit twoAtZero))).head?
      = some (headIdx twoAtZero.length (admission twoAtZero.length (rrInit twoAtZero))) ∧
    (rrBody twoAtZero.length 2 (rrInit twoAtZero)).1.currentTime = 2 ∧
    (List.range 6).map (fun k => (rrIter twoAtZero.length 2 k (rrInit twoAtZero)).map
        fun st => (st.currentTime, queueList twoAtZero.length st))
      = [some (0, []), some (2, [1, 0]), some (4, [0, 1]), some (6, [1, 0]), some (7, [0]),
         some (8, [])] ∧
    (rrLoop twoAtZero.length 2 5 (rrInit twoAtZero)).map
      (fun final => final.procs.map fun p => (p.pid, p.completionTime))
      = some [(1, 8), (2, 7)] ∧
    (rr_metrics 5 twoAtZero 2).map Metrics.avgWaiting = some (some (7 / 2)) := by
  have h := rr_dispatch_head_min_slice twoAtZero (by decide) 2 (by decide) 0
    (rrInit twoAtZero) rfl (by decide) _ rfl (by decide)
  refine ⟨⟨by decide, by decide, rfl, by decide, by decide⟩, h.1, by decide, by decide,
    by decide, ?_⟩
  have e : (rrLoop twoAtZero.length 2 5 (rrInit twoAtZero)).map RRState.totalWaitingTime
      = some 7 := by decide
  unfold rr_metrics
  cases hf : rrLoop twoAtZero.length 2 5 (rrInit twoAtZero) with
  | none => rw [hf] at e; simp at e
  | some final =>
    rw [hf] at e
    have e' : final.totalWaitingTime = 7 := by simpa using e
    simp only [Option.map_some', e', fdiv, twoAtZero]
    norm_num


/-! ## A single process -/

/-- More fuel does not change the state the main loop of `rr_metrics` exits
with. -/
theorem rrLoop_mono (n : Nat) (q : Int) (fuel : Nat) (st final : RRState)
    (h : rrLoop n q fuel st = some final) (fuel' : Nat) (hf : fuel ≤ fuel') :
    rrLoop n q fuel' st = some final := by
  induction fuel generalizing st fuel' with
  | zero =>
    unfold rrLoop at h
    split_ifs at h with hc
    cases fuel' <;> simpa [rrLoop, hc] using h
  | succ fuel ih =>
    obtain ⟨f, rfl⟩ : ∃ f, fuel' = f + 1 := ⟨fuel' - 1, by omega⟩
    unfold rrLoop at h ⊢
    split_ifs at h ⊢ with hc
    · generalize rrBody n q st = r at h ⊢
      obtain ⟨st', flag⟩ := r
      cases flag with
      | true => exact h
      | false => exact ih st' h f (by omega)
    · exact h

theorem rrInit_single (p : Process) (ha : 0 ≤ p.arrivalTime) :
    rrInit [p] =
      { procs := [{ p with remainingTime := p.burstTime, startTime := -1 }]
        ready_queue := [0]
        q_head := 0
        q_tail := 0
        q_count := 0
        currentTime := p.arrivalTime
        completed_count := 0
        next_arrival_check_idx := 0
        totalTurnaroundTime := 0
        totalWaitingTime := 0
        totalResponseTime := 0 } := by
  simp only [rrInit, List.map_cons, List.map_nil, qsort, qsortInsert, List.length_singleton,
    List.replicate, nth, List.getD_cons_zero]
  congr 1
  split_ifs with h
  · rfl
  · omega

theorem rrBody_single_first (p : Process) (ha : 0 ≤ p.arrivalTime) (q : Int) :
    rrBody 1 q (rrInit [p])
      = (if p.burstTime ≤ q then singleFinal p else singleState p (p.burstTime - q), false) := by
  rw [rrInit_single p ha]
  simp only [rrBody, admission, admissionLoop, enqueue, dequeue, markStart, nth, singleFinal, singleState]
  simp [admissionLoop]
  split_ifs <;> simp [admissionLoop]


theorem rrBody_single_next (p : Process) (ha : 0 ≤ p.arrivalTime) (q r : Int) :
    rrBody 1 q (singleState p r)
      = (if r ≤ q then singleFinal p else singleState p (r - q), false) := by
  have hne : ¬ p.arrivalTime = -1 := by omega
  simp only [rrBody, admission, admissionLoop, enqueue, dequeue, markStart, nth, singleFinal, singleState]
  simp [admissionLoop, hne]
  split_ifs <;> simp [admissionLoop] <;> omega

theorem rrLoop_singleFinal (p : Process) (q : Int) (fuel : Nat) :
    rrLoop 1 q fuel (singleFinal p) = some (singleFinal p) := by
  cases fuel <;> simp [rrLoop, singleFinal]

theorem rrLoop_singleState (p : Process) (ha : 0 ≤ p.arrivalTime) (q : Int) (hq : 1 ≤ q)
    (fuel : Nat) (r : Int) (hr : 0 < r) (hf : r.toNat ≤ fuel) :
    rrLoop 1 q fuel (singleState p r) = some (singleFinal p) := by
  induction fuel generalizing r with
  | zero => omega
  | succ fuel ih =>
    unfold rrLoop
    rw [if_pos (by simp [singleState]), rrBody_single_next p ha]
    split_ifs with h
    · exact rrLoop_singleFinal p q fuel
    · exact ih (r - q) (by omega) (by omega)

theorem rrLoop_single (p : Process) (ha : 0 ≤ p.arrivalTime) (hb : 0 < p.burstTime) (q : Int)
    (hq : 1 ≤ q) :
    rrLoop 1 q p.burstTime.toNat (rrInit [p]) = some (singleFinal p) := by
  obtain ⟨f, hf⟩ : ∃ f, p.burstTime.toNat = f + 1 := ⟨p.burstTime.toNat - 1, by omega⟩
  rw [hf]
  unfold rrLoop
  rw [if_pos (by rw [rrInit_single p ha]; exact Nat.zero_lt_one), rrBody_single_first p ha]
  split_ifs with h
  · exact rrLoop_singleFinal p q f
  · exact rrLoop_singleState p ha q hq f _ (by omega) (by omega)

theorem fcfs_single (p : Process) (ha : 0 ≤ p.arrivalTime) :
    fcfs_metrics [p] = singleMetrics p.burstTime := by
  have h : ¬ p.arrivalTime > 0 → p.arrivalTime = 0 := by omega
  simp only [fcfs_metrics, fcfsIter, averages, fdiv, singleMetrics, List.length_singleton,
    List.range_succ, List.range_zero, List.nil_append, List.foldl_cons, List.foldl_nil, fcfsBody,
    dispatch, bumpClock, initLoop, qsort, qsortInsert, nth, List.getD_cons_zero,
    Nat.one_ne_zero, if_false]
  by_cases h1 : p.arrivalTime > 0
  · simp [h1]
  · simp [h h1]

theorem sjf_single (p : Process) (ha : 0 ≤ p.arrivalTime) :
    sjf_metrics [p] = singleMetrics p.burstTime := by
  have h : ¬ p.arrivalTime > 0 → p.arrivalTime = 0 := by omega
  simp only [sjf_metrics, sjfIter, averages, fdiv, singleMetrics, List.length_singleton,
    List.range_succ, List.range_zero, List.nil_append, List.foldl_cons, List.foldl_nil, sjfBody,
    findShortest, scanStep, List.range', dispatch, bumpClock, initLoop, qsort, qsortInsert, nth,
    List.getD_cons_zero, Nat.one_ne_zero, if_false]
  by_cases h1 : p.arrivalTime > 0
  · simp [h1]
  · simp [h h1]

/-! ## The empty input -/

/-- C10, evaluated at the empty input (`n = 0`).  No loop body runs and the three
totals stay `0`, but each engine goes on to the final divisions `total / n`, which
are `0.0 / 0`: every field of the record returned is NaN (`none`), not `0`. -/
theorem empty_input_divides_by_zero :
    (fcfsIter [] 0).totalTurnaround = 0 ∧ (sjfIter [] 0).totalTurnaround = 0 ∧
    fdiv 0 0 = none ∧
    fcfs_metrics [] = { avgTurnaround := none, avgWaiting := none, avgResponse := none } ∧
    sjf_metrics [] = { avgTurnaround := none, avgWaiting := none, avgResponse := none } ∧
    (∀ fuel timeQuantum, rrLoop 0 timeQuantum fuel (rrInit []) = some (rrInit [])) ∧
    ∀ fuel timeQuantum, rr_metrics fuel [] timeQuantum
      = some { avgTurnaround := none, avgWaiting := none, avgResponse := none } := by
  have h : ∀ fuel timeQuantum, rrLoop 0 timeQuantum fuel (rrInit []) = some (rrInit []) := by
    intro fuel timeQuantum
    cases fuel <;> rfl
  refine ⟨rfl, rfl, rfl, rfl, rfl, h, ?_⟩
  intro fuel timeQuantum
  unfold rr_metrics
  rw [List.length_nil, h]
  rfl

/-! ## Round Robin with a quantum that is not positive

For `timeQuantum = 0` no integer changes from one pass to the next, and the
statements of this section are statements about the C program.  For
`timeQuantum < 0` the remaining time of a dispatched record grows with every
dispatch; in C this ends in signed overflow, which is outside the embedding, so
beyond the control flow of a single pass the lemmas below describe the
embedding, with its unbounded integers, only. -/

theorem stuck_step (n : Nat) (hn : 0 < n) (q : Int) (hq : q ≤ 0) (st : RRState)
    (inv : StuckInv n st) :
    (rrBody n q st).2 = false ∧ StuckInv n (rrBody n q st).1 := by
  obtain ⟨m, h1, h2, h3, h4, h5, h6, h7, h8, -, -, -, -, -⟩ :=
    admission_spec n st inv.queue (le_of_eq inv.cnt) inv.next_le
  have hcnt := inv.cnt
  have hinb : ∀ x ∈ queueList n (admission n st), x < n := by
    intro x hx
    rw [h4, List.mem_append, List.mem_range'_1] at hx
    rcases hx with hx | hx
    · exact inv.inb x hx
    · omega
  by_cases h0 : (admission n st).q_count = 0
  · have hnx : (admission n st).next_arrival_check_idx < n := by omega
    rw [rrBody_idle n q st h0 (by rw [h8, inv.none_done]; exact hn) hnx]
    refine ⟨rfl, ⟨?_, ⟨h5.buf, h5.head, h5.tail, h5.count⟩, ?_, ?_, ?_, hinb, ?_⟩⟩
    · show (admission n st).procs.length = n
      rw [h6]; exact inv.len
    · show (admission n st).next_arrival_check_idx ≤ n
      omega
    · show (admission n st).q_count = (admission n st).next_arrival_check_idx
      omega
    · show (admission n st).completed_count = 0
      rw [h8]; exact inv.none_done
    · intro i hi
      show 1 ≤ (nth (admission n st).procs i).remainingTime
      rw [h6]; exact inv.rem i hi
  · obtain ⟨ok2, hl⟩ := queueList_dequeue n (admission n st) h5 (by omega)
    have hidx : headIdx n (admission n st) < n := by
      apply hinb
      rw [hl]
      exact List.mem_cons_self _ _
    have hrem : 1 ≤ (nth (admission n st).procs (headIdx n (admission n st))).remainingTime := by
      rw [h6]; exact inv.rem _ hidx
    have hcur : (current n (admission n st)).remainingTime
        = (nth (admission n st).procs (headIdx n (admission n st))).remainingTime :=
      markStart_remaining _ _
    rw [rrBody_preempt n q st h0 (by rw [hcur]; omega)]
    have ok3 : QueueOK n (charge n q (admission n st)) :=
      ⟨ok2.buf, ok2.head, ok2.tail, ok2.count⟩
    have f2 : (charge n q (admission n st)).q_count + 1 = (admission n st).q_count := by
      show (admission n st).q_count - 1 + 1 = _
      omega
    have f3 : (charge n q (admission n st)).next_arrival_check_idx
        = (admission n st).next_arrival_check_idx := rfl
    have f8 : queueList n (charge n q (admission n st))
        = queueList n (dequeue n (admission n st)).2 := rfl
    obtain ⟨m2, g1, g2, g3, g4, g5, g6, -, g8, -, -, -, -, -⟩ :=
      admission_spec n (charge n q (admission n st)) ok3 (by omega) (by omega)
    obtain ⟨e1, e2⟩ := queueList_enqueue n _ (headIdx n (admission n st)) g5 (by omega)
    have hlen : headIdx n (admission n st) < (admission n st).procs.length := by
      rw [h6, inv.len]; exact hidx
    refine ⟨rfl, ⟨?_, e1, ?_, ?_, ?_, ?_, ?_⟩⟩
    · show (admission n (charge n q (admission n st))).procs.length = n
      rw [g6]
      show ((admission n st).procs.set _ _).length = n
      rw [List.length_set, h6]; exact inv.len
    · show (admission n (charge n q (admission n st))).next_arrival_check_idx ≤ n
      omega
    · show (admission n (charge n q (admission n st))).q_count + 1
        = (admission n (charge n q (admission n st))).next_arrival_check_idx
      omega
    · show (admission n (charge n q (admission n st))).completed_count = 0
      rw [g8]
      show (admission n st).completed_count = 0
      rw [h8]; exact inv.none_done
    · intro x hx
      show x < n
      have hx' : x ∈ queueList n (admission n (charge n q (admission n st)))
          ++ [headIdx n (admission n st)] := by rw [← e2]; exact hx
      rw [g4, f8, List.mem_append, List.mem_append, List.mem_range'_1, List.mem_singleton] at hx'
      rcases hx' with (hx' | hx') | hx'
      · apply hinb
        rw [hl]
        exact List.mem_cons_of_mem _ hx'
      · omega
      · omega
    · intro i hi
      show 1 ≤ (nth (admission n (charge n q (admission n st))).procs i).remainingTime
      rw [g6]
      show 1 ≤ (nth ((admission n st).procs.set (headIdx n (admission n st)) _) i).remainingTime
      rw [nth_set _ _ _ _ hlen]
      split_ifs with h
      · show 1 ≤ (current n (admission n st)).remainingTime - q
        rw [hcur]; omega
      · rw [h6]; exact inv.rem i hi

theorem stuck_init (proc : List Process) (hv : Valid proc) (hn : 0 < proc.length) :
    StuckInv proc.length (rrInit proc) where
  len := rrInit_procs_length proc
  queue := by
    have := (rrInit_inv proc hv hn).queue
    rwa [rrInit_procs_length] at this
  next_le := Nat.zero_le _
  cnt := rfl
  none_done := rfl
  inb := by intro x hx; simp [queueList, rrInit] at hx
  rem := by
    intro i hi
    obtain ⟨p, hp, e⟩ := rrInit_mem proc i hi
    rw [e]
    have := (hv.2 p hp).2
    show 1 ≤ p.burstTime
    omega

theorem stuck_iter (n : Nat) (hn : 0 < n) (q : Int) (hq : q ≤ 0) (k : Nat) (st : RRState)
    (inv : StuckInv n st) :
    ∃ st', rrIter n q k st = some st' ∧ StuckInv n st' := by
  induction k generalizing st with
  | zero => exact ⟨st, rfl, inv⟩
  | succ k ih =>
    obtain ⟨b1, b2⟩ := stuck_step n hn q hq st inv
    unfold rrIter
    rw [if_pos (by rw [inv.none_done]; exact hn)]
    generalize rrBody n q st = r at b1 b2
    obtain ⟨st1, flag⟩ := r
    simp only at b1 b2
    subst b1
    exact ih st1 b2

theorem stuck_loop (n : Nat) (hn : 0 < n) (q : Int) (hq : q ≤ 0) (fuel : Nat) (st : RRState)
    (inv : StuckInv n st) : rrLoop n q fuel st = none := by
  induction fuel generalizing st with
  | zero =>
    unfold rrLoop
    rw [if_pos (by rw [inv.none_done]; exact hn)]
  | succ fuel ih =>
    obtain ⟨b1, b2⟩ := stuck_step n hn q hq st inv
    unfold rrLoop
    rw [if_pos (by rw [inv.none_done]; exact hn)]
    generalize rrBody n q st = r at b1 b2
    obtain ⟨st1, flag⟩ := r
    simp only at b1 b2
    subst b1
    exact ih st1 b2

/-- Under a quantum `q ≤ 0`, in a state at the head of the main loop in which the
first record of the array has arrived, the pass finds the queue not empty after
the admission loop and the test `remainingTime <= timeQuantum` fails: the pass
dispatches the head of the queue and takes the preempting branch. -/
theorem stuck_dispatch (n : Nat) (hn : 0 < n) (q : Int) (hq : q ≤ 0) (st : RRState)
    (inv : StuckInv n st) (harr : (nth st.procs 0).arrivalTime ≤ st.currentTime) :
    (admission n st).q_count ≠ 0 ∧
    ¬ (current n (admission n st)).remainingTime ≤ q ∧
    rrBody n q st = (preempt n q (admission n st), false) := by
  obtain ⟨m, h1, h2, h3, h4, h5, h6, h7, h8, -, -, -, -, h13⟩ :=
    admission_spec n st inv.queue (le_of_eq inv.cnt) inv.next_le
  have hcnt := inv.cnt
  have h0 : (admission n st).q_count ≠ 0 := by
    intro h0
    have hm : m = 0 := by omega
    have hx : st.next_arrival_check_idx = 0 := by omega
    have := h13 (by omega)
    rw [hm, hx, Nat.add_zero] at this
    omega
  have hinb : ∀ x ∈ queueList n (admission n st), x < n := by
    intro x hx
    rw [h4, List.mem_append, List.mem_range'_1] at hx
    rcases hx with hx | hx
    · exact inv.inb x hx
    · omega
  obtain ⟨-, hl⟩ := queueList_dequeue n (admission n st) h5 (by omega)
  have hidx : headIdx n (admission n st) < n := by
    apply hinb
    rw [hl]
    exact List.mem_cons_self _ _
  have hrem : 1 ≤ (nth (admission n st).procs (headIdx n (admission n st))).remainingTime := by
    rw [h6]; exact inv.rem _ hidx
  have hcur : (current n (admission n st)).remainingTime
      = (nth (admission n st).procs (headIdx n (admission n st))).remainingTime :=
    markStart_remaining _ _
  have hr : ¬ (current n (admission n st)).remainingTime ≤ q := by rw [hcur]; omega
  exact ⟨h0, hr, rrBody_preempt n q st h0 hr⟩

/-- Under the quantum `0`, the pass of `stuck_dispatch` leaves the clock and every
remaining time as they were. -/
theorem stuck_zero_pass (n : Nat) (hn : 0 < n) (st : RRState) (inv : StuckInv n st)
    (harr : (nth st.procs 0).arrivalTime ≤ st.currentTime) :
    (rrBody n 0 st).1.currentTime = st.currentTime ∧
    ∀ i, (nth (rrBody n 0 st).1.procs i).remainingTime = (nth st.procs i).remainingTime ∧
      (nth (rrBody n 0 st).1.procs i).arrivalTime = (nth st.procs i).arrivalTime := by
  obtain ⟨h0, -, hb⟩ := stuck_dispatch n hn 0 (le_refl _) st inv harr
  obtain ⟨m, h1, h2, h3, h4, h5, h6, h7, h8, -, -, -, -, -⟩ :=
    admission_spec n st inv.queue (le_of_eq inv.cnt) inv.next_le
  have hcnt := inv.cnt
  obtain ⟨ok2, hl⟩ := queueList_dequeue n (admission n st) h5 (by omega)
  have ok3 : QueueOK n (charge n 0 (admission n st)) :=
    ⟨ok2.buf, ok2.head, ok2.tail, ok2.count⟩
  have f2 : (charge n 0 (admission n st)).q_count + 1 = (admission n st).q_count := by
    show (admission n st).q_count - 1 + 1 = _
    omega
  have f3 : (charge n 0 (admission n st)).next_arrival_check_idx
      = (admission n st).next_arrival_check_idx := rfl
  obtain ⟨m2, -, -, -, -, -, g6, g7, -, -, -, -, -, -⟩ :=
    admission_spec n (charge n 0 (admission n st)) ok3 (by omega) (by omega)
  rw [hb]
  refine ⟨?_, fun i => ?_⟩
  · show (admission n (charge n 0 (admission n st))).currentTime = _
    rw [g7]
    show (admission n st).currentTime + 0 = _
    rw [h7, add_zero]
  · show (nth (admission n (charge n 0 (admission n st))).procs i).remainingTime = _ ∧
      (nth (admission n (charge n 0 (admission n st))).procs i).arrivalTime = _
    rw [g6]
    show (nth ((admission n st).procs.set (headIdx n (admission n st)) _) i).remainingTime = _ ∧
      (nth ((admission n st).procs.set (headIdx n (admission n st)) _) i).arrivalTime = _
    by_cases hi : headIdx n (admission n st) = i
    · by_cases hlen : i < (admission n st).procs.length
      · rw [hi, nth_set_self _ _ _ hlen, ← h6]
        refine ⟨?_, ?_⟩
        · show (current n (admission n st)).remainingTime - 0 = _
          rw [sub_zero, ← hi]
          exact markStart_remaining _ _
        · show (current n (admission n st)).arrivalTime = _
          rw [← hi]
          exact markStart_arrival _ _
      · rw [List.set_eq_of_length_le (by omega), h6]
        exact ⟨rfl, rfl⟩
    · rw [nth_set_ne _ _ _ _ hi, h6]
      exact ⟨rfl, rfl⟩

/-- Under the quantum `0` the main loop of `rr_metrics` passes from one state of
this kind to the next, for ever. -/
theorem stuck_zero_iter (n : Nat) (hn : 0 < n) (k : Nat) (st : RRState) (inv : StuckInv n st)
    (harr : (nth st.procs 0).arrivalTime ≤ st.currentTime) :
    ∃ st', rrIter n 0 k st = some st' ∧ StuckInv n st' ∧
      (nth st'.procs 0).arrivalTime ≤ st'.currentTime := by
  induction k generalizing st with
  | zero => exact ⟨st, rfl, inv, harr⟩
  | succ k ih =>
    obtain ⟨b1, b2⟩ := stuck_step n hn 0 (le_refl _) st inv
    obtain ⟨c1, c2⟩ := stuck_zero_pass n hn st inv harr
    have c3 := (c2 0).2
    unfold rrIter
    rw [if_pos (by rw [inv.none_done]; exact hn)]
    generalize rrBody n 0 st = r at b1 b2 c1 c3
    obtain ⟨st1, flag⟩ := r
    simp only at b1 b2 c1 c3
    subst b1
    exact ih st1 b2 (by rw [c1, c3]; exact harr)

theorem rrInit_first_arrived (proc : List Process) :
    (nth (rrInit proc).procs 0).arrivalTime ≤ (rrInit proc).currentTime := by
  show _ ≤ (if proc.length > 0 ∧ (nth (rrInit proc).procs 0).arrivalTime > 0
    then (nth (rrInit proc).procs 0).arrivalTime else 0)
  split_ifs with h
  · exact le_refl _
  · by_cases hn : proc.length > 0
    · have : ¬ (nth (rrInit proc).procs 0).arrivalTime > 0 := fun h' => h ⟨hn, h'⟩
      omega
    · have hnil : proc = [] := List.length_eq_zero.1 (by omega)
      subst hnil
      decide

/-- C11, as amended.  `rr_metrics` has no validation of the quantum.  Called with
`timeQuantum ≤ 0` on at least one valid process it is not rejected: the main
loop is entered (its condition holds in the initial state) and in the first
pass the queue is not empty after the admission loop and the test
`remainingTime <= timeQuantum` fails, so a process is dispatched and the
preempting branch is taken.  With `timeQuantum = 0` every pass of the loop is of
this kind: it dispatches the head of the queue and puts it back, leaving the
clock and every remaining time as they were; no process ever completes and no
record is returned, whatever the fuel. -/
theorem rr_nonpositive_quantum_not_rejected (proc : List Process) (hv : Valid proc)
    (hn : 1 ≤ proc.length) (timeQuantum : Int) (hq : timeQuantum ≤ 0) :
    ((rrInit proc).completed_count < proc.length ∧
      (admission proc.length (rrInit proc)).q_count ≠ 0 ∧
      ¬ (current proc.length (admission proc.length (rrInit proc))).remainingTime
          ≤ timeQuantum) ∧
    (timeQuantum = 0 →
      (∀ k, ∃ st, rrIter proc.length timeQuantum k (rrInit proc) = some st ∧
        st.completed_count = 0 ∧
        (admission proc.length st).q_count ≠ 0 ∧
        rrBody proc.length timeQuantum st
          = (preempt proc.length timeQuantum (admission proc.length st), false) ∧
        (rrBody proc.length timeQuantum st).1.currentTime = st.currentTime ∧
        ∀ i, (nth (rrBody proc.length timeQuantum st).1.procs i).remainingTime
          = (nth st.procs i).remainingTime) ∧
      ∀ fuel, rr_metrics fuel proc timeQuantum = none) := by
  have inv := stuck_init proc hv (by omega)
  have harr := rrInit_first_arrived proc
  obtain ⟨d1, d2, -⟩ := stuck_dispatch proc.length (by omega) timeQuantum hq _ inv harr
  refine ⟨⟨by rw [inv.none_done]; omega, d1, d2⟩, fun h0 => ?_⟩
  subst h0
  refine ⟨fun k => ?_, fun fuel => ?_⟩
  · obtain ⟨st, h1, h2, h3⟩ := stuck_zero_iter proc.length (by omega) k _ inv harr
    obtain ⟨e1, -, e3⟩ := stuck_dispatch proc.length (by omega) 0 (le_refl _) st h2 h3
    obtain ⟨c1, c2⟩ := stuck_zero_pass proc.length (by omega) st h2 h3
    exact ⟨st, h1, h2.none_done, e1, e3, c1, fun i => (c2 i).1⟩
  · unfold rr_metrics
    rw [stuck_loop proc.length (by omega) 0 (le_refl _) fuel _ inv]
    rfl

theorem rr_nonpositive_quantum_not_rejected_witness :
    (Valid oneAtZero ∧ 1 ≤ oneAtZero.length ∧ (0 : Int) ≤ 0) ∧
    ((rrInit oneAtZero).completed_count < oneAtZero.length ∧
      (admission oneAtZero.length (rrInit oneAtZero)).q_count ≠ 0 ∧
      ¬ (current oneAtZero.length (admission oneAtZero.length (rrInit oneAtZero))).remainingTime
          ≤ 0) ∧
    ∀ fuel, rr_metrics fuel oneAtZero 0 = none :=
  have h := rr_nonpositive_quantum_not_rejected oneAtZero (by decide) (by decide) 0 (by decide)
  ⟨⟨by decide, by decide, by decide⟩, h.1, (h.2 rfl).2⟩

/-- C11, counterexample.  With one process (arrival 0, burst 5) and
`timeQuantum = 0` the call is not rejected before the simulation: the main loop
is entered and its first pass dispatches the process, recording start time `0`
and putting it back in the queue. -/
theorem rr_zero_quantum_enters_loop :
    (rrInit oneAtZero).completed_count < oneAtZero.length ∧
    (rrIter oneAtZero.length 0 1 (rrInit oneAtZero)).map
      (fun st => (st.procs.map Process.startTime, queueList oneAtZero.length st)) = some ([0], [0]) ∧
    (rrInit oneAtZero).procs.map Process.startTime = [-1] := by
  decide

/-! ## Input that the specification calls invalid -/

theorem sjfIter_len_perm (proc : List Process) (k : Nat) (hk : k ≤ proc.length) :
    (sjfIter proc k).processes.length = proc.length ∧
    ((sjfIter proc k).processes.map ident).Perm (proc.map ident) := by
  induction k with
  | zero => exact ⟨qsort_length _ _, (qsort_perm compareByArrival proc).map ident⟩
  | succ k ih =>
    obtain ⟨hlen, hperm⟩ := ih (by omega)
    obtain ⟨s, hs, hbody⟩ := sjfBody_eq proc.length (sjfIter proc k) k (by omega) hlen
    obtain ⟨s1, s2, -⟩ := (findShortest_spec _ _ k proc.length (by omega)).2 s hs
    rw [sjfIter_succ, hbody]
    constructor
    · simp [dispatch, swap_length, hlen]
    · simp only [dispatch]
      rw [map_ident_set _ _ _ (by rw [swap_length]; omega) (by simp [ident])]
      exact ((swap_perm _ _ _ (by omega) (by omega)).map ident).trans hperm

theorem sjfDispatch_take_any (proc : List Process) (k : Nat) (hk : k ≤ proc.length) :
    ((List.range k).filterMap (sjfDispatched proc)).map ident
      = ((sjfIter proc k).processes.take k).map ident := by
  induction k with
  | zero => rfl
  | succ k ih =>
    obtain ⟨hlen, -⟩ := sjfIter_len_perm proc k (by omega)
    obtain ⟨s, hs, s1, s2, hp⟩ := sjfIter_processes_succ proc k (by omega) hlen
    have hl : k < (swap (sjfIter proc k).processes k s).length := by
      rw [swap_length, hlen]; omega
    rw [List.range_succ, List.filterMap_append, List.map_append, ih (by omega), hp,
      take_succ_nth _ k (by simpa using hl), nth_set_self _ _ _ hl,
      take_set_of_le _ _ _ _ (le_refl k), take_swap _ _ _ _ (le_refl k) s1, List.map_append]
    congr 1
    simp [sjfDispatched, hs, ident]

theorem rrInit_static_of_pos (proc : List Process) (hb : ∀ p ∈ proc, 0 < p.burstTime) :
    RRStatic (rrInit proc).procs where
  pos := by
    intro i hi
    rw [rrInit_procs_length] at hi
    obtain ⟨p, hp, e⟩ := rrInit_mem proc i hi
    rw [e]
    exact hb p hp
  sorted := by
    intro i j hij hj
    have hp := qsort_arrival_le
      (proc.map fun p => { p with remainingTime := p.burstTime, startTime := -1 })
    rw [List.pairwise_iff_getElem] at hp
    have hj' : j < (rrInit proc).procs.length := hj
    have := hp i j (by unfold rrInit at hj'; simp only at hj'; omega)
      (by unfold rrInit at hj'; simp only at hj'; omega) hij
    rw [nth_eq_getElem _ i (by omega), nth_eq_getElem _ j hj']
    exact this

theorem rrInit_inv_of_pos (proc : List Process) (hb : ∀ p ∈ proc, 0 < p.burstTime)
    (hn : 0 < proc.length) : RRInv (rrInit proc).procs (rrInit proc) where
  len := rfl
  key := fun _ => rfl
  queue := by
    rw [rrInit_procs_length]
    exact ⟨by simp [rrInit], hn, by simp [rrInit], Nat.zero_le _⟩
  next_le := Nat.zero_le _
  nodup := by simp [queueList, rrInit]
  queued := by intro x hx; simp [queueList, rrInit] at hx
  done := by intro i hi; simp [rrInit] at hi
  fresh := by
    intro i _ hi
    rw [rrInit_procs_length] at hi
    obtain ⟨p, hp, e⟩ := rrInit_mem proc i hi
    rw [e]
    exact ⟨rfl, rfl⟩
  rem := by
    intro i hi
    rw [rrInit_procs_length] at hi
    obtain ⟨p, hp, e⟩ := rrInit_mem proc i hi
    rw [e]
    have := hb p hp
    simp only
    omega
  cnt := rfl
  tot := by
    have : doneBurst (rrInit proc).procs = 0 := by
      unfold doneBurst
      apply List.sum_eq_zero
      intro x hx
      obtain ⟨p, hp, rfl⟩ := List.mem_map.1 hx
      obtain ⟨p0, hp0, rfl⟩ := List.mem_map.1 ((rrInit_procs_perm proc).mem_iff.1 hp)
      have := hb p0 hp0
      simp only
      rw [if_neg (by omega)]
    rw [this]
    rfl
  arrived := by intro i hi; simp [rrInit] at hi

theorem rr_terminates_of_pos (proc : List Process) (hb : ∀ p ∈ proc, 0 < p.burstTime)
    (hn : 0 < proc.length) (q : Int) (hq : 1 ≤ q) :
    ∃ final, rrLoop proc.length q (rrMeasure proc.length (rrInit proc)) (rrInit proc)
      = some final := by
  have h := rrLoop_total (rrInit proc).procs (rrInit_static_of_pos proc hb) q hq
    (rrMeasure proc.length (rrInit proc)) (rrInit proc) (rrInit_inv_of_pos proc hb hn)
    (by rw [rrInit_procs_length])
  rw [rrInit_procs_length] at h
  exact h

theorem averages_isSome (t w r : Int) (n : Nat) (hn : 1 ≤ n) :
    ∃ a b c : ℚ, ({ avgTurnaround := fdiv t n, avgWaiting := fdiv w n, avgResponse := fdiv r n }
      : Metrics) = { avgTurnaround := some a, avgWaiting := some b, avgResponse := some c } := by
  obtain ⟨a, ha⟩ := fdiv_isSome t n hn
  obtain ⟨b, hb⟩ := fdiv_isSome w n hn
  obtain ⟨c, hc⟩ := fdiv_isSome r n hn
  exact ⟨a, b, c, by rw [ha, hb, hc]⟩

/-- C12, as amended.  No engine validates the process set.  For every array of
at least one record, whatever its arrival times, burst times and pids:
`fcfs_metrics` runs the FCFS timeline of the sorted array and returns three
numbers; `sjf_metrics` dispatches every record once and returns three numbers;
`rr_metrics` returns three numbers whenever its main loop ends, and the loop
does end for every quantum of at least `1` when the burst times are positive,
duplicate pids and negative arrival times included. -/
theorem engines_do_not_validate (proc : List Process) (hn : 1 ≤ proc.length) :
    ((fcfsIter proc proc.length).processes = fcfsTimeline 0 (qsort compareByArrival proc) ∧
      ∃ a b c : ℚ, fcfs_metrics proc
        = { avgTurnaround := some a, avgWaiting := some b, avgResponse := some c }) ∧
    (((sjfDispatchList proc).map ident).Perm (proc.map ident) ∧
      ∃ a b c : ℚ, sjf_metrics proc
        = { avgTurnaround := some a, avgWaiting := some b, avgResponse := some c }) ∧
    (∀ timeQuantum fuel final,
      rrLoop proc.length timeQuantum fuel (rrInit proc) = some final →
      ∃ a b c : ℚ, rr_metrics fuel proc timeQuantum
        = some { avgTurnaround := some a, avgWaiting := some b, avgResponse := some c }) ∧
    ((∀ p ∈ proc, 0 < p.burstTime) → ∀ timeQuantum : Int, 1 ≤ timeQuantum →
      ∃ fuel m, rr_metrics fuel proc timeQuantum = some m) := by
  refine ⟨⟨(fcfsIter_final proc).1, averages_isSome _ _ _ _ hn⟩, ⟨?_, averages_isSome _ _ _ _ hn⟩,
    ?_, ?_⟩
  · have h := sjfDispatch_take_any proc proc.length (le_refl _)
    obtain ⟨hlen, hperm⟩ := sjfIter_len_perm proc proc.length (le_refl _)
    rw [List.take_of_length_le (le_of_eq hlen)] at h
    unfold sjfDispatchList
    rw [h]
    exact hperm
  · intro timeQuantum fuel final hl
    obtain ⟨a, b, c, e⟩ := averages_isSome final.totalTurnaroundTime final.totalWaitingTime
      final.totalResponseTime proc.length hn
    exact ⟨a, b, c, by unfold rr_metrics; rw [hl, Option.map_some', e]⟩
  · intro hb timeQuantum hq
    obtain ⟨final, hf⟩ := rr_terminates_of_pos proc hb (by omega) timeQuantum hq
    exact ⟨_, _, by unfold rr_metrics; rw [hf]; rfl⟩

theorem engines_do_not_validate_witness :
    (1 ≤ duplicatePid.length ∧ ¬ Valid duplicatePid) ∧
    (∃ a b c : ℚ, fcfs_metrics duplicatePid
        = { avgTurnaround := some a, avgWaiting := some b, avgResponse := some c }) ∧
    (∃ a b c : ℚ, sjf_metrics duplicatePid
        = { avgTurnaround := some a, avgWaiting := some b, avgResponse := some c }) ∧
    ∃ fuel m, rr_metrics fuel duplicatePid 2 = some m :=
  have h := engines_do_not_validate duplicatePid (by decide)
  ⟨⟨by decide, by decide⟩, h.1.2, h.2.1.2, h.2.2.2 (by decide) 2 (by decide)⟩

theorem metrics_of_totals (t w r : Int) (a b c : ℚ) (ha : (t : ℚ) = a) (hb : (w : ℚ) = b)
    (hc : (r : ℚ) = c) :
    ({ avgTurnaround := fdiv t 1, avgWaiting := fdiv w 1, avgResponse := fdiv r 1 } : Metrics)
      = { avgTurnaround := some a, avgWaiting := some b, avgResponse := some c } := by
  simp [fdiv, ha, hb, hc]

/-- C12, counterexample.  A record with a negative arrival time, a record with
burst time `0`, and two records with the same pid are each simulated by all three
engines, which return the figures computed from them instead of a validation
failure. -/
theorem invalid_sets_are_simulated :
    (¬ Valid negativeArrival ∧ ¬ Valid zeroBurst ∧ ¬ Valid duplicatePid) ∧
    (fcfs_metrics negativeArrival
        = { avgTurnaround := some 5, avgWaiting := some 3, avgResponse := some 3 } ∧
      sjf_metrics negativeArrival
        = { avgTurnaround := some 5, avgWaiting := some 3, avgResponse := some 3 } ∧
      rr_metrics 2 negativeArrival 1
        = some { avgTurnaround := some 5, avgWaiting := some 3, avgResponse := some 3 }) ∧
    (fcfs_metrics zeroBurst
        = { avgTurnaround := some 0, avgWaiting := some 0, avgResponse := some 0 } ∧
      sjf_metrics zeroBurst
        = { avgTurnaround := some 0, avgWaiting := some 0, avgResponse := some 0 } ∧
      rr_metrics 1 zeroBurst 1
        = some { avgTurnaround := some 0, avgWaiting := some 0, avgResponse := some 0 }) ∧
    ((fcfsIter duplicatePid 2).totalTurnaround = 5 ∧ (sjfIter duplicatePid 2).totalTurnaround = 5 ∧
      (rrLoop 2 2 5 (rrInit duplicatePid)).map RRState.totalTurnaroundTime = some 5 ∧
      (fcfs_metrics duplicatePid).avgTurnaround = some (5 / 2)) := by
  refine ⟨by decide, ⟨?_, ?_, ?_⟩, ⟨?_, ?_, ?_⟩, by decide, by decide, by decide, ?_⟩
  · exact metrics_of_totals _ _ _ 5 3 3 (by decide) (by decide) (by decide)
  · exact metrics_of_totals _ _ _ 5 3 3 (by decide) (by decide) (by decide)
  · have h : rrLoop 1 1 2 (rrInit negativeArrival) = some _ := rfl
    unfold rr_metrics
    rw [show negativeArrival.length = 1 from rfl, h, Option.map_some']
    exact congrArg some (metrics_of_totals _ _ _ 5 3 3 (by decide) (by decide) (by decide))
  · exact metrics_of_totals _ _ _ 0 0 0 (by decide) (by decide) (by decide)
  · exact metrics_of_totals _ _ _ 0 0 0 (by decide) (by decide) (by decide)
  · have h : rrLoop 1 1 1 (rrInit zeroBurst) = some _ := rfl
    unfold rr_metrics
    rw [show zeroBurst.length = 1 from rfl, h, Option.map_some']
    exact congrArg some (metrics_of_totals _ _ _ 0 0 0 (by decide) (by decide) (by decide))
  · have h : (fcfsIter duplicatePid duplicatePid.length).totalTurnaround = 5 := by decide
    show fdiv (fcfsIter duplicatePid duplicatePid.length).totalTurnaround duplicatePid.length = _
    rw [h]
    norm_num [fdiv, duplicatePid]

/-! ## Round Robin: transfer of invariants along the main loop -/

/-- A property of states that every pass of the loop body preserves, in states
that satisfy the invariant, holds at the head of every pass. -/
theorem rrIter_preserves (procs0 : List Process) (hs : RRStatic procs0) (q : Int) (hq : 1 ≤ q)
    (P : RRState → Prop)
    (hstep : ∀ st, RRInv procs0 st → P st → st.completed_count < procs0.length →
      P (rrBody procs0.length q st).1)
    (k : Nat) (st0 st : RRState) (inv : RRInv procs0 st0) (h0 : P st0)
    (h : rrIter procs0.length q k st0 = some st) : P st := by
  induction k generalizing st0 with
  | zero =>
    have e : st0 = st := by simpa [rrIter] using h
    subst e
    exact h0
  | succ k ih =>
    unfold rrIter at h
    split_ifs at h with hc
    obtain ⟨b1, b2, -⟩ := rrBody_inv procs0 hs q hq st0 inv hc
    have b3 := hstep st0 inv h0 hc
    generalize rrBody procs0.length q st0 = r at h b1 b2 b3
    obtain ⟨st', flag⟩ := r
    simp only at b1
    subst b1
    exact ih st' b2 b3 h

/-- A property of states that every pass of the loop body preserves, in states
that satisfy the invariant, holds in the state the main loop exits with. -/
theorem rrLoop_preserves (procs0 : List Process) (hs : RRStatic procs0) (q : Int) (hq : 1 ≤ q)
    (P : RRState → Prop)
    (hstep : ∀ st, RRInv procs0 st → P st → st.completed_count < procs0.length →
      P (rrBody procs0.length q st).1)
    (fuel : Nat) (st0 final : RRState) (inv : RRInv procs0 st0) (h0 : P st0)
    (h : rrLoop procs0.length q fuel st0 = some final) : P final := by
  induction fuel generalizing st0 with
  | zero =>
    unfold rrLoop at h
    split_ifs at h with hc
    have e : st0 = final := by simpa using h
    subst e
    exact h0
  | succ fuel ih =>
    unfold rrLoop at h
    split_ifs at h with hc
    · obtain ⟨b1, b2, -⟩ := rrBody_inv procs0 hs q hq st0 inv hc
      have b3 := hstep st0 inv h0 hc
      generalize rrBody procs0.length q st0 = r at h b1 b2 b3
      obtain ⟨st', flag⟩ := r
      simp only at b1
      subst b1
      exact ih st' b2 b3 h
    · have e : st0 = final := by simpa using h
      subst e
      exact h0

/-- The loop body by cases, in a state that satisfies the invariant with
processes still to complete: an idle jump, a completion or a preemption from
the state after the admission loop, which satisfies the invariant too and has
the array, the clock, the counter and the totals of the state before. -/
theorem rrBody_trichotomy (procs0 : List Process) (hs : RRStatic procs0) (q : Int)
    (st : RRState) (inv : RRInv procs0 st) (hrun : st.completed_count < procs0.length) :
    ∃ s, s = admission procs0.length st ∧ RRInv procs0 s ∧ s.procs = st.procs ∧
      s.currentTime = st.currentTime ∧ s.completed_count = st.completed_count ∧
      s.totalTurnaroundTime = st.totalTurnaroundTime ∧
      s.totalWaitingTime = st.totalWaitingTime ∧
      s.totalResponseTime = st.totalResponseTime ∧
      ((s.q_count = 0 ∧ s.next_arrival_check_idx < procs0.length ∧
          s.currentTime < (nth s.procs s.next_arrival_check_idx).arrivalTime ∧
          rrBody procs0.length q st = (idleJump s, false)) ∨
       (s.q_count ≠ 0 ∧ (current procs0.length s).remainingTime ≤ q ∧
          rrBody procs0.length q st = (finish procs0.length s, false)) ∨
       (s.q_count ≠ 0 ∧ q < (current procs0.length s).remainingTime ∧
          rrBody procs0.length q st = (preempt procs0.length q s, false))) := by
  obtain ⟨inv1, a1, a2, a3, a4, a5, a6, a7⟩ := admission_inv procs0 hs st inv
  refine ⟨_, rfl, inv1, a1, a2, a3, a4, a5, a6, ?_⟩
  by_cases h0 : (admission procs0.length st).q_count = 0
  · left
    have hcnt := inv1.cnt
    have hn : (admission procs0.length st).next_arrival_check_idx < procs0.length := by omega
    refine ⟨h0, hn, ?_, rrBody_idle _ _ _ h0 (by omega) hn⟩
    rw [a1, a2]
    exact a7 hn
  · right
    by_cases hr : (current procs0.length (admission procs0.length st)).remainingTime ≤ q
    · left
      exact ⟨h0, hr, rrBody_complete _ _ _ h0 hr⟩
    · right
      exact ⟨h0, by omega, rrBody_preempt _ _ _ h0 hr⟩

/-! ## Round Robin: start and completion times -/

theorem preempt_fields (procs0 : List Process) (s : RRState) (inv : RRInv procs0 s)
    (h0 : s.q_count ≠ 0) (q : Int) :
    (preempt procs0.length q s).procs
      = s.procs.set (headIdx procs0.length s)
          { current procs0.length s with
            remainingTime := (current procs0.length s).remainingTime - q } ∧
    (preempt procs0.length q s).currentTime = s.currentTime + q ∧
    (preempt procs0.length q s).completed_count = s.completed_count ∧
    (preempt procs0.length q s).totalTurnaroundTime = s.totalTurnaroundTime ∧
    (preempt procs0.length q s).totalWaitingTime = s.totalWaitingTime ∧
    (preempt procs0.length q s).totalResponseTime = s.totalResponseTime := by
  obtain ⟨d1, d2, d3, d4, d5, d6, d7⟩ := dequeue_facts procs0 s inv h0
  have hcnt := inv.cnt
  have hnl := inv.next_le
  have ok3 : QueueOK procs0.length (charge procs0.length q s) :=
    ⟨d4.buf, d4.head, d4.tail, d4.count⟩
  have f2 : (charge procs0.length q s).q_count = (dequeue procs0.length s).2.q_count := rfl
  have f3 : (charge procs0.length q s).next_arrival_check_idx = s.next_arrival_check_idx := rfl
  obtain ⟨m, -, -, -, -, -, h6, h7, h8, h9, h10, h11, -, -⟩ :=
    admission_spec procs0.length (charge procs0.length q s) ok3 (by rw [f2, f3]; omega)
      (by rw [f3]; exact hnl)
  exact ⟨h6, h7, h8, h9, h10, h11⟩

theorem head_facts (procs0 : List Process) (s : RRState) (inv : RRInv procs0 s)
    (h0 : s.q_count ≠ 0) :
    headIdx procs0.length s < s.procs.length ∧
    headIdx procs0.length s < s.next_arrival_check_idx ∧
    0 < (nth s.procs (headIdx procs0.length s)).remainingTime ∧
    (nth s.procs (headIdx procs0.length s)).remainingTime
      ≤ (nth s.procs (headIdx procs0.length s)).burstTime ∧
    (nth s.procs (headIdx procs0.length s)).arrivalTime ≤ s.currentTime ∧
    (current procs0.length s).remainingTime
      = (nth s.procs (headIdx procs0.length s)).remainingTime ∧
    (current procs0.length s).burstTime = (nth s.procs (headIdx procs0.length s)).burstTime ∧
    (current procs0.length s).arrivalTime
      = (nth s.procs (headIdx procs0.length s)).arrivalTime := by
  obtain ⟨d1, d2, -, -, -, -, -⟩ := dequeue_facts procs0 s inv h0
  have hnl := inv.next_le
  have hlt : headIdx procs0.length s < procs0.length := by unfold headIdx; omega
  exact ⟨by rw [inv.len]; exact hlt, d1, d2, (inv.rem _ hlt).2, inv.arrived _ d1,
    markStart_remaining _ _, markStart_burst _ _, markStart_arrival _ _⟩

theorem rrTimes_mono (procs : List Process) (c c' : Int) (h : c ≤ c') (ht : RRTimes procs c) :
    RRTimes procs c' where
  begun := ht.begun
  unbegun := ht.unbegun
  prog := fun i hi h1 h2 => le_trans (ht.prog i hi h1 h2) h
  fin := ht.fin

/-- Giving the record at `idx` a slice of length `d` from the clock `c` keeps the
timing invariant. -/
theorem rrTimes_slice (procs : List Process) (c : Int) (ht : RRTimes procs c) (idx : Nat)
    (hidx : idx < procs.length) (hr : 0 < (nth procs idx).remainingTime)
    (hrb : (nth procs idx).remainingTime ≤ (nth procs idx).burstTime)
    (harr : (nth procs idx).arrivalTime ≤ c) (hnn : 0 ≤ (nth procs idx).arrivalTime)
    (d : Int) (hd1 : 1 ≤ d) (pn : Process)
    (h1 : pn.burstTime = (nth procs idx).burstTime)
    (h2 : pn.arrivalTime = (nth procs idx).arrivalTime)
    (h3 : pn.remainingTime = (nth procs idx).remainingTime - d)
    (h4 : pn.startTime = (markStart (nth procs idx) c).startTime)
    (h5 : pn.remainingTime = 0 → pn.completionTime = c + d) :
    RRTimes (procs.set idx pn) (c + d) := by
  have hb := ht.begun idx hidx
  have hu := ht.unbegun idx hidx
  have hp := ht.prog idx hidx
  have hstart : pn.startTime = if (nth procs idx).startTime = -1 then c
      else (nth procs idx).startTime := by
    rw [h4]; unfold markStart; split_ifs <;> rfl
  constructor
  · intro i hi hlt
    rw [List.length_set] at hi
    rw [nth_set _ _ _ _ hidx] at hlt ⊢
    split_ifs at hlt ⊢ with e
    · rw [hstart, h2]
      split_ifs with e1
      · exact harr
      · by_cases e2 : (nth procs idx).remainingTime = (nth procs idx).burstTime
        · exact absurd (hu e2) e1
        · exact hb (by omega)
    · exact ht.begun i hi hlt
  · intro i hi heq
    rw [List.length_set] at hi
    rw [nth_set _ _ _ _ hidx] at heq ⊢
    split_ifs at heq ⊢ with e
    · omega
    · exact ht.unbegun i hi heq
  · intro i hi hpos hlt
    rw [List.length_set] at hi
    rw [nth_set _ _ _ _ hidx] at hpos hlt ⊢
    split_ifs at hpos hlt ⊢ with e
    · rw [hstart, h1, h3]
      split_ifs with e1
      · by_cases e2 : (nth procs idx).remainingTime = (nth procs idx).burstTime
        · omega
        · have := hb (by omega); omega
      · by_cases e2 : (nth procs idx).remainingTime = (nth procs idx).burstTime
        · exact absurd (hu e2) e1
        · have := hp hr (by omega); omega
    · have := ht.prog i hi hpos hlt; omega
  · intro i hi hz
    rw [List.length_set] at hi
    rw [nth_set _ _ _ _ hidx] at hz ⊢
    split_ifs at hz ⊢ with e
    · rw [h5 hz, hstart, h1]
      rw [h3] at hz
      split_ifs with e1
      · by_cases e2 : (nth procs idx).remainingTime = (nth procs idx).burstTime
        · omega
        · have := hb (by omega); omega
      · by_cases e2 : (nth procs idx).remainingTime = (nth procs idx).burstTime
        · exact absurd (hu e2) e1
        · have := hp hr (by omega); omega
    · exact ht.fin i hi hz

theorem rrTimes_finish (procs0 : List Process) (hnn : ∀ i, 0 ≤ (nth procs0 i).arrivalTime)
    (s : RRState) (inv : RRInv procs0 s) (h0 : s.q_count ≠ 0)
    (ht : RRTimes s.procs s.currentTime) :
    RRTimes (finish procs0.length s).procs (finish procs0.length s).currentTime := by
  obtain ⟨g1, g2, g3, g4, g5, g6, g7, g8⟩ := head_facts procs0 s inv h0
  have h := rrTimes_slice s.procs s.currentTime ht (headIdx procs0.length s) g1 g3 g4 g5
    (by rw [ident_arrival (inv.key _)]; exact hnn _)
    (nth s.procs (headIdx procs0.length s)).remainingTime (by omega)
    { current procs0.length s with
      remainingTime := 0
      completionTime := s.currentTime + (current procs0.length s).remainingTime }
    g7 g8 (by simp) rfl (fun _ => by simp only; rw [g6])
  rw [← g6] at h
  exact h

theorem rrTimes_preempt (procs0 : List Process) (hnn : ∀ i, 0 ≤ (nth procs0 i).arrivalTime)
    (q : Int) (hq : 1 ≤ q) (s : RRState) (inv : RRInv procs0 s) (h0 : s.q_count ≠ 0)
    (hr : q < (current procs0.length s).remainingTime)
    (ht : RRTimes s.procs s.currentTime) :
    RRTimes (preempt procs0.length q s).procs (preempt procs0.length q s).currentTime := by
  obtain ⟨g1, g2, g3, g4, g5, g6, g7, g8⟩ := head_facts procs0 s inv h0
  obtain ⟨f1, f2, -, -, -, -⟩ := preempt_fields procs0 s inv h0 q
  rw [f1, f2]
  exact rrTimes_slice s.procs s.currentTime ht (headIdx procs0.length s) g1 g3 g4 g5
    (by rw [ident_arrival (inv.key _)]; exact hnn _) q hq
    { current procs0.length s with
      remainingTime := (current procs0.length s).remainingTime - q }
    g7 g8 (by simp only; rw [g6]) rfl (fun h => by simp only at h; omega)

/-- Every pass of the loop body of `rr_metrics` keeps the timing invariant. -/
theorem rrTimes_step (procs0 : List Process) (hs : RRStatic procs0)
    (hnn : ∀ i, 0 ≤ (nth procs0 i).arrivalTime) (q : Int) (hq : 1 ≤ q) (st : RRState)
    (inv : RRInv procs0 st) (ht : RRTimes st.procs st.currentTime)
    (hrun : st.completed_count < procs0.length) :
    RRTimes (rrBody procs0.length q st).1.procs (rrBody procs0.length q st).1.currentTime := by
  obtain ⟨s, -, inv1, a1, a2, -, -, -, -, hcase⟩ := rrBody_trichotomy procs0 hs q st inv hrun
  rw [← a1, ← a2] at ht
  rcases hcase with ⟨-, -, hlt, hb⟩ | ⟨h0, -, hb⟩ | ⟨h0, hr, hb⟩
  · rw [hb]
    exact rrTimes_mono _ _ _ (le_of_lt hlt) ht
  · rw [hb]
    exact rrTimes_finish procs0 hnn s inv1 h0 ht
  · rw [hb]
    exact rrTimes_preempt procs0 hnn q hq s inv1 h0 hr ht

theorem rrInit_nonneg (proc : List Process) (hv : Valid proc) (i : Nat) :
    0 ≤ (nth (rrInit proc).procs i).arrivalTime := by
  by_cases hi : i < proc.length
  · obtain ⟨p, hp, e⟩ := rrInit_mem proc i hi
    rw [e]
    exact (hv.2 p hp).1
  · have : (rrInit proc).procs.length ≤ i := by rw [rrInit_procs_length]; omega
    rw [show nth (rrInit proc).procs i = default from List.getD_eq_default _ _ this]
    exact le_refl _

theorem rrInit_times (proc : List Process) (hv : Valid proc) :
    RRTimes (rrInit proc).procs (rrInit proc).currentTime := by
  have key : ∀ i, i < (rrInit proc).procs.length →
      (nth (rrInit proc).procs i).remainingTime = (nth (rrInit proc).procs i).burstTime ∧
      (nth (rrInit proc).procs i).startTime = -1 ∧ 0 < (nth (rrInit proc).procs i).burstTime := by
    intro i hi
    rw [rrInit_procs_length] at hi
    obtain ⟨p, hp, e⟩ := rrInit_mem proc i hi
    rw [e]
    exact ⟨rfl, rfl, (hv.2 p hp).2⟩
  constructor
  · intro i hi h; have := key i hi; omega
  · intro i hi _; exact (key i hi).2.1
  · intro i hi _ h; have := key i hi; omega
  · intro i hi h; have := key i hi; omega

/-! ## Non-negative per-process figures -/

theorem fcfsTimeline_late (c : Int) (l : List Process) :
    ∀ p ∈ fcfsTimeline c l, p.arrivalTime ≤ p.startTime := by
  induction l generalizing c with
  | nil => intro p hp; simp [fcfsTimeline] at hp
  | cons a l ih =>
    intro p hp
    simp only [fcfsTimeline, List.mem_cons] at hp
    rcases hp with rfl | hp
    · exact le_max_left _ _
    · exact ih _ p hp

theorem fcfsTimeline_mem_burst (c : Int) (l : List Process) :
    ∀ p ∈ fcfsTimeline c l, ∃ p0 ∈ l, p.burstTime = p0.burstTime := by
  induction l generalizing c with
  | nil => intro p hp; simp [fcfsTimeline] at hp
  | cons a l ih =>
    intro p hp
    simp only [fcfsTimeline, List.mem_cons] at hp
    rcases hp with rfl | hp
    · exact ⟨a, List.mem_cons_self _ _, rfl⟩
    · obtain ⟨p0, h0, e⟩ := ih _ p hp
      exact ⟨p0, List.mem_cons_of_mem _ h0, e⟩

theorem fcfsIter_nth (proc : List Process) (k : Nat) (hk : k < proc.length) :
    nth (fcfsIter proc k).processes k = nth (qsort compareByArrival proc) k := by
  have h1 := (fcfsIter_spec proc k (by omega)).1
  have hlen : k < (qsort compareByArrival proc).length := by rw [qsort_length]; omega
  have htl : (fcfsTimeline 0 ((qsort compareByArrival proc).take k)).length = k := by
    rw [fcfsTimeline_length, List.length_take]; omega
  rw [drop_eq_nth_cons _ k hlen] at h1
  rw [h1]
  have := nth_append_length (fcfsTimeline 0 ((qsort compareByArrival proc).take k))
    ((qsort compareByArrival proc).drop (k + 1)) (nth (qsort compareByArrival proc) k)
  rwa [htl] at this

theorem fcfs_totals_step (proc : List Process) (hb : ∀ p ∈ proc, 0 ≤ p.burstTime) (k : Nat)
    (hk : k < proc.length) : TotalsLe (fcfsIter proc k) (fcfsIter proc (k + 1)) := by
  have hge := bumpClock_ge (fcfsIter proc k) k
  have hburst : 0 ≤ (nth (fcfsIter proc k).processes k).burstTime := by
    rw [fcfsIter_nth proc k hk]
    exact hb _ ((qsort_perm compareByArrival proc).mem_iff.1
      (nth_mem _ k (by rw [qsort_length]; exact hk)))
  rw [fcfsIter_succ]
  unfold TotalsLe
  simp only [fcfsBody, dispatch]
  refine ⟨?_, ?_, ?_⟩ <;> omega

theorem sjf_totals_step (proc : List Process) (hb : ∀ p ∈ proc, 0 ≤ p.burstTime) (k : Nat)
    (hk : k < proc.length) : TotalsLe (sjfIter proc k) (sjfIter proc (k + 1)) := by
  have inv := sjfIter_inv proc hb k (by omega)
  obtain ⟨s, hs, hbody⟩ := sjfBody_eq proc.length (sjfIter proc k) k hk inv.len
  obtain ⟨s1, s2, s3, -, -⟩ := (findShortest_spec _ _ k proc.length (by omega)).2 s hs
  have hk' : k < (sjfIter proc k).processes.length := by rw [inv.len]; exact hk
  have hs' : s < (sjfIter proc k).processes.length := by rw [inv.len]; exact s2
  have hnk : nth (swap (sjfIter proc k).processes k s) k = nth (sjfIter proc k).processes s := by
    rw [nth_swap _ _ _ _ hk' hs']
    by_cases h : k = s
    · rw [if_pos h, h]
    · rw [if_neg h, if_pos rfl]
  have hburst : 0 ≤ (nth (sjfIter proc k).processes s).burstTime := by
    obtain ⟨p0, hp0, e⟩ := ident_mem_of_perm _ _ inv.perm _ (nth_mem _ s hs')
    have := hb p0 hp0
    rw [← ident_burst e]
    exact this
  rw [sjfIter_succ, hbody]
  unfold TotalsLe
  simp only [dispatch, hnk]
  refine ⟨?_, ?_, ?_⟩ <;> omega

theorem rr_totals_step (procs0 : List Process) (hs : RRStatic procs0)
    (hnn : ∀ i, 0 ≤ (nth procs0 i).arrivalTime) (q : Int) (st : RRState)
    (inv : RRInv procs0 st) (ht : RRTimes st.procs st.currentTime)
    (hrun : st.completed_count < procs0.length) :
    RRTotalsLe st (rrBody procs0.length q st).1 := by
  obtain ⟨s, -, inv1, a1, a2, -, a4, a5, a6, hcase⟩ := rrBody_trichotomy procs0 hs q st inv hrun
  rw [← a1, ← a2] at ht
  unfold RRTotalsLe
  rw [← a4, ← a5, ← a6]
  rcases hcase with ⟨-, -, -, hb⟩ | ⟨h0, -, hb⟩ | ⟨h0, -, hb⟩
  · rw [hb]
    exact ⟨le_refl _, le_refl _, le_refl _⟩
  · rw [hb]
    obtain ⟨g1, g2, g3, g4, g5, g6, g7, g8⟩ := head_facts procs0 s inv1 h0
    have hf := rrTimes_finish procs0 hnn s inv1 h0 ht
    have e : nth (finish procs0.length s).procs (headIdx procs0.length s)
        = { current procs0.length s with
            remainingTime := 0
            completionTime := s.currentTime + (current procs0.length s).remainingTime } :=
      nth_set_self _ _ _ g1
    have hlen : headIdx procs0.length s < (finish procs0.length s).procs.length := by
      show _ < (s.procs.set _ _).length
      rw [List.length_set]; exact g1
    have hbeg := hf.begun _ hlen
    have hfin := hf.fin _ hlen
    rw [e] at hbeg hfin
    simp only at hbeg hfin
    have hpos : 0 < (current procs0.length s).burstTime := by omega
    have h1 := hbeg hpos
    have h2 := hfin trivial
    refine ⟨?_, ?_, ?_⟩
    · show s.totalTurnaroundTime ≤ s.totalTurnaroundTime + _
      omega
    · show s.totalWaitingTime ≤ s.totalWaitingTime + _
      omega
    · show s.totalResponseTime ≤ s.totalResponseTime + _
      omega
  · rw [hb]
    obtain ⟨-, -, -, f4, f5, f6⟩ := preempt_fields procs0 s inv1 h0 q
    rw [f4, f5, f6]
    exact ⟨le_refl _, le_refl _, le_refl _⟩

/-- C13.  For valid input (and a quantum of at least `1` for `rr_metrics`), every
engine ends, and every record of the working array on exit has
`startTime ≥ arrivalTime` and `completionTime ≥ arrivalTime + burstTime`: for
`fcfs_metrics` and `sjf_metrics` after their `n` iterations; for `rr_metrics` the
main loop exits within `rrMeasure` passes, with every process completed, in a
state whose records have these times, and so does every state the loop exits
with, whatever the fuel.  No iteration of `fcfs_metrics` or `sjf_metrics` and no
pass of the main loop of `rr_metrics` lowers a total: the turnaround, waiting and
response figures it adds are not negative. -/
theorem per_process_times_nonnegative (proc : List Process) (hv : Valid proc)
    (timeQuantum : Int) (hq : 1 ≤ timeQuantum) :
    ((∀ p ∈ (fcfsIter proc proc.length).processes, TimesOK p) ∧
      ∀ i, i < proc.length → TotalsLe (fcfsIter proc i) (fcfsIter proc (i + 1))) ∧
    ((∀ p ∈ (sjfIter proc proc.length).processes, TimesOK p) ∧
      ∀ i, i < proc.length → TotalsLe (sjfIter proc i) (sjfIter proc (i + 1))) ∧
    ((∃ final, rrLoop proc.length timeQuantum (rrMeasure proc.length (rrInit proc))
          (rrInit proc) = some final ∧
        final.completed_count = proc.length ∧ ∀ p ∈ final.procs, TimesOK p) ∧
      (∀ fuel final, rrLoop proc.length timeQuantum fuel (rrInit proc) = some final →
        ∀ p ∈ final.procs, TimesOK p) ∧
      ∀ k st, rrIter proc.length timeQuantum k (rrInit proc) = some st →
        st.completed_count < proc.length →
        RRTotalsLe st (rrBody proc.length timeQuantum st).1) := by
  have hb : ∀ p ∈ proc, 0 ≤ p.burstTime := fun p hp => le_of_lt (hv.2 p hp).2
  have hall : ∀ fuel final, rrLoop proc.length timeQuantum fuel (rrInit proc) = some final →
      ∀ p ∈ final.procs, TimesOK p := by
    intro fuel final hl p hp
    rcases Nat.eq_zero_or_pos proc.length with hn | hn
    · have hnil : proc = [] := List.length_eq_zero.1 hn
      subst hnil
      have : rrLoop 0 timeQuantum fuel (rrInit []) = some (rrInit []) := by
        cases fuel <;> rfl
      rw [List.length_nil, this] at hl
      rw [← Option.some.inj hl] at hp
      simp [rrInit, qsort] at hp
    · have hst := rrInit_static proc hv
      have hinv := rrInit_inv proc hv hn
      obtain ⟨inv, hc, -⟩ := rr_final proc hv hn timeQuantum hq fuel final hl
      rw [← rrInit_procs_length proc] at hl hc
      have ht : RRTimes final.procs final.currentTime :=
        rrLoop_preserves _ hst timeQuantum hq (fun st => RRTimes st.procs st.currentTime)
          (fun st i t r => rrTimes_step _ hst (rrInit_nonneg proc hv) timeQuantum hq st i t r)
          fuel _ final hinv (rrInit_times proc hv) hl
      obtain ⟨-, -, hdone⟩ := rr_exit_all_done _ final inv hc
      obtain ⟨j, hj, rfl⟩ := List.getElem_of_mem hp
      rw [← nth_eq_getElem _ j hj]
      have hj' : j < (rrInit proc).procs.length := by rw [← inv.len]; exact hj
      have hz := hdone j hj'
      have h1 := ht.fin j hj hz
      have hpos : 0 < (nth final.procs j).burstTime := by
        rw [ident_burst (inv.key j)]; exact hst.pos j hj'
      have h2 := ht.begun j hj (by omega)
      unfold TimesOK
      omega
  refine ⟨⟨?_, fcfs_totals_step proc hb⟩, ⟨?_, sjf_totals_step proc hb⟩, ?_, hall, ?_⟩
  · intro p hp
    rw [(fcfsIter_final proc).1] at hp
    have h1 := fcfsTimeline_late _ _ p hp
    have h2 := fcfsTimeline_run _ _ p hp
    obtain ⟨p0, h0, e⟩ := fcfsTimeline_mem_burst _ _ p hp
    have := hb p0 ((qsort_perm compareByArrival proc).mem_iff.1 h0)
    unfold TimesOK
    omega
  · intro p hp
    have inv := sjfIter_inv proc hb proc.length (le_refl _)
    obtain ⟨j, hj, rfl⟩ := List.getElem_of_mem hp
    rw [← nth_eq_getElem _ j hj]
    have h1 := inv.run j (by rw [← inv.len]; exact hj)
    have h2 := inv.late j (by rw [← inv.len]; exact hj)
    unfold TimesOK
    omega
  · rcases Nat.eq_zero_or_pos proc.length with hn | hn
    · have hnil : proc = [] := List.length_eq_zero.1 hn
      subst hnil
      refine ⟨rrInit [], ?_, rfl, ?_⟩
      · generalize rrMeasure ([] : List Process).length (rrInit []) = fuel
        cases fuel <;> rfl
      · intro p hp
        simp [rrInit, qsort] at hp
    · obtain ⟨final, hl⟩ := rr_terminates proc hv hn timeQuantum hq
      exact ⟨final, hl, (rr_final proc hv hn timeQuantum hq _ final hl).2.1, hall _ final hl⟩
  · intro k st hreach hrun
    have hn : 0 < proc.length := by omega
    have hst := rrInit_static proc hv
    have hinv := rrInit_inv proc hv hn
    rw [← rrInit_procs_length proc] at hreach hrun ⊢
    have inv := rrIter_inv _ hst timeQuantum hq k _ st hinv hreach
    have ht : RRTimes st.procs st.currentTime :=
      rrIter_preserves _ hst timeQuantum hq (fun st => RRTimes st.procs st.currentTime)
        (fun st i t r => rrTimes_step _ hst (rrInit_nonneg proc hv) timeQuantum hq st i t r)
        k _ st hinv (rrInit_times proc hv) hreach
    exact rr_totals_step _ hst (rrInit_nonneg proc hv) timeQuantum st inv ht hrun

theorem per_process_times_nonnegative_witness :
    (Valid twoAtZero ∧ (1 : Int) ≤ 2) ∧
    (∀ p ∈ (fcfsIter twoAtZero twoAtZero.length).processes, TimesOK p) ∧
    (∀ p ∈ (sjfIter twoAtZero twoAtZero.length).processes, TimesOK p) ∧
    (∃ final, rrLoop twoAtZero.length 2 (rrMeasure twoAtZero.length (rrInit twoAtZero))
        (rrInit twoAtZero) = some final ∧
      final.completed_count = twoAtZero.length ∧ ∀ p ∈ final.procs, TimesOK p) :=
  have h := per_process_times_nonnegative twoAtZero (by decide) 2 (by decide)
  ⟨⟨by decide, by decide⟩, h.1.1, h.2.1.1, h.2.2.1⟩

/-! ## The result depends on pid, arrival time and burst time only -/

theorem nth_map_core (l : List Process) (i : Nat) : nth (l.map core) i = core (nth l i) := by
  simp only [nth, List.getD_eq_getElem?_getD, List.getElem?_map]
  cases l[i]? <;> rfl

theorem qsortInsert_map (f : Process → Process)
    (hf : ∀ a b, compareByArrival (f a) (f b) = compareByArrival a b) (a : Process)
    (l : List Process) :
    qsortInsert compareByArrival (f a) (l.map f) = (qsortInsert compareByArrival a l).map f := by
  induction l with
  | nil => rfl
  | cons b l ih =>
    simp only [List.map_cons, qsortInsert, hf]
    split_ifs
    · rfl
    · rw [List.map_cons, ih]

/-- Sorting commutes with a change of the records that the comparator does not
see. -/
theorem qsort_map (f : Process → Process)
    (hf : ∀ a b, compareByArrival (f a) (f b) = compareByArrival a b) (l : List Process) :
    qsort compareByArrival (l.map f) = (qsort compareByArrival l).map f := by
  induction l with
  | nil => rfl
  | cons a l ih =>
    simp only [List.map_cons, qsort, ih]
    exact qsortInsert_map f hf a _

theorem map_core_of_ident (proc proc' : List Process) (h : proc.map ident = proc'.map ident) :
    proc.map core = proc'.map core := by
  have e : ∀ l : List Process,
      l.map core = (l.map ident).map (fun t => mkProc t.1 t.2.1 t.2.2) := by
    intro l
    rw [List.map_map]
    rfl
  rw [e proc, e proc', h]

theorem eraseLoop_init (proc proc' : List Process) (h : proc.map ident = proc'.map ident) :
    eraseLoop (initLoop proc) = eraseLoop (initLoop proc') := by
  unfold eraseLoop initLoop
  simp only
  rw [← qsort_map core (fun _ _ => rfl), ← qsort_map core (fun _ _ => rfl),
    map_core_of_ident proc proc' h]

theorem bumpClock_erase (st : LoopState) (i : Nat) :
    bumpClock (eraseLoop st) i = bumpClock st i := by
  unfold bumpClock eraseLoop
  simp only [nth_map_core]
  rfl

theorem dispatch_erase (st : LoopState) (c : Int) (i : Nat) :
    eraseLoop (dispatch (eraseLoop st) c i) = eraseLoop (dispatch st c i) := by
  unfold dispatch eraseLoop
  simp only [nth_map_core, List.map_set, List.map_map]
  rfl

theorem fcfsBody_erase (st : LoopState) (i : Nat) :
    eraseLoop (fcfsBody (eraseLoop st) i) = eraseLoop (fcfsBody st i) := by
  unfold fcfsBody
  rw [bumpClock_erase, dispatch_erase]

theorem eraseLoop_idem (st : LoopState) : eraseLoop (eraseLoop st) = eraseLoop st := by
  unfold eraseLoop
  simp only [List.map_map]
  congr 1

theorem foldl_erase (body : LoopState → Nat → LoopState)
    (hcomm : ∀ st i, eraseLoop (body (eraseLoop st) i) = eraseLoop (body st i))
    (l : List Nat) (st : LoopState) :
    eraseLoop (l.foldl body (eraseLoop st)) = eraseLoop (l.foldl body st) := by
  induction l generalizing st with
  | nil => exact eraseLoop_idem st
  | cons i l ih =>
    simp only [List.foldl_cons]
    rw [← ih (body (eraseLoop st) i), ← ih (body st i), hcomm]

theorem scanStep_erase (ps : List Process) (c : Int) :
    scanStep (ps.map core) c = scanStep ps c := by
  funext acc j
  unfold scanStep
  simp only [nth_map_core]
  rfl

theorem findShortest_erase (ps : List Process) (c : Int) (i n : Nat) :
    findShortest (ps.map core) c i n = findShortest ps c i n := by
  unfold findShortest
  rw [scanStep_erase]

theorem swap_erase (ps : List Process) (i s : Nat) :
    swap (ps.map core) i s = (swap ps i s).map core := by
  unfold swap
  simp only [nth_map_core, List.map_set]

theorem sjfBody_erase (n : Nat) (st : LoopState) (i : Nat) :
    eraseLoop (sjfBody n (eraseLoop st) i) = eraseLoop (sjfBody n st i) := by
  have e : (eraseLoop st).processes = st.processes.map core := rfl
  have h : ∀ ps : List Process,
      eraseLoop (dispatch { eraseLoop st with processes := ps.map core } (bumpClock st i) i)
        = eraseLoop (dispatch { st with processes := ps } (bumpClock st i) i) := by
    intro ps
    exact dispatch_erase { st with processes := ps } (bumpClock st i) i
  simp only [sjfBody, bumpClock_erase, e, findShortest_erase]
  cases findShortest st.processes (bumpClock st i) i n with
  | none => exact eraseLoop_idem { st with currentTime := bumpClock st i }
  | some s =>
    simp only
    split_ifs with hne
    · rw [swap_erase]
      exact h _
    · exact h _

theorem fcfs_erase (proc proc' : List Process) (h : proc.map ident = proc'.map ident) :
    fcfs_metrics proc = fcfs_metrics proc' := by
  have hl : proc.length = proc'.length := by
    have := congrArg List.length h
    simpa using this
  have e : eraseLoop (fcfsIter proc proc.length) = eraseLoop (fcfsIter proc' proc'.length) := by
    unfold fcfsIter
    rw [← foldl_erase fcfsBody fcfsBody_erase, ← foldl_erase fcfsBody fcfsBody_erase _ (initLoop proc'),
      eraseLoop_init proc proc' h, hl]
  have e1 := congrArg LoopState.totalTurnaround e
  have e2 := congrArg LoopState.totalWaiting e
  have e3 := congrArg LoopState.totalResponse e
  unfold eraseLoop at e1 e2 e3
  simp only at e1 e2 e3
  unfold fcfs_metrics averages
  rw [e1, e2, e3, hl]

theorem sjf_erase (proc proc' : List Process) (h : proc.map ident = proc'.map ident) :
    sjf_metrics proc = sjf_metrics proc' := by
  have hl : proc.length = proc'.length := by
    have := congrArg List.length h
    simpa using this
  have e : eraseLoop (sjfIter proc proc.length) = eraseLoop (sjfIter proc' proc'.length) := by
    unfold sjfIter
    rw [← foldl_erase _ (sjfBody_erase proc.length),
      ← foldl_erase _ (sjfBody_erase proc'.length) _ (initLoop proc'),
      eraseLoop_init proc proc' h, hl]
  have e1 := congrArg LoopState.totalTurnaround e
  have e2 := congrArg LoopState.totalWaiting e
  have e3 := congrArg LoopState.totalResponse e
  unfold eraseLoop at e1 e2 e3
  simp only at e1 e2 e3
  unfold sjf_metrics averages
  rw [e1, e2, e3, hl]

theorem nth_map_clear (l : List Process) (i : Nat) :
    nth (l.map clearCompletion) i = clearCompletion (nth l i) := by
  simp only [nth, List.getD_eq_getElem?_getD, List.getElem?_map]
  cases l[i]? <;> rfl

theorem eraseRR_idem (st : RRState) : eraseRR (eraseRR st) = eraseRR st := by
  unfold eraseRR
  simp only [List.map_map]
  congr 1

theorem admissionLoop_erase (n b : Nat) (st : RRState) :
    admissionLoop n b (eraseRR st) = eraseRR (admissionLoop n b st) := by
  induction b generalizing st with
  | zero => rfl
  | succ b ih =>
    unfold admissionLoop
    have e1 : (eraseRR st).next_arrival_check_idx = st.next_arrival_check_idx := rfl
    have e2 : (eraseRR st).currentTime = st.currentTime := rfl
    have e3 : (nth (eraseRR st).procs st.next_arrival_check_idx).arrivalTime
        = (nth st.procs st.next_arrival_check_idx).arrivalTime := by
      show (nth (st.procs.map clearCompletion) _).arrivalTime = _
      rw [nth_map_clear]
      rfl
    rw [e1, e2, e3]
    split_ifs
    · exact ih { enqueue n st st.next_arrival_check_idx with
        next_arrival_check_idx := st.next_arrival_check_idx + 1 }
    · rfl

theorem admission_erase (n : Nat) (st : RRState) :
    admission n (eraseRR st) = eraseRR (admission n st) :=
  admissionLoop_erase n _ st

theorem current_erase (n : Nat) (s : RRState) :
    current n (eraseRR s) = clearCompletion (current n s) := by
  unfold current
  show markStart (nth (s.procs.map clearCompletion) (headIdx n s)) s.currentTime = _
  rw [nth_map_clear]
  unfold markStart clearCompletion
  split_ifs <;> rfl

theorem idleJump_erase (s : RRState) : idleJump (eraseRR s) = eraseRR (idleJump s) := by
  unfold idleJump
  show { eraseRR s with
    currentTime := (nth (s.procs.map clearCompletion) s.next_arrival_check_idx).arrivalTime } = _
  rw [nth_map_clear]
  rfl

theorem finish_erase (n : Nat) (s : RRState) :
    eraseRR (finish n (eraseRR s)) = eraseRR (finish n s) := by
  unfold finish eraseRR
  simp only [List.map_set, List.map_map]
  have e := current_erase n s
  unfold eraseRR at e
  rw [e]
  rfl

theorem charge_erase (n : Nat) (q : Int) (s : RRState) :
    charge n q (eraseRR s) = eraseRR (charge n q s) := by
  unfold charge eraseRR
  simp only [List.map_set]
  have e := current_erase n s
  unfold eraseRR at e
  rw [e]
  rfl

theorem preempt_erase (n : Nat) (q : Int) (s : RRState) :
    preempt n q (eraseRR s) = eraseRR (preempt n q s) := by
  unfold preempt
  rw [charge_erase, admission_erase]
  rfl

theorem rrBody_erase (n : Nat) (q : Int) (st : RRState) :
    eraseRR (rrBody n q (eraseRR st)).1 = eraseRR (rrBody n q st).1 ∧
    (rrBody n q (eraseRR st)).2 = (rrBody n q st).2 := by
  rw [rrBody_cases, rrBody_cases, admission_erase]
  have e1 : (eraseRR (admission n st)).q_count = (admission n st).q_count := rfl
  have e2 : (eraseRR (admission n st)).completed_count = (admission n st).completed_count := rfl
  have e3 : (eraseRR (admission n st)).next_arrival_check_idx
      = (admission n st).next_arrival_check_idx := rfl
  have e4 : (current n (eraseRR (admission n st))).remainingTime
      = (current n (admission n st)).remainingTime := by
    rw [current_erase]; rfl
  rw [e1, e2, e3, e4]
  split_ifs
  · exact ⟨by rw [idleJump_erase, eraseRR_idem], rfl⟩
  · exact ⟨eraseRR_idem _, rfl⟩
  · exact ⟨eraseRR_idem _, rfl⟩
  · exact ⟨finish_erase _ _, rfl⟩
  · exact ⟨by rw [preempt_erase, eraseRR_idem], rfl⟩

theorem rrLoop_erase (n : Nat) (q : Int) (fuel : Nat) (st : RRState) :
    (rrLoop n q fuel (eraseRR st)).map eraseRR = (rrLoop n q fuel st).map eraseRR := by
  induction fuel generalizing st with
  | zero =>
    unfold rrLoop
    have e : (eraseRR st).completed_count = st.completed_count := rfl
    rw [e]
    split_ifs
    · rfl
    · simp [eraseRR_idem]
  | succ fuel ih =>
    unfold rrLoop
    have e : (eraseRR st).completed_count = st.completed_count := rfl
    rw [e]
    split_ifs
    · obtain ⟨b1, b2⟩ := rrBody_erase n q st
      generalize rrBody n q (eraseRR st) = r1 at b1 b2
      generalize rrBody n q st = r2 at b1 b2
      obtain ⟨x1, f1⟩ := r1
      obtain ⟨x2, f2⟩ := r2
      simp only at b1 b2
      subst b2
      cases f1 with
      | true => simp [b1]
      | false =>
        simp only
        rw [← ih x1, ← ih x2, b1]
    · simp [eraseRR_idem]

theorem rrInit_erase (proc proc' : List Process) (h : proc.map ident = proc'.map ident) :
    eraseRR (rrInit proc) = eraseRR (rrInit proc') := by
  have hl : proc.length = proc'.length := by
    have := congrArg List.length h
    simpa using this
  have hp : (rrInit proc).procs.map clearCompletion
      = (rrInit proc').procs.map clearCompletion := by
    have e : ∀ l : List Process,
        (rrInit l).procs.map clearCompletion
          = qsort compareByArrival ((l.map ident).map fun t =>
              { pid := t.1, arrivalTime := t.2.1, burstTime := t.2.2, remainingTime := t.2.2,
                startTime := -1, completionTime := 0 }) := by
      intro l
      show (qsort compareByArrival _).map clearCompletion = _
      rw [← qsort_map clearCompletion (fun _ _ => rfl), List.map_map, List.map_map]
      rfl
    rw [e proc, e proc', h]
  have hc : (rrInit proc).currentTime = (rrInit proc').currentTime := by
    have e : ∀ l : List Process, (rrInit l).currentTime
        = if l.length > 0 ∧ (nth ((rrInit l).procs.map clearCompletion) 0).arrivalTime > 0
          then (nth ((rrInit l).procs.map clearCompletion) 0).arrivalTime else 0 := by
      intro l
      rw [nth_map_clear]
      rfl
    rw [e proc, e proc', hp, hl]
  have e : ∀ l : List Process, eraseRR (rrInit l)
      = { procs := (rrInit l).procs.map clearCompletion
          ready_queue := List.replicate l.length 0
          q_head := 0
          q_tail := 0
          q_count := 0
          currentTime := (rrInit l).currentTime
          completed_count := 0
          next_arrival_check_idx := 0
          totalTurnaroundTime := 0
          totalWaitingTime := 0
          totalResponseTime := 0 } := fun _ => rfl
  rw [e proc, e proc', hp, hc, hl]

theorem rr_erase (proc proc' : List Process) (h : proc.map ident = proc'.map ident) (q : Int)
    (fuel : Nat) : rr_metrics fuel proc q = rr_metrics fuel proc' q := by
  have hl : proc.length = proc'.length := by
    have := congrArg List.length h
    simpa using this
  have e : (rrLoop proc.length q fuel (rrInit proc)).map eraseRR
      = (rrLoop proc'.length q fuel (rrInit proc')).map eraseRR := by
    rw [← rrLoop_erase, ← rrLoop_erase _ _ _ (rrInit proc'), rrInit_erase proc proc' h, hl]
  have hm : ∀ (n : Nat) (x : Option RRState),
      x.map (fun st => ({ avgTurnaround := fdiv st.totalTurnaroundTime n
                          avgWaiting := fdiv st.totalWaitingTime n
                          avgResponse := fdiv st.totalResponseTime n } : Metrics))
        = (x.map eraseRR).map (fun st => ({ avgTurnaround := fdiv st.totalTurnaroundTime n
                                            avgWaiting := fdiv st.totalWaitingTime n
                                            avgResponse := fdiv st.totalResponseTime n } : Metrics)) := by
    intro n x
    cases x <;> rfl
  unfold rr_metrics
  rw [hm, hm proc'.length, e, hl]

/-- C14.  Each engine is a function of its arguments, so two calls on the same
input return the same record; and the record depends only on the pid, arrival
time and burst time of each input record: two inputs that agree on these three
fields, whatever they carry in `startTime`, `completionTime` and
`remainingTime`, give the same result in each engine (for `rr_metrics`, with the
same quantum and the same fuel). -/
theorem metrics_depend_on_ident_only (proc proc' : List Process)
    (h : proc.map ident = proc'.map ident) (timeQuantum : Int) (fuel : Nat) :
    fcfs_metrics proc = fcfs_metrics proc' ∧ sjf_metrics proc = sjf_metrics proc' ∧
    rr_metrics fuel proc timeQuantum = rr_metrics fuel proc' timeQuantum :=
  ⟨fcfs_erase proc proc' h, sjf_erase proc proc' h, rr_erase proc proc' h timeQuantum fuel⟩

theorem metrics_depend_on_ident_only_witness :
    (twoAtZeroDirty.map ident = twoAtZero.map ident ∧ twoAtZeroDirty ≠ twoAtZero) ∧
    fcfs_metrics twoAtZeroDirty = fcfs_metrics twoAtZero ∧
    sjf_metrics twoAtZeroDirty = sjf_metrics twoAtZero ∧
    rr_metrics 5 twoAtZeroDirty 2 = rr_metrics 5 twoAtZero 2 :=
  ⟨⟨by decide, by decide⟩, metrics_depend_on_ident_only twoAtZeroDirty twoAtZero (by decide) 2 5⟩

/-! ## Round Robin: slices and completions -/

/-- One pass of the main loop of `rr_metrics` in terms of the remaining times:
the remaining time of each record drops by the slice the pass gives it; a pass
that dispatches gives a slice of at least one unit; the completing branch is
taken for a record exactly when the pass brings its remaining time to `0`, from
a positive value, and it is then that the counter goes up by one. -/
theorem rrBody_pass (procs0 : List Process) (hs : RRStatic procs0) (q : Int) (hq : 1 ≤ q)
    (st : RRState) (inv : RRInv procs0 st) (hrun : st.completed_count < procs0.length) :
    (∀ i, (nth (rrBody procs0.length q st).1.procs i).remainingTime
        = (nth st.procs i).remainingTime - sliceOf procs0.length q st i) ∧
    (∀ j, dispatched procs0.length st = some j →
        j < procs0.length ∧ 0 < (nth st.procs j).remainingTime ∧
        1 ≤ sliceUsed procs0.length q st ∧
        sliceUsed procs0.length q st ≤ (nth st.procs j).remainingTime ∧
        sliceUsed procs0.length q st ≤ q) ∧
    (∀ i, completesIn procs0.length q st i ↔
        (dispatched procs0.length st = some i ∧
          (nth (rrBody procs0.length q st).1.procs i).remainingTime = 0)) ∧
    ((∃ i, completesIn procs0.length q st i) →
      (rrBody procs0.length q st).1.completed_count = st.completed_count + 1) ∧
    ((¬ ∃ i, completesIn procs0.length q st i) →
      (rrBody procs0.length q st).1.completed_count = st.completed_count) := by
  obtain ⟨s, hs1, inv1, e1, e2, e3, -, -, -, hcase⟩ := rrBody_trichotomy procs0 hs q st inv hrun
  subst hs1
  rcases hcase with ⟨h0, hn, -, hb⟩ | ⟨h0, hr, hb⟩ | ⟨h0, hr, hb⟩
  · have hd : dispatched procs0.length st = none := by unfold dispatched; rw [if_pos h0]
    rw [hb]
    refine ⟨fun i => ?_, fun j hj => ?_, fun i => ?_, fun hex => ?_, fun hex => ?_⟩
    · unfold sliceOf
      rw [hd, if_neg (by simp)]
      show (nth (admission procs0.length st).procs i).remainingTime = _
      rw [e1]; omega
    · rw [hd] at hj; cases hj
    · unfold completesIn
      rw [hd]; simp
    · obtain ⟨i, hi, -⟩ := hex
      rw [hd] at hi; cases hi
    · show (admission procs0.length st).completed_count = _
      rw [e3]
  · obtain ⟨f1, f2, f3, f4, f5, f6, f7, f8⟩ := head_facts procs0 _ inv1 h0
    have hd : dispatched procs0.length st = some (headIdx procs0.length (admission procs0.length st)) := by
      unfold dispatched; rw [if_neg h0]
    have hsl : sliceUsed procs0.length q st
        = (current procs0.length (admission procs0.length st)).remainingTime := by
      unfold sliceUsed; rw [if_pos hr]
    have hp : ∀ i, (nth (finish procs0.length (admission procs0.length st)).procs i).remainingTime
        = if i = headIdx procs0.length (admission procs0.length st) then 0
          else (nth st.procs i).remainingTime := by
      intro i
      show (nth ((admission procs0.length st).procs.set _ _) i).remainingTime = _
      rw [nth_set _ _ _ _ f1]
      split_ifs
      · rfl
      · rw [e1]
    rw [hb]
    rw [e1] at f3 f4 f6
    rw [inv1.len] at f1
    refine ⟨fun i => ?_, fun j hj => ?_, fun i => ?_, fun hex => ?_, fun hex => ?_⟩
    · rw [hp]
      unfold sliceOf
      rw [hd, hsl, f6]
      by_cases hi : i = headIdx procs0.length (admission procs0.length st)
      · rw [if_pos hi, if_pos (by rw [hi]), hi]; omega
      · rw [if_neg hi, if_neg (by intro h; exact hi (Option.some.inj h).symm)]; omega
    · rw [hd] at hj
      have := Option.some.inj hj
      subst this
      rw [hsl, f6]
      rw [f6] at hr
      exact ⟨f1, f3, by omega, le_refl _, hr⟩
    · unfold completesIn
      rw [hd, hp]
      constructor
      · rintro ⟨h1, -⟩
        exact ⟨h1, by rw [if_pos (Option.some.inj h1).symm]⟩
      · rintro ⟨h1, -⟩
        exact ⟨h1, hr⟩
    · show (admission procs0.length st).completed_count + 1 = _
      rw [e3]
    · exact absurd ⟨_, hd, hr⟩ hex
  · obtain ⟨f1, f2, f3, f4, f5, f6, f7, f8⟩ := head_facts procs0 _ inv1 h0
    obtain ⟨g1, -, g3, -, -, -⟩ := preempt_fields procs0 _ inv1 h0 q
    have hd : dispatched procs0.length st = some (headIdx procs0.length (admission procs0.length st)) := by
      unfold dispatched; rw [if_neg h0]
    have hsl : sliceUsed procs0.length q st = q := by
      unfold sliceUsed; rw [if_neg (by omega)]
    have hp : ∀ i, (nth (preempt procs0.length q (admission procs0.length st)).procs i).remainingTime
        = if i = headIdx procs0.length (admission procs0.length st) then
            (nth st.procs i).remainingTime - q
          else (nth st.procs i).remainingTime := by
      intro i
      rw [g1, nth_set _ _ _ _ f1]
      split_ifs with hi
      · show (current procs0.length (admission procs0.length st)).remainingTime - q = _
        rw [f6, e1, hi]
      · rw [e1]
    rw [hb]
    rw [e1] at f3 f4 f6
    rw [inv1.len] at f1
    rw [f6] at hr
    refine ⟨fun i => ?_, fun j hj => ?_, fun i => ?_, fun hex => ?_, fun hex => ?_⟩
    · rw [hp]
      unfold sliceOf
      rw [hd, hsl]
      by_cases hi : i = headIdx procs0.length (admission procs0.length st)
      · rw [if_pos hi, if_pos (by rw [hi])]
      · rw [if_neg hi, if_neg (by intro h; exact hi (Option.some.inj h).symm)]; omega
    · rw [hd] at hj
      have := Option.some.inj hj
      subst this
      rw [hsl]
      exact ⟨f1, f3, hq, by omega, le_refl _⟩
    · unfold completesIn
      rw [hd, hp, f6]
      constructor
      · rintro ⟨-, h2⟩
        omega
      · rintro ⟨h1, h2⟩
        have := (Option.some.inj h1).symm
        subst this
        rw [if_pos rfl] at h2
        omega
    · obtain ⟨i, -, h2⟩ := hex
      rw [f6] at h2
      omega
    · rw [g3, e3]

theorem rrRun_inv (procs0 : List Process) (hs : RRStatic procs0) (q : Int) (hq : 1 ≤ q)
    (k : Nat) (st : RRState) (inv : RRInv procs0 st) :
    RRInv procs0 (rrRun procs0.length q k st) := by
  induction k generalizing st with
  | zero => exact inv
  | succ k ih =>
    unfold rrRun
    split_ifs with hc
    · exact ih _ (rrBody_inv procs0 hs q hq st inv hc).2.1
    · exact inv

/-- The state after `fuel` passes is the state the main loop exits with. -/
theorem rrLoop_eq_rrRun (procs0 : List Process) (hs : RRStatic procs0) (q : Int) (hq : 1 ≤ q)
    (fuel : Nat) (st final : RRState) (inv : RRInv procs0 st)
    (h : rrLoop procs0.length q fuel st = some final) :
    rrRun procs0.length q fuel st = final := by
  induction fuel generalizing st with
  | zero =>
    unfold rrLoop at h
    split_ifs at h with hc
    have e : st = final := by simpa using h
    subst e
    rfl
  | succ fuel ih =>
    unfold rrLoop at h
    unfold rrRun
    split_ifs at h ⊢ with hc
    · obtain ⟨b1, b2, -⟩ := rrBody_inv procs0 hs q hq st inv hc
      generalize rrBody procs0.length q st = r at h b1 b2 ⊢
      obtain ⟨st', flag⟩ := r
      simp only at b1
      subst b1
      exact ih st' b2 h
    · simpa using h

/-- The states at the head of the loop are the states after `k` passes. -/
theorem rrIter_eq_rrRun (procs0 : List Process) (hs : RRStatic procs0) (q : Int) (hq : 1 ≤ q)
    (k : Nat) (st0 st : RRState) (inv : RRInv procs0 st0)
    (h : rrIter procs0.length q k st0 = some st) :
    rrRun procs0.length q k st0 = st := by
  induction k generalizing st0 with
  | zero =>
    have e : st0 = st := by simpa [rrIter] using h
    subst e
    rfl
  | succ k ih =>
    unfold rrIter at h
    unfold rrRun
    split_ifs at h ⊢ with hc
    obtain ⟨b1, b2, -⟩ := rrBody_inv procs0 hs q hq st0 inv hc
    generalize rrBody procs0.length q st0 = r at h b1 b2 ⊢
    obtain ⟨st', flag⟩ := r
    simp only at b1
    subst b1
    exact ih st' b2 h

/-- The slices given to a record in the first `k` passes account for the work it
has lost: their sum and the remaining time after the passes add up to the
remaining time before. -/
theorem served_spec (procs0 : List Process) (hs : RRStatic procs0) (q : Int) (hq : 1 ≤ q)
    (i k : Nat) (st : RRState) (inv : RRInv procs0 st) :
    served procs0.length q i k st + (nth (rrRun procs0.length q k st).procs i).remainingTime
      = (nth st.procs i).remainingTime := by
  induction k generalizing st with
  | zero => simp [served, rrRun]
  | succ k ih =>
    unfold served rrRun
    split_ifs with hc
    · have b := rrBody_inv procs0 hs q hq st inv hc
      have p := (rrBody_pass procs0 hs q hq st inv hc).1 i
      have := ih _ b.2.1
      omega
    · simp

/-- The completions of a record in the first `k` passes: one when the passes
brought its remaining time from a positive value to `0`, none when it has work
left. -/
theorem completions_spec (procs0 : List Process) (hs : RRStatic procs0) (q : Int) (hq : 1 ≤ q)
    (i k : Nat) (st : RRState) (inv : RRInv procs0 st) :
    completions procs0.length q i k st
        + (if (nth st.procs i).remainingTime = 0 then 1 else 0)
      = if (nth (rrRun procs0.length q k st).procs i).remainingTime = 0 then 1 else 0 := by
  induction k generalizing st with
  | zero => simp [completions, rrRun]
  | succ k ih =>
    by_cases hc : st.completed_count < procs0.length
    · obtain ⟨p1, p2, p3, -, -⟩ := rrBody_pass procs0 hs q hq st inv hc
      have b := rrBody_inv procs0 hs q hq st inv hc
      have e := ih _ b.2.1
      have r1 := p1 i
      have c1 := p3 i
      have key : (if completesIn procs0.length q st i then 1 else 0)
            + (if (nth st.procs i).remainingTime = 0 then 1 else 0)
          = if (nth (rrBody procs0.length q st).1.procs i).remainingTime = 0 then 1 else 0 := by
        by_cases hcI : completesIn procs0.length q st i
        · obtain ⟨hd, hz⟩ := c1.mp hcI
          have := (p2 i hd).2.1
          rw [if_pos hcI, if_neg (by omega), if_pos hz]
        · rw [if_neg hcI]
          by_cases hd : dispatched procs0.length st = some i
          · have := (p2 i hd).2.1
            have hz : (nth (rrBody procs0.length q st).1.procs i).remainingTime ≠ 0 :=
              fun hz => hcI (c1.mpr ⟨hd, hz⟩)
            rw [if_neg (by omega), if_neg hz]
          · have h0 : sliceOf procs0.length q st i = 0 := by unfold sliceOf; rw [if_neg hd]
            rw [h0] at r1
            rw [r1]
            simp
      rw [completions, rrRun, if_pos hc, if_pos hc, ← e, ← key]
      omega
    · rw [completions, rrRun, if_neg hc, if_neg hc]
      simp
/-- In the initial state of `rr_metrics` the counter is `0` and no record of the
working array has remaining time `0`, when every burst time is positive. -/
theorem rrInit_remaining (proc : List Process) (hb : ∀ p ∈ proc, 0 < p.burstTime) (i : Nat)
    (hi : i < proc.length) :
    (nth (rrInit proc).procs i).remainingTime = (nth (rrInit proc).procs i).burstTime ∧
    0 < (nth (rrInit proc).procs i).burstTime := by
  obtain ⟨p, hp, e⟩ := rrInit_mem proc i hi
  rw [e]
  exact ⟨rfl, hb p hp⟩

/-- Termination of the main loop with the accounts of the run: the fuel
`rrMeasure` is enough, the exit state has every remaining time at `0`, the
slices given to each record sum to its burst time and each record was marked
complete once. -/
theorem rr_run_accounts (proc : List Process) (hb : ∀ p ∈ proc, 0 < p.burstTime)
    (hn : 0 < proc.length) (q : Int) (hq : 1 ≤ q) :
    ∃ fuel final, rrLoop proc.length q fuel (rrInit proc) = some final ∧
      final.completed_count = proc.length ∧
      (∀ i, i < proc.length → (nth final.procs i).remainingTime = 0) ∧
      (∀ i, i < proc.length →
        served proc.length q i fuel (rrInit proc) = (nth (rrInit proc).procs i).burstTime) ∧
      (∀ i, i < proc.length → completions proc.length q i fuel (rrInit proc) = 1) := by
  have hst := rrInit_static_of_pos proc hb
  have hinv := rrInit_inv_of_pos proc hb hn
  obtain ⟨final, hl⟩ := rr_terminates_of_pos proc hb hn q hq
  refine ⟨_, final, hl, ?_⟩
  have hl' := hl
  rw [← rrInit_procs_length proc] at hl'
  obtain ⟨inv, hc⟩ := rrLoop_sound _ hst q hq _ _ final hinv hl'
  obtain ⟨-, -, hdone⟩ := rr_exit_all_done _ final inv hc
  have hrun := rrLoop_eq_rrRun _ hst q hq _ _ final hinv hl'
  rw [rrInit_procs_length] at hc hdone hrun
  refine ⟨hc, hdone, fun i hi => ?_, fun i hi => ?_⟩
  · have h := served_spec _ hst q hq i (rrMeasure proc.length (rrInit proc)) _ hinv
    rw [rrInit_procs_length, hrun, hdone i hi, (rrInit_remaining proc hb i hi).1] at h
    omega
  · have h := completions_spec _ hst q hq i (rrMeasure proc.length (rrInit proc)) _ hinv
    obtain ⟨r1, r2⟩ := rrInit_remaining proc hb i hi
    rw [rrInit_procs_length, hrun, if_pos (hdone i hi), if_neg (by omega)] at h
    omega

/-- C15.  For valid input of at least one process and a quantum of at least `1`,
the main loop of `rr_metrics` ends and a record is returned; it ends with
`completed_count = n`, every remaining time at `0`, and each process marked
complete exactly once (never more than once, whatever the number of passes); and
in no pass from a state at the head of the loop is the early exit taken: the
queue is not found empty with no process left to admit. -/
theorem rr_loop_ends_all_completed (proc : List Process) (hv : Valid proc)
    (hn : 1 ≤ proc.length) (timeQuantum : Int) (hq : 1 ≤ timeQuantum) :
    (∃ fuel final, rrLoop proc.length timeQuantum fuel (rrInit proc) = some final ∧
      final.completed_count = proc.length ∧
      (∀ i, i < proc.length → (nth final.procs i).remainingTime = 0) ∧
      (∀ i, i < proc.length → completions proc.length timeQuantum i fuel (rrInit proc) = 1) ∧
      ∃ m, rr_metrics fuel proc timeQuantum = some m) ∧
    (∀ k i, completions proc.length timeQuantum i k (rrInit proc) ≤ 1) ∧
    (∀ k st, rrIter proc.length timeQuantum k (rrInit proc) = some st →
      st.completed_count < proc.length →
      (rrBody proc.length timeQuantum st).2 = false ∧
      ¬ ((admission proc.length st).q_count = 0 ∧
          ¬ (admission proc.length st).next_arrival_check_idx < proc.length)) := by
  have hb : ∀ p ∈ proc, 0 < p.burstTime := fun p hp => (hv.2 p hp).2
  have hst := rrInit_static proc hv
  have hinv := rrInit_inv proc hv hn
  refine ⟨?_, fun k i => ?_, fun k st hreach hrun => ?_⟩
  · obtain ⟨fuel, final, h1, h2, h3, -, h5⟩ := rr_run_accounts proc hb hn timeQuantum hq
    refine ⟨fuel, final, h1, h2, h3, h5, ?_⟩
    unfold rr_metrics
    rw [h1]
    exact ⟨_, rfl⟩
  · have h := completions_spec _ hst timeQuantum hq i k _ hinv
    rw [rrInit_procs_length] at h
    split_ifs at h <;> omega
  · have inv := rr_reach_inv proc hv hn timeQuantum hq k st hreach
    rw [← rrInit_procs_length proc] at hrun ⊢
    refine ⟨(rrBody_inv _ hst timeQuantum hq st inv hrun).1, ?_⟩
    obtain ⟨s, hs1, -, -, -, -, -, -, -, hcase⟩ :=
      rrBody_trichotomy _ hst timeQuantum st inv hrun
    subst hs1
    rcases hcase with ⟨-, h1, -, -⟩ | ⟨h0, -, -⟩ | ⟨h0, -, -⟩
    · exact fun h => h.2 h1
    · exact fun h => h0 h.1
    · exact fun h => h0 h.1

theorem rr_loop_ends_all_completed_witness :
    (Valid arrivalDuringSlice ∧ 1 ≤ arrivalDuringSlice.length ∧ (1 : Int) ≤ 3) ∧
    (∃ fuel final, rrLoop arrivalDuringSlice.length 3 fuel (rrInit arrivalDuringSlice)
        = some final ∧
      final.completed_count = arrivalDuringSlice.length ∧
      (∀ i, i < arrivalDuringSlice.length → (nth final.procs i).remainingTime = 0) ∧
      (∀ i, i < arrivalDuringSlice.length →
        completions arrivalDuringSlice.length 3 i fuel (rrInit arrivalDuringSlice) = 1) ∧
      ∃ m, rr_metrics fuel arrivalDuringSlice 3 = some m) :=
  ⟨⟨by decide, by decide, by decide⟩,
    (rr_loop_ends_all_completed arrivalDuringSlice (by decide) (by decide) 3 (by decide)).1⟩
/-- C16.  In `rr_metrics` with a quantum of at least `1` and positive burst
times, at the head of every pass of the main loop: no remaining time is
negative, and for each record the slices given to it so far and its remaining
time add up to its burst time.  A pass that dispatches the record at index `j`
strictly decreases its remaining time, to a value that is not negative, and
takes the completing branch for `j` exactly when that value is `0`; it leaves
the remaining time of every other record as it is; and the counter of completed
processes goes up, by one, exactly in the passes that take the completing
branch.  The loop ends, and over the whole run the slices given to each record
sum to its burst time. -/
theorem rr_remaining_time_accounting (proc : List Process)
    (hb : ∀ p ∈ proc, 0 < p.burstTime) (timeQuantum : Int) (hq : 1 ≤ timeQuantum) :
    (∀ k st, rrIter proc.length timeQuantum k (rrInit proc) = some st →
      (∀ i, i < proc.length → 0 ≤ (nth st.procs i).remainingTime ∧
        served proc.length timeQuantum i k (rrInit proc) + (nth st.procs i).remainingTime
          = (nth st.procs i).burstTime) ∧
      (st.completed_count < proc.length →
        (∀ j, dispatched proc.length st = some j →
          (nth (rrBody proc.length timeQuantum st).1.procs j).remainingTime
            < (nth st.procs j).remainingTime ∧
          0 ≤ (nth (rrBody proc.length timeQuantum st).1.procs j).remainingTime ∧
          (completesIn proc.length timeQuantum st j ↔
            (nth (rrBody proc.length timeQuantum st).1.procs j).remainingTime = 0)) ∧
        (∀ i, dispatched proc.length st ≠ some i →
          (nth (rrBody proc.length timeQuantum st).1.procs i).remainingTime
            = (nth st.procs i).remainingTime ∧
          ¬ completesIn proc.length timeQuantum st i) ∧
        ((∃ j, completesIn proc.length timeQuantum st j) →
          (rrBody proc.length timeQuantum st).1.completed_count = st.completed_count + 1) ∧
        ((¬ ∃ j, completesIn proc.length timeQuantum st j) →
          (rrBody proc.length timeQuantum st).1.completed_count = st.completed_count))) ∧
    (∃ fuel final, rrLoop proc.length timeQuantum fuel (rrInit proc) = some final ∧
      ∀ i, i < proc.length →
        (nth final.procs i).remainingTime = 0 ∧
        served proc.length timeQuantum i fuel (rrInit proc) = (nth final.procs i).burstTime) := by
  rcases Nat.eq_zero_or_pos proc.length with hn | hn
  · refine ⟨fun k st _ => ⟨fun i hi => by omega, fun hc => by omega⟩, 0, rrInit proc, ?_,
      fun i hi => by omega⟩
    unfold rrLoop
    rw [if_neg (by omega)]
  have hst := rrInit_static_of_pos proc hb
  have hinv := rrInit_inv_of_pos proc hb hn
  constructor
  · intro k st hreach
    rw [← rrInit_procs_length proc] at hreach
    have inv := rrIter_inv _ hst timeQuantum hq k _ st hinv hreach
    have hrun := rrIter_eq_rrRun _ hst timeQuantum hq k _ st hinv hreach
    rw [rrInit_procs_length] at hrun
    refine ⟨fun i hi => ?_, fun hc => ?_⟩
    · have h := served_spec _ hst timeQuantum hq i k _ hinv
      rw [rrInit_procs_length, hrun, (rrInit_remaining proc hb i hi).1] at h
      rw [ident_burst (inv.key i)]
      exact ⟨(inv.rem i (by rw [rrInit_procs_length]; exact hi)).1, h⟩
    · rw [← rrInit_procs_length proc] at hc
      obtain ⟨p1, p2, p3, p4, p5⟩ := rrBody_pass _ hst timeQuantum hq st inv hc
      rw [rrInit_procs_length] at p1 p2 p3 p4 p5
      refine ⟨fun j hj => ?_, fun i hi => ?_, p4, p5⟩
      · obtain ⟨-, -, a3, a4, -⟩ := p2 j hj
        have e : sliceOf proc.length timeQuantum st j = sliceUsed proc.length timeQuantum st := by
          unfold sliceOf; rw [if_pos hj]
        have r := p1 j
        rw [e] at r
        refine ⟨by omega, by omega, ?_⟩
        rw [p3 j]
        exact ⟨fun h => h.2, fun h => ⟨hj, h⟩⟩
      · have e : sliceOf proc.length timeQuantum st i = 0 := by
          unfold sliceOf; rw [if_neg hi]
        have r := p1 i
        rw [e] at r
        exact ⟨by omega, fun h => hi h.1⟩
  · obtain ⟨fuel, final, h1, -, h3, h4, -⟩ := rr_run_accounts proc hb hn timeQuantum hq
    refine ⟨fuel, final, h1, fun i hi => ⟨h3 i hi, ?_⟩⟩
    have h1' := h1
    rw [← rrInit_procs_length proc] at h1'
    obtain ⟨inv, -⟩ := rrLoop_sound _ hst timeQuantum hq _ _ final hinv h1'
    rw [h4 i hi, ident_burst (inv.key i)]

theorem rr_remaining_time_accounting_witness :
    ((∀ p ∈ idleGap, 0 < p.burstTime) ∧ (1 : Int) ≤ 1) ∧
    ∃ fuel final, rrLoop idleGap.length 1 fuel (rrInit idleGap) = some final ∧
      ∀ i, i < idleGap.length →
        (nth final.procs i).remainingTime = 0 ∧
        served idleGap.length 1 i fuel (rrInit idleGap) = (nth final.procs i).burstTime :=
  ⟨⟨by decide, by decide⟩,
    (rr_remaining_time_accounting idleGap (by decide) 1 (by decide)).2⟩

/-! ## The order of the input records does not matter -/

/-- Two arrays with the same records, of pairwise distinct pids, are sorted to
the same array. -/
theorem qsort_eq_of_perm (l l' : List Process) (hp : l.Perm l')
    (hnd : (l.map Process.pid).Nodup) :
    qsort compareByArrival l = qsort compareByArrival l' := by
  have hnd' : (l'.map Process.pid).Nodup := (hp.map Process.pid).nodup_iff.1 hnd
  haveI : IsAntisymm Process ArrivesBefore := ⟨by
    intro a b h1 h2
    unfold ArrivesBefore at h1 h2
    omega⟩
  exact List.eq_of_perm_of_sorted
    (((qsort_perm compareByArrival l).trans hp).trans (qsort_perm compareByArrival l').symm)
    (qsort_sorted l hnd) (qsort_sorted l' hnd')

/-- C18.  Two inputs that are permutations of each other, with pairwise distinct
pids, give the same result in `fcfs_metrics`, in `sjf_metrics` and, for the
same quantum (and the same fuel), in `rr_metrics`. -/
theorem metrics_invariant_under_permutation (proc proc' : List Process)
    (hp : proc.Perm proc') (hnd : (proc.map Process.pid).Nodup) (timeQuantum : Int)
    (fuel : Nat) :
    fcfs_metrics proc = fcfs_metrics proc' ∧ sjf_metrics proc = sjf_metrics proc' ∧
    rr_metrics fuel proc timeQuantum = rr_metrics fuel proc' timeQuantum := by
  have hl : proc.length = proc'.length := hp.length_eq
  have h1 : initLoop proc = initLoop proc' := by
    unfold initLoop
    rw [qsort_eq_of_perm proc proc' hp hnd]
  have h2 : rrInit proc = rrInit proc' := by
    unfold rrInit
    simp only
    rw [qsort_eq_of_perm _ _
      (hp.map fun p => { p with remainingTime := p.burstTime, startTime := -1 })
      (by rw [List.map_map]; exact hnd), hl]
  refine ⟨?_, ?_, ?_⟩
  · unfold fcfs_metrics fcfsIter
    rw [h1, hl]
  · unfold sjf_metrics sjfIter
    rw [h1, hl]
  · unfold rr_metrics
    rw [h2, hl]

theorem metrics_invariant_under_permutation_witness :
    (twoAtZero.Perm twoAtZeroSwapped ∧ (twoAtZero.map Process.pid).Nodup ∧
      twoAtZero ≠ twoAtZeroSwapped) ∧
    fcfs_metrics twoAtZero = fcfs_metrics twoAtZeroSwapped ∧
    sjf_metrics twoAtZero = sjf_metrics twoAtZeroSwapped ∧
    rr_metrics 5 twoAtZero 2 = rr_metrics 5 twoAtZeroSwapped 2 :=
  ⟨⟨List.Perm.swap _ _ _, by decide, by decide⟩,
    metrics_invariant_under_permutation twoAtZero twoAtZeroSwapped (List.Perm.swap _ _ _)
      (by decide) 2 5⟩

/-! ## Round Robin: the circular buffer -/

theorem queueInv_of_inv (procs0 : List Process) (st : RRState) (inv : RRInv procs0 st) :
    QueueInv procs0.length 0 st :=
  ⟨inv.queue, inv.nodup, fun x hx => (inv.queued x hx).1, by have := inv.cnt; omega, inv.next_le⟩

theorem queueInv_point (n d : Nat) (st : RRState) (h : QueueInv n d st) : QueuePoint n st :=
  ⟨h.nodup, by have := h.cnt; have := h.next_le; omega⟩

theorem queueInv_tailFree (n d : Nat) (st : RRState) (h : QueueInv n d st)
    (hc : st.q_count < n) : TailFree n st := by
  intro k hk
  rw [h.ok.tail]
  exact mod_add_ne n _ _ _ hk hc

theorem queueInv_admit (n d : Nat) (st : RRState) (h : QueueInv n d st) (hc : admits n st) :
    QueueInv n d { enqueue n st st.next_arrival_check_idx with
      next_arrival_check_idx := st.next_arrival_check_idx + 1 } ∧
    queueList n { enqueue n st st.next_arrival_check_idx with
      next_arrival_check_idx := st.next_arrival_check_idx + 1 }
      = queueList n st ++ [st.next_arrival_check_idx] := by
  have hcnt := h.cnt
  have hlt := hc.1
  obtain ⟨ok1, hl1⟩ := queueList_enqueue n st st.next_arrival_check_idx h.ok (by omega)
  have e : queueList n { enqueue n st st.next_arrival_check_idx with
      next_arrival_check_idx := st.next_arrival_check_idx + 1 }
      = queueList n (enqueue n st st.next_arrival_check_idx) := rfl
  refine ⟨⟨⟨ok1.buf, ok1.head, ok1.tail, ok1.count⟩, ?_, ?_, ?_, ?_⟩, by rw [e, hl1]⟩
  · rw [e, hl1]
    refine List.Nodup.append h.nodup (List.nodup_singleton _) ?_
    intro x hx hx'
    have := h.below x hx
    have : x = st.next_arrival_check_idx := by simpa using hx'
    omega
  · intro x hx
    rw [e, hl1, List.mem_append] at hx
    show x < st.next_arrival_check_idx + 1
    rcases hx with hx | hx
    · have := h.below x hx; omega
    · have : x = st.next_arrival_check_idx := by simpa using hx
      omega
  · show st.q_count + 1 + st.completed_count + d = st.next_arrival_check_idx + 1
    omega
  · show st.next_arrival_check_idx + 1 ≤ n
    omega

/-- Every state that the admission loop passes through keeps the invariant of
the queue; what it appends to the queue are indices from the cursor on. -/
theorem queueInv_admissionLoop (n d b : Nat) (st : RRState) (h : QueueInv n d st) :
    QueueInv n d (admissionLoop n b st) ∧
    ∀ x ∈ queueList n (admissionLoop n b st),
      x ∈ queueList n st ∨ st.next_arrival_check_idx ≤ x := by
  induction b generalizing st with
  | zero => exact ⟨h, fun x hx => Or.inl hx⟩
  | succ b ih =>
    unfold admissionLoop
    by_cases hc : st.next_arrival_check_idx < n ∧
        (nth st.procs st.next_arrival_check_idx).arrivalTime ≤ st.currentTime
    · rw [if_pos hc]
      obtain ⟨h1, e1⟩ := queueInv_admit n d st h hc
      obtain ⟨h2, h3⟩ := ih _ h1
      refine ⟨h2, fun x hx => ?_⟩
      rcases h3 x hx with hx' | hx'
      · rw [e1, List.mem_append] at hx'
        rcases hx' with hx' | hx'
        · exact Or.inl hx'
        · right
          have : x = st.next_arrival_check_idx := by simpa using hx'
          omega
      · right
        have : st.next_arrival_check_idx + 1 ≤ x := hx'
        omega
    · rw [if_neg hc]
      exact ⟨h, fun x hx => Or.inl hx⟩

theorem queueInv_dequeue (n : Nat) (s : RRState) (h : QueueInv n 0 s) (h0 : s.q_count ≠ 0) :
    QueueInv n 1 (dequeue n s).2 ∧
    queueList n s = headIdx n s :: queueList n (dequeue n s).2 ∧
    headIdx n s ∉ queueList n (dequeue n s).2 ∧
    headIdx n s < s.next_arrival_check_idx := by
  obtain ⟨ok, hl⟩ := queueList_dequeue n s h.ok (by omega)
  have hnd := h.nodup
  rw [hl, List.nodup_cons] at hnd
  have hb := h.below
  rw [hl] at hb
  have hcnt := h.cnt
  refine ⟨⟨ok, hnd.2, fun x hx => hb x (List.mem_cons_of_mem _ hx), ?_, h.next_le⟩, hl, hnd.1,
    hb _ (List.mem_cons_self _ _)⟩
  show s.q_count - 1 + s.completed_count + 1 = s.next_arrival_check_idx
  omega

/-- C19.  In `rr_metrics` on valid input of at least one process with a quantum
of at least `1`, take any state at the head of the main loop.  In every state
the admission loop passes through from there, no index is in the ready queue
twice and `q_count + completed_count ≤ n`; whenever the admission loop is about
to write, the slot at `q_tail` holds no entry waiting to be dequeued.  When the
pass dispatches, the queue is not empty and the index read at `q_head` is the
oldest entry of the queue, an index that the admission loop has written; after
the dequeue, and in every state the second admission loop passes through after
a preemption, the same two bounds hold and the slot at `q_tail` is free, so the
write of the preempted index overwrites nothing; the preempted index is not in
the queue when it is written back. -/
theorem rr_queue_never_overwrites (proc : List Process) (hv : Valid proc)
    (hn : 1 ≤ proc.length) (timeQuantum : Int) (hq : 1 ≤ timeQuantum) :
    ∀ k st, rrIter proc.length timeQuantum k (rrInit proc) = some st →
      (∀ b, QueuePoint proc.length (admissionLoop proc.length b st) ∧
        (admits proc.length (admissionLoop proc.length b st) →
          TailFree proc.length (admissionLoop proc.length b st))) ∧
      ((admission proc.length st).q_count ≠ 0 →
        (0 < (admission proc.length st).q_count ∧
          queueList proc.length (admission proc.length st)
            = headIdx proc.length (admission proc.length st)
              :: queueList proc.length (dequeue proc.length (admission proc.length st)).2 ∧
          headIdx proc.length (admission proc.length st)
            < (admission proc.length st).next_arrival_check_idx) ∧
        QueuePoint proc.length (dequeue proc.length (admission proc.length st)).2 ∧
        (∀ b, QueuePoint proc.length
            (admissionLoop proc.length b
              (charge proc.length timeQuantum (admission proc.length st))) ∧
          TailFree proc.length
            (admissionLoop proc.length b
              (charge proc.length timeQuantum (admission proc.length st)))) ∧
        TailFree proc.length
          (admission proc.length (charge proc.length timeQuantum (admission proc.length st))) ∧
        headIdx proc.length (admission proc.length st) ∉
          queueList proc.length
            (admission proc.length
              (charge proc.length timeQuantum (admission proc.length st)))) := by
  intro k st hreach
  have inv := rr_reach_inv proc hv hn timeQuantum hq k st hreach
  have h0 := queueInv_of_inv _ st inv
  rw [rrInit_procs_length] at h0
  have hA : ∀ b, QueueInv proc.length 0 (admissionLoop proc.length b st) :=
    fun b => (queueInv_admissionLoop proc.length 0 b st h0).1
  refine ⟨fun b => ⟨queueInv_point _ _ _ (hA b), fun hc => ?_⟩, fun hne => ?_⟩
  · refine queueInv_tailFree _ _ _ (hA b) ?_
    have := (hA b).cnt
    have := hc.1
    omega
  · have hs : QueueInv proc.length 0 (admission proc.length st) := hA _
    obtain ⟨d1, d2, d3, d4⟩ := queueInv_dequeue proc.length _ hs hne
    have hc : QueueInv proc.length 1
        (charge proc.length timeQuantum (admission proc.length st)) :=
      ⟨⟨d1.ok.buf, d1.ok.head, d1.ok.tail, d1.ok.count⟩, d1.nodup, d1.below, d1.cnt, d1.next_le⟩
    have hB : ∀ b, QueueInv proc.length 1 (admissionLoop proc.length b
        (charge proc.length timeQuantum (admission proc.length st))) :=
      fun b => (queueInv_admissionLoop proc.length 1 b _ hc).1
    have hfree : ∀ b, TailFree proc.length (admissionLoop proc.length b
        (charge proc.length timeQuantum (admission proc.length st))) := by
      intro b
      refine queueInv_tailFree _ _ _ (hB b) ?_
      have := (hB b).cnt
      have := (hB b).next_le
      omega
    refine ⟨⟨by omega, d2, d4⟩, queueInv_point _ _ _ d1,
      fun b => ⟨queueInv_point _ _ _ (hB b), hfree b⟩, hfree _, fun hmem => ?_⟩
    rcases (queueInv_admissionLoop proc.length 1 _ _ hc).2 _ hmem with hx | hx
    · exact d3 hx
    · have : (charge proc.length timeQuantum (admission proc.length st)).next_arrival_check_idx
          = (admission proc.length st).next_arrival_check_idx := rfl
      omega

theorem rr_queue_never_overwrites_witness :
    (Valid arrivalDuringSlice ∧ 1 ≤ arrivalDuringSlice.length ∧ (1 : Int) ≤ 2) ∧
    rrIter arrivalDuringSlice.length 2 1 (rrInit arrivalDuringSlice)
      = some (rrBody arrivalDuringSlice.length 2 (rrInit arrivalDuringSlice)).1 ∧
    (∀ b, QueuePoint arrivalDuringSlice.length
        (admissionLoop arrivalDuringSlice.length b
          (rrBody arrivalDuringSlice.length 2 (rrInit arrivalDuringSlice)).1) ∧
      (admits arrivalDuringSlice.length
          (admissionLoop arrivalDuringSlice.length b
            (rrBody arrivalDuringSlice.length 2 (rrInit arrivalDuringSlice)).1) →
        TailFree arrivalDuringSlice.length
          (admissionLoop arrivalDuringSlice.length b
            (rrBody arrivalDuringSlice.length 2 (rrInit arrivalDuringSlice)).1))) :=
  ⟨⟨by decide, by decide, by decide⟩, by decide,
    (rr_queue_never_overwrites arrivalDuringSlice (by decide) (by decide) 2 (by decide) 1
      (rrBody arrivalDuringSlice.length 2 (rrInit arrivalDuringSlice)).1 (by decide)).1⟩

/-! ## Round Robin with a quantum that no burst exceeds -/

theorem range'_glue (j a m : Nat) (h : j ≤ a) :
    List.range' j (a - j) ++ List.range' a m = List.range' j (a + m - j) := by
  have e : List.range' a m = List.range' (j + (a - j)) m := by
    rw [Nat.add_sub_cancel' h]
  rw [e, List.range'_append_1]
  congr 1
  omega

/-- The record at index `j` of the FCFS timeline: it starts at the later of its
arrival and the completion of the timeline of the records before it. -/
theorem fcfsTimeline_nth (l : List Process) (j : Nat) (hj : j < l.length) :
    nth (fcfsTimeline 0 l) j
      = { nth l j with
          startTime := max (nth l j).arrivalTime (fcfsClock 0 (l.take j))
          completionTime :=
            max (nth l j).arrivalTime (fcfsClock 0 (l.take j)) + (nth l j).burstTime } := by
  have e : l = l.take j ++ nth l j :: l.drop (j + 1) := by
    rw [← drop_eq_nth_cons l j hj, List.take_append_drop]
  have hlen : (fcfsTimeline 0 (l.take j)).length = j := by
    rw [fcfsTimeline_length, List.length_take]; omega
  conv_lhs => rw [e, fcfsTimeline_append]
  simp only [fcfsTimeline]
  have := nth_append_length (fcfsTimeline 0 (l.take j))
    (fcfsTimeline (max (nth l j).arrivalTime (fcfsClock 0 (l.take j)) + (nth l j).burstTime)
      (l.drop (j + 1)))
    { nth l j with
      startTime := max (nth l j).arrivalTime (fcfsClock 0 (l.take j))
      completionTime :=
        max (nth l j).arrivalTime (fcfsClock 0 (l.take j)) + (nth l j).burstTime }
  rwa [hlen] at this

/-- The sums over the FCFS timeline of the first `j + 1` records, from the sums
over the timeline of the first `j`. -/
theorem fcfsTimeline_take_succ (l : List Process) (j : Nat) (hj : j < l.length) :
    fcfsClock 0 (l.take (j + 1))
      = max (nth l j).arrivalTime (fcfsClock 0 (l.take j)) + (nth l j).burstTime ∧
    ((fcfsTimeline 0 (l.take (j + 1))).map turnaround).sum
      = ((fcfsTimeline 0 (l.take j)).map turnaround).sum
        + (max (nth l j).arrivalTime (fcfsClock 0 (l.take j)) + (nth l j).burstTime
            - (nth l j).arrivalTime) ∧
    ((fcfsTimeline 0 (l.take (j + 1))).map waiting).sum
      = ((fcfsTimeline 0 (l.take j)).map waiting).sum
        + (max (nth l j).arrivalTime (fcfsClock 0 (l.take j)) + (nth l j).burstTime
            - (nth l j).arrivalTime - (nth l j).burstTime) ∧
    ((fcfsTimeline 0 (l.take (j + 1))).map response).sum
      = ((fcfsTimeline 0 (l.take j)).map response).sum
        + (max (nth l j).arrivalTime (fcfsClock 0 (l.take j)) - (nth l j).arrivalTime) := by
  rw [take_succ_nth l j hj, fcfsClock_append, fcfsTimeline_append]
  simp only [fcfsClock, fcfsTimeline, List.map_append, List.sum_append, List.map_cons,
    List.map_nil, List.sum_cons, List.sum_nil, turnaround, waiting, response, add_zero]
  exact ⟨trivial, trivial, trivial, trivial⟩
theorem fcfsLike_admission (procs0 : List Process) (hs : RRStatic procs0) (st : RRState)
    (inv : RRInv procs0 st) (fl : FcfsLike procs0 st) :
    FcfsLike procs0 (admission procs0.length st) := by
  obtain ⟨-, a1, a2, a3, a4, a5, a6, -⟩ := admission_inv procs0 hs st inv
  have hcnt := inv.cnt
  obtain ⟨m, h1, h2, h3, h4, -, -, -, -, -, -, -, -, -⟩ :=
    admission_spec procs0.length st inv.queue (by omega) inv.next_le
  refine ⟨?_, ?_, ?_, ?_, ?_, ?_, ?_, ?_⟩
  · rw [h4, fl.queue, a3, h2]
    exact range'_glue _ _ _ (by omega)
  · rw [a1, a3]; exact fl.untouched
  · rw [a2, a3]; exact fl.clock_ge
  · rw [a2, a3]; exact fl.clock_le
  · rw [a1, a3]; exact fl.times
  · rw [a4, a3]; exact fl.tt
  · rw [a5, a3]; exact fl.tw
  · rw [a6, a3]; exact fl.tr

/-- One pass of the main loop of `rr_metrics` when the quantum is at least every
burst time: the pass does not preempt; it either idles or completes the record
at index `completed_count`; the FCFS-like invariant is kept. -/
theorem fcfsLike_step (procs0 : List Process) (hs : RRStatic procs0) (q : Int)
    (hqb : ∀ i, i < procs0.length → (nth procs0 i).burstTime ≤ q)
    (st : RRState) (inv : RRInv procs0 st) (fl : FcfsLike procs0 st)
    (hrun : st.completed_count < procs0.length) :
    FcfsLike procs0 (rrBody procs0.length q st).1 ∧
    (rrBody procs0.length q st = (idleJump (admission procs0.length st), false) ∨
      (headIdx procs0.length (admission procs0.length st) = st.completed_count ∧
        rrBody procs0.length q st = (finish procs0.length (admission procs0.length st), false))) := by
  have fls := fcfsLike_admission procs0 hs st inv fl
  obtain ⟨s, hs1, inv1, e1, e2, e3, -, -, -, hcase⟩ := rrBody_trichotomy procs0 hs q st inv hrun
  subst hs1
  have hcnt := inv1.cnt
  have hnl := inv1.next_le
  rw [e3] at hcnt
  have hq0 : ∀ h0 : (admission procs0.length st).q_count ≠ 0,
      headIdx procs0.length (admission procs0.length st) = st.completed_count ∧
      queueList procs0.length (dequeue procs0.length (admission procs0.length st)).2
        = List.range' (st.completed_count + 1)
            ((admission procs0.length st).next_arrival_check_idx - (st.completed_count + 1)) := by
    intro h0
    obtain ⟨-, -, d3, -, -, -, -⟩ := dequeue_facts procs0 _ inv1 h0
    have hq := fls.queue
    rw [e3, d3] at hq
    obtain ⟨c, hc⟩ : ∃ c, (admission procs0.length st).next_arrival_check_idx
        - st.completed_count = c + 1 := ⟨(admission procs0.length st).q_count - 1, by omega⟩
    rw [hc, List.range'_succ] at hq
    have h1 := List.head_eq_of_cons_eq hq
    have h2 := List.tail_eq_of_cons_eq hq
    refine ⟨h1, ?_⟩
    rw [h2]
    congr 1
    omega
  rcases hcase with ⟨h0, hn, hlt, hb⟩ | ⟨h0, hr, hb⟩ | ⟨h0, hr, hb⟩
  · refine ⟨?_, Or.inl hb⟩
    rw [hb]
    have hj : (admission procs0.length st).next_arrival_check_idx
        = (admission procs0.length st).completed_count := by rw [e3]; omega
    have harr : (nth (admission procs0.length st).procs
        (admission procs0.length st).completed_count).arrivalTime
        = (nth procs0 (admission procs0.length st).completed_count).arrivalTime :=
      ident_arrival (inv1.key _)
    rw [hj] at hlt
    have hge := fls.clock_ge
    refine ⟨fls.queue, fls.untouched, ?_, fun _ => ?_, fls.times, fls.tt, fls.tw, fls.tr⟩
    · show fcfsClock 0 (procs0.take (admission procs0.length st).completed_count)
        ≤ (nth (admission procs0.length st).procs
            (admission procs0.length st).next_arrival_check_idx).arrivalTime
      rw [hj]
      omega
    · show (nth (admission procs0.length st).procs
        (admission procs0.length st).next_arrival_check_idx).arrivalTime ≤ _
      rw [hj, harr]
      exact le_max_left _ _
  · obtain ⟨hh, hqueue⟩ := hq0 h0
    refine ⟨?_, Or.inr ⟨hh, hb⟩⟩
    rw [hb]
    obtain ⟨f1, f2, f3, f4, f5, f6, f7, f8⟩ := head_facts procs0 _ inv1 h0
    rw [hh] at f1 f2 f3 f4 f5 f6 f7 f8
    have hu := fls.untouched st.completed_count (by rw [e3]) hrun
    have k1 : (nth (admission procs0.length st).procs st.completed_count).arrivalTime
        = (nth procs0 st.completed_count).arrivalTime := ident_arrival (inv1.key _)
    have k2 : (nth (admission procs0.length st).procs st.completed_count).burstTime
        = (nth procs0 st.completed_count).burstTime := ident_burst (inv1.key _)
    have hge := fls.clock_ge
    have hle := fls.clock_le (by rw [e3]; exact hrun)
    rw [e3] at hge hle
    have hclock : (admission procs0.length st).currentTime
        = max (nth procs0 st.completed_count).arrivalTime
            (fcfsClock 0 (procs0.take st.completed_count)) := by
      apply le_antisymm hle
      apply max_le
      · rw [← k1]; exact f5
      · exact hge
    have hstart : (current procs0.length (admission procs0.length st)).startTime
        = (admission procs0.length st).currentTime := by
      unfold current markStart
      rw [hh, if_pos hu.2]
    have hrem : (current procs0.length (admission procs0.length st)).remainingTime
        = (nth procs0 st.completed_count).burstTime := by rw [f6, hu.1, k2]
    have harr : (current procs0.length (admission procs0.length st)).arrivalTime
        = (nth procs0 st.completed_count).arrivalTime := by rw [f8, k1]
    have hbur : (current procs0.length (admission procs0.length st)).burstTime
        = (nth procs0 st.completed_count).burstTime := by rw [f7, k2]
    obtain ⟨t1, t2, t3, t4⟩ := fcfsTimeline_take_succ procs0 st.completed_count hrun
    have hcc : (finish procs0.length (admission procs0.length st)).completed_count
        = st.completed_count + 1 := by
      show (admission procs0.length st).completed_count + 1 = _
      rw [e3]
    have hprocs : (finish procs0.length (admission procs0.length st)).procs
        = (admission procs0.length st).procs.set st.completed_count
            { current procs0.length (admission procs0.length st) with
              remainingTime := 0
              completionTime := (admission procs0.length st).currentTime
                + (current procs0.length (admission procs0.length st)).remainingTime } := by
      show (admission procs0.length st).procs.set
        (headIdx procs0.length (admission procs0.length st)) _ = _
      rw [hh]
    refine ⟨?_, ?_, ?_, fun _ => ?_, ?_, ?_, ?_, ?_⟩
    · rw [hcc]
      exact hqueue
    · intro i hi1 hi2
      rw [hcc] at hi1
      rw [hprocs, nth_set_ne _ _ _ _ (by omega)]
      exact fls.untouched i (by rw [e3]; omega) hi2
    · rw [hcc, t1]
      show _ ≤ (admission procs0.length st).currentTime
        + (current procs0.length (admission procs0.length st)).remainingTime
      rw [hrem, hclock]
    · rw [hcc, t1]
      show (admission procs0.length st).currentTime
        + (current procs0.length (admission procs0.length st)).remainingTime ≤ _
      rw [hrem, hclock]
      exact le_max_right _ _
    · intro i hi
      rw [hcc] at hi
      rw [hprocs]
      by_cases hij : i = st.completed_count
      · subst hij
        rw [nth_set_self _ _ _ f1, fcfsTimeline_nth procs0 _ hrun]
        exact ⟨by show (current procs0.length (admission procs0.length st)).startTime = _
                  rw [hstart, hclock],
          by show (admission procs0.length st).currentTime
                + (current procs0.length (admission procs0.length st)).remainingTime = _
             rw [hrem, hclock]⟩
      · rw [nth_set_ne _ _ _ _ (Ne.symm hij)]
        exact fls.times i (by rw [e3]; omega)
    · rw [hcc, t2]
      show (admission procs0.length st).totalTurnaroundTime
        + ((admission procs0.length st).currentTime
          + (current procs0.length (admission procs0.length st)).remainingTime
          - (current procs0.length (admission procs0.length st)).arrivalTime) = _
      rw [fls.tt, e3, hrem, harr, hclock]
    · rw [hcc, t3]
      show (admission procs0.length st).totalWaitingTime
        + ((admission procs0.length st).currentTime
          + (current procs0.length (admission procs0.length st)).remainingTime
          - (current procs0.length (admission procs0.length st)).arrivalTime
          - (current procs0.length (admission procs0.length st)).burstTime) = _
      rw [fls.tw, e3, hrem, harr, hbur, hclock]
    · rw [hcc, t4]
      show (admission procs0.length st).totalResponseTime
        + ((current procs0.length (admission procs0.length st)).startTime
          - (current procs0.length (admission procs0.length st)).arrivalTime) = _
      rw [fls.tr, e3, hstart, harr, hclock]
  · exfalso
    obtain ⟨hh, -⟩ := hq0 h0
    obtain ⟨f1, f2, f3, f4, f5, f6, f7, f8⟩ := head_facts procs0 _ inv1 h0
    rw [hh] at f6
    have hu := fls.untouched st.completed_count (by rw [e3]) hrun
    have k2 : (nth (admission procs0.length st).procs st.completed_count).burstTime
        = (nth procs0 st.completed_count).burstTime := ident_burst (inv1.key _)
    have := hqb _ hrun
    omega
theorem fcfsLike_init (proc : List Process) :
    FcfsLike (rrInit proc).procs (rrInit proc) := by
  refine ⟨by simp [queueList, rrInit], ?_, ?_, fun _ => ?_, fun i hi => ?_, rfl, rfl, rfl⟩
  · intro i _ hi
    rw [rrInit_procs_length] at hi
    obtain ⟨p, -, e⟩ := rrInit_mem proc i hi
    rw [e]
    exact ⟨rfl, rfl⟩
  · show (0 : Int) ≤ if proc.length > 0 ∧ (nth (rrInit proc).procs 0).arrivalTime > 0
      then (nth (rrInit proc).procs 0).arrivalTime else 0
    split_ifs with h
    · omega
    · exact le_refl _
  · show (if proc.length > 0 ∧ (nth (rrInit proc).procs 0).arrivalTime > 0
      then (nth (rrInit proc).procs 0).arrivalTime else 0)
        ≤ max (nth (rrInit proc).procs 0).arrivalTime 0
    split_ifs with h
    · exact le_max_left _ _
    · exact le_max_right _ _
  · have : (rrInit proc).completed_count = 0 := rfl
    omega

theorem fcfsClock_map (f : Process → Process)
    (hf : ∀ p, (f p).arrivalTime = p.arrivalTime ∧ (f p).burstTime = p.burstTime)
    (c : Int) (l : List Process) : fcfsClock c (l.map f) = fcfsClock c l := by
  induction l generalizing c with
  | nil => rfl
  | cons p l ih =>
    simp only [List.map_cons, fcfsClock, (hf p).1, (hf p).2]
    exact ih _

theorem nth_map_of_lt (f : Process → Process) (l : List Process) (i : Nat)
    (hi : i < l.length) : nth (l.map f) i = f (nth l i) := by
  rw [nth_eq_getElem _ i (by rw [List.length_map]; exact hi), nth_eq_getElem l i hi,
    List.getElem_map]

/-- The working array of `rr_metrics` is the working array of `fcfs_metrics`
with `remainingTime` and `startTime` reset. -/
theorem rrInit_procs_eq (proc : List Process) :
    (rrInit proc).procs = (qsort compareByArrival proc).map resetProc :=
  qsort_map resetProc (fun _ _ => rfl) proc

/-- The FCFS timeline of the working array of `rr_metrics` has the start and
completion times of the array that `fcfs_metrics` leaves, on the same
processes. -/
theorem fcfsTimeline_rrInit (proc : List Process) (i : Nat) (hi : i < proc.length) :
    ident (nth (fcfsTimeline 0 (rrInit proc).procs) i)
      = ident (nth (fcfsIter proc proc.length).processes i) ∧
    (nth (fcfsTimeline 0 (rrInit proc).procs) i).startTime
      = (nth (fcfsIter proc proc.length).processes i).startTime ∧
    (nth (fcfsTimeline 0 (rrInit proc).procs) i).completionTime
      = (nth (fcfsIter proc proc.length).processes i).completionTime := by
  have hl : i < (qsort compareByArrival proc).length := by rw [qsort_length]; exact hi
  rw [(fcfsIter_final proc).1, fcfsTimeline_nth _ i hl,
    fcfsTimeline_nth _ i (by rw [rrInit_procs_length]; exact hi), rrInit_procs_eq,
    ← List.map_take, fcfsClock_map resetProc (fun _ => ⟨rfl, rfl⟩), nth_map_of_lt _ _ i hl]
  exact ⟨rfl, rfl, rfl⟩

/-- C20.  For valid input of at least one process and a quantum that is at least
every burst time of the input, `rr_metrics` returns a record, and the record is
the one `fcfs_metrics` returns.  No pass of the main loop preempts: a pass
either idles or completes the record at index `completed_count` of the sorted
array, so the processes are dispatched in `(arrivalTime, pid)` order; and on
exit every record has the start and completion time that `fcfs_metrics` gives
it. -/
theorem rr_large_quantum_is_fcfs (proc : List Process) (hv : Valid proc)
    (hn : 1 ≤ proc.length) (timeQuantum : Int)
    (hqb : ∀ p ∈ proc, p.burstTime ≤ timeQuantum) :
    (∃ fuel, rr_metrics fuel proc timeQuantum = some (fcfs_metrics proc)) ∧
    (∀ fuel m, rr_metrics fuel proc timeQuantum = some m → m = fcfs_metrics proc) ∧
    (∀ fuel final, rrLoop proc.length timeQuantum fuel (rrInit proc) = some final →
      ∀ i, i < proc.length →
        ident (nth final.procs i) = ident (nth (fcfsIter proc proc.length).processes i) ∧
        (nth final.procs i).startTime
          = (nth (fcfsIter proc proc.length).processes i).startTime ∧
        (nth final.procs i).completionTime
          = (nth (fcfsIter proc proc.length).processes i).completionTime) ∧
    (∀ k st, rrIter proc.length timeQuantum k (rrInit proc) = some st →
      st.completed_count < proc.length →
      rrBody proc.length timeQuantum st = (idleJump (admission proc.length st), false) ∨
      (headIdx proc.length (admission proc.length st) = st.completed_count ∧
        rrBody proc.length timeQuantum st
          = (finish proc.length (admission proc.length st), false))) := by
  have hq : 1 ≤ timeQuantum := by
    obtain ⟨p, hp⟩ := List.exists_mem_of_length_pos (show 0 < proc.length by omega)
    have := (hv.2 p hp).2
    have := hqb p hp
    omega
  have hst := rrInit_static proc hv
  have hinv := rrInit_inv proc hv hn
  have hfl := fcfsLike_init proc
  have hqb' : ∀ i, i < (rrInit proc).procs.length →
      (nth (rrInit proc).procs i).burstTime ≤ timeQuantum := by
    intro i hi
    rw [rrInit_procs_length] at hi
    obtain ⟨p, hp, e⟩ := rrInit_mem proc i hi
    rw [e]
    exact hqb p hp
  have hstep : ∀ st, RRInv (rrInit proc).procs st → FcfsLike (rrInit proc).procs st →
      st.completed_count < (rrInit proc).procs.length →
      FcfsLike (rrInit proc).procs (rrBody (rrInit proc).procs.length timeQuantum st).1 :=
    fun st inv fl hrun => (fcfsLike_step _ hst timeQuantum hqb' st inv fl hrun).1
  have hexit : ∀ fuel final, rrLoop proc.length timeQuantum fuel (rrInit proc) = some final →
      RRInv (rrInit proc).procs final ∧ FcfsLike (rrInit proc).procs final ∧
      final.completed_count = proc.length := by
    intro fuel final hl
    rw [← rrInit_procs_length proc] at hl
    obtain ⟨inv, hc⟩ := rrLoop_sound _ hst timeQuantum hq fuel _ final hinv hl
    exact ⟨inv, rrLoop_preserves _ hst timeQuantum hq _ hstep fuel _ final hinv hfl hl,
      by rw [hc, rrInit_procs_length]⟩
  have hres : ∀ fuel final, rrLoop proc.length timeQuantum fuel (rrInit proc) = some final →
      rr_metrics fuel proc timeQuantum = some (fcfs_metrics proc) := by
    intro fuel final hl
    obtain ⟨-, fl, hc⟩ := hexit fuel final hl
    have htake : (rrInit proc).procs.take final.completed_count = (rrInit proc).procs := by
      rw [hc, ← rrInit_procs_length proc, List.take_length]
    have e : fcfs_metrics proc = fcfs_metrics
        (proc.map fun p => { p with remainingTime := p.burstTime, startTime := -1 }) :=
      fcfs_erase _ _ (by rw [List.map_map]; rfl)
    obtain ⟨-, g2, g3, g4⟩ := fcfsIter_final
      (proc.map fun p => { p with remainingTime := p.burstTime, startTime := -1 })
    have t1 := fl.tt
    have t2 := fl.tw
    have t3 := fl.tr
    rw [htake] at t1 t2 t3
    have lhs : rr_metrics fuel proc timeQuantum
        = some { avgTurnaround := fdiv final.totalTurnaroundTime proc.length
                 avgWaiting := fdiv final.totalWaitingTime proc.length
                 avgResponse := fdiv final.totalResponseTime proc.length } := by
      unfold rr_metrics
      rw [hl]
      rfl
    rw [lhs, e, t1, t2, t3]
    unfold fcfs_metrics averages
    rw [g2, g3, g4, List.length_map]
    rfl
  refine ⟨?_, ?_, ?_, ?_⟩
  · obtain ⟨final, hl⟩ := rr_terminates proc hv hn timeQuantum hq
    exact ⟨_, hres _ final hl⟩
  · intro fuel m hm
    cases hl : rrLoop proc.length timeQuantum fuel (rrInit proc) with
    | none =>
      unfold rr_metrics at hm
      rw [hl] at hm
      cases hm
    | some final =>
      rw [hres fuel final hl] at hm
      exact (Option.some.inj hm).symm
  · intro fuel final hl i hi
    obtain ⟨inv, fl, hc⟩ := hexit fuel final hl
    obtain ⟨t1, t2⟩ := fl.times i (by omega)
    obtain ⟨u1, u2, u3⟩ := fcfsTimeline_rrInit proc i hi
    rw [t1, t2]
    refine ⟨?_, u2, u3⟩
    rw [inv.key i, ← u1, fcfsTimeline_nth _ i (by rw [rrInit_procs_length]; exact hi)]
    rfl
  · intro k st hreach hrun
    rw [← rrInit_procs_length proc] at hreach hrun ⊢
    have inv := rrIter_inv _ hst timeQuantum hq k _ st hinv hreach
    have fl := rrIter_preserves _ hst timeQuantum hq _ hstep k _ st hinv hfl hreach
    exact (fcfsLike_step _ hst timeQuantum hqb' st inv fl hrun).2

theorem rr_large_quantum_is_fcfs_witness :
    (Valid idleGap ∧ 1 ≤ idleGap.length ∧ ∀ p ∈ idleGap, p.burstTime ≤ 2) ∧
    (∃ fuel, rr_metrics fuel idleGap 2 = some (fcfs_metrics idleGap)) :=
  ⟨⟨by decide, by decide, by decide⟩,
    (rr_large_quantum_is_fcfs idleGap (by decide) (by decide) 2 (by decide)).1⟩

/-! ## SJF against the reference SJF -/

theorem eff_clamp (c c1 : Int) (h : c ≤ c1) (l : List Process) :
    l.map (eff c1) = (l.map (eff c)).map fun e => (max e.1 c1, e.2) := by
  rw [List.map_map]
  apply List.map_congr_left
  intro p _
  simp only [eff, Function.comp]
  congr 1
  omega

theorem sjfStep_clock (c : Int) (W : List Process) (c1 : Int) (x : Process) (W' : List Process)
    (h : SjfStep c W c1 x W') : c1 = max x.arrivalTime c := by
  have h1 := h.clock_min x (h.perm.mem_iff.2 (List.mem_cons_self _ _))
  have h2 := h.arrived
  have h3 := h.clock_ge
  omega

/-- Two SJF decisions from the same clock on sets of records that look the same
to a scheduler move the clock to the same time, run a record of the same burst
time, and leave sets that look the same again. -/
theorem sjfStep_agree (c : Int) (WA WB : List Process) (c1 d1 : Int) (x y : Process)
    (WA' WB' : List Process) (hA : SjfStep c WA c1 x WA') (hB : SjfStep c WB d1 y WB')
    (hE : (WA.map (eff c)).Perm (WB.map (eff c))) (hx : 0 ≤ x.burstTime) :
    c1 = d1 ∧ x.burstTime = y.burstTime ∧
    (WA'.map (eff (c1 + x.burstTime))).Perm (WB'.map (eff (c1 + x.burstTime))) := by
  have hxA : x ∈ WA := hA.perm.mem_iff.2 (List.mem_cons_self _ _)
  have hyB : y ∈ WB := hB.perm.mem_iff.2 (List.mem_cons_self _ _)
  have ec1 := sjfStep_clock _ _ _ _ _ hA
  have ed1 := sjfStep_clock _ _ _ _ _ hB
  obtain ⟨p, hp, ep⟩ : ∃ p ∈ WB, eff c p = eff c x :=
    List.mem_map.1 (hE.mem_iff.1 (List.mem_map_of_mem _ hxA))
  obtain ⟨r, hr, er⟩ : ∃ r ∈ WA, eff c r = eff c y :=
    List.mem_map.1 (hE.mem_iff.2 (List.mem_map_of_mem _ hyB))
  simp only [eff, Prod.mk.injEq] at ep er
  have k1 := hB.clock_min p hp
  have k2 := hA.clock_min r hr
  have hc : c1 = d1 := by omega
  have k3 := hB.shortest p hp (by omega)
  have k4 := hA.shortest r hr (by omega)
  have hb : x.burstTime = y.burstTime := by omega
  refine ⟨hc, hb, ?_⟩
  have e1 : (WA.map (eff c1)).Perm (WB.map (eff c1)) := by
    rw [eff_clamp c c1 hA.clock_ge WA, eff_clamp c c1 hA.clock_ge WB]
    exact hE.map _
  have e2 : (WA.map (eff c1)).Perm (eff c1 x :: WA'.map (eff c1)) := hA.perm.map _
  have e3 : (WB.map (eff c1)).Perm (eff c1 y :: WB'.map (eff c1)) := hB.perm.map _
  have e4 : eff c1 y = eff c1 x := by
    simp only [eff, Prod.mk.injEq]
    have := hA.arrived
    have := hB.arrived
    omega
  rw [e4] at e3
  have e5 : (WA'.map (eff c1)).Perm (WB'.map (eff c1)) :=
    ((e2.symm.trans e1).trans e3).cons_inv
  rw [eff_clamp c1 (c1 + x.burstTime) (by omega) WA', eff_clamp c1 (c1 + x.burstTime) (by omega) WB']
  exact e5.map _

theorem sumArrival_step (c : Int) (W : List Process) (c1 : Int) (x : Process)
    (W' : List Process) (h : SjfStep c W c1 x W') :
    sumArrival W = x.arrivalTime + sumArrival W' := by
  unfold sumArrival
  rw [(h.perm.map Process.arrivalTime).sum_eq]
  simp
/-- One iteration of the outer loop of `sjf_metrics` is an SJF decision on the
window of unscheduled records. -/
theorem sjf_code_step (proc : List Process) (hb : ∀ p ∈ proc, 0 ≤ p.burstTime) (k : Nat)
    (hk : k < proc.length) :
    ∃ x, SjfStep (sjfIter proc k).currentTime ((sjfIter proc k).processes.drop k)
        (bumpClock (sjfIter proc k) k) x ((sjfIter proc (k + 1)).processes.drop (k + 1)) ∧
      0 ≤ x.burstTime ∧
      (sjfIter proc (k + 1)).currentTime = bumpClock (sjfIter proc k) k + x.burstTime ∧
      (sjfIter proc (k + 1)).totalTurnaround = (sjfIter proc k).totalTurnaround
        + (bumpClock (sjfIter proc k) k + x.burstTime - x.arrivalTime) ∧
      (sjfIter proc (k + 1)).totalWaiting = (sjfIter proc k).totalWaiting
        + (bumpClock (sjfIter proc k) k + x.burstTime - x.arrivalTime - x.burstTime) ∧
      (sjfIter proc (k + 1)).totalResponse = (sjfIter proc k).totalResponse
        + (bumpClock (sjfIter proc k) k - x.arrivalTime) := by
  have inv := sjfIter_inv proc hb k (by omega)
  rw [sjfIter_succ]
  generalize sjfIter proc k = st at inv ⊢
  obtain ⟨s, hs, hbody⟩ := sjfBody_eq proc.length st k hk inv.len
  obtain ⟨s1, s2, s3, s4, -⟩ := (findShortest_spec _ _ k proc.length (by omega)).2 s hs
  have hk' : k < st.processes.length := by rw [inv.len]; exact hk
  have hs' : s < st.processes.length := by rw [inv.len]; exact s2
  have hnk : nth (swap st.processes k s) k = nth st.processes s := by
    rw [nth_swap _ _ _ _ hk' hs']
    by_cases h : k = s
    · rw [if_pos h, h]
    · rw [if_neg h, if_pos rfl]
  have hburst : 0 ≤ (nth st.processes s).burstTime := by
    obtain ⟨p0, hp0, e⟩ := ident_mem_of_perm _ _ inv.perm _ (nth_mem _ s hs')
    have := hb p0 hp0
    rw [ident_burst e] at this
    exact this
  have hc := bumpClock_ge st k
  refine ⟨nth st.processes s, ⟨?_, hc.1, ?_, s3, ?_⟩, hburst, ?_, ?_, ?_, ?_⟩
  · rw [hbody]
    simp only [dispatch]
    rw [List.drop_set_of_lt _ _ (by omega)]
    have hlen : k < (swap st.processes k s).length := by rw [swap_length]; exact hk'
    have e1 := drop_eq_nth_cons (swap st.processes k s) k hlen
    rw [hnk] at e1
    rw [← e1]
    have e2 : (List.take k st.processes ++ List.drop k (swap st.processes k s)).Perm
        (List.take k st.processes ++ List.drop k st.processes) := by
      rw [List.take_append_drop, ← take_swap st.processes k k s (le_refl _) s1,
        List.take_append_drop]
      exact swap_perm _ _ _ hk' hs'
    exact ((List.perm_append_left_iff _).1 e2).symm
  · intro p hp
    obtain ⟨j, hj1, hj2, rfl⟩ := (mem_drop_iff _ _ _).1 hp
    unfold bumpClock
    split_ifs with h
    · rcases Nat.eq_or_lt_of_le hj1 with e | hlt
      · rw [← e]; exact le_max_left _ _
      · have := inv.win k j (le_refl _) hlt (by rw [← inv.len]; exact hj2)
        have := le_max_left (nth st.processes j).arrivalTime st.currentTime
        omega
    · exact le_max_right _ _
  · intro p hp ha
    obtain ⟨j, hj1, hj2, rfl⟩ := (mem_drop_iff _ _ _).1 hp
    exact s4 j hj1 (by rw [← inv.len]; exact hj2) ha
  · rw [hbody]
    simp only [dispatch, hnk]
  · rw [hbody]
    simp only [dispatch, hnk]
  · rw [hbody]
    simp only [dispatch, hnk]
  · rw [hbody]
    simp only [dispatch, hnk]
/-- The record `refMin` returns is in the list and no record of the list is
before it in the order `(burstTime, arrivalTime, pid)`. -/
theorem refMin_spec (l : List Process) :
    (refMin l = none → l = []) ∧
    ∀ m, refMin l = some m → m ∈ l ∧ ∀ p ∈ l, ¬ refLess p m := by
  induction l with
  | nil => exact ⟨fun _ => rfl, fun m h => by simp [refMin] at h⟩
  | cons a l ih =>
    unfold refMin
    cases h : refMin l with
    | none =>
      have hl := ih.1 h
      subst hl
      refine ⟨fun h' => by simp at h', fun m hm => ?_⟩
      have e : a = m := by simpa using hm
      subst e
      refine ⟨List.mem_cons_self _ _, fun p hp => ?_⟩
      have : p = a := by simpa using hp
      subst this
      unfold refLess
      omega
    | some m0 =>
      obtain ⟨h1, h2⟩ := ih.2 m0 h
      refine ⟨fun h' => ?_, fun m hm => ?_⟩
      · simp only at h'
        split_ifs at h'
      · simp only at hm
        split_ifs at hm with hlt
        · have e : m0 = m := by simpa using hm
          subst e
          refine ⟨List.mem_cons_of_mem _ h1, fun p hp => ?_⟩
          rcases List.mem_cons.1 hp with rfl | hp
          · unfold refLess at hlt ⊢
            omega
          · exact h2 p hp
        · have e : a = m := by simpa using hm
          subst e
          refine ⟨List.mem_cons_self _ _, fun p hp => ?_⟩
          rcases List.mem_cons.1 hp with rfl | hp
          · unfold refLess
            omega
          · have := h2 p hp
            unfold refLess at hlt this ⊢
            omega

theorem refEarliest_spec (l : List Process) (hne : l ≠ []) :
    ∃ a, refEarliest l = some a ∧ (∃ p ∈ l, p.arrivalTime = a) ∧
      ∀ p ∈ l, a ≤ p.arrivalTime := by
  induction l with
  | nil => exact absurd rfl hne
  | cons b l ih =>
    unfold refEarliest
    by_cases hl : l = []
    · subst hl
      refine ⟨b.arrivalTime, rfl, ⟨b, List.mem_cons_self _ _, rfl⟩, fun p hp => ?_⟩
      have : p = b := by simpa using hp
      rw [this]
    · obtain ⟨a, h1, ⟨p0, hp0, e0⟩, h3⟩ := ih hl
      rw [h1]
      refine ⟨min b.arrivalTime a, rfl, ?_, fun p hp => ?_⟩
      · by_cases hba : b.arrivalTime ≤ a
        · exact ⟨b, List.mem_cons_self _ _, by omega⟩
        · exact ⟨p0, List.mem_cons_of_mem _ hp0, by omega⟩
      · rcases List.mem_cons.1 hp with rfl | hp
        · exact min_le_left _ _
        · have := h3 p hp
          omega

/-- The clock of the reference SJF at a decision: not before the current time,
not after the time from which any unscheduled process can run, and some
unscheduled process has arrived by it. -/
theorem refClock_spec (st : RefState) (hne : st.unscheduled ≠ []) :
    st.currentTime ≤ refClock st ∧
    (∀ p ∈ st.unscheduled, refClock st ≤ max p.arrivalTime st.currentTime) ∧
    ∃ p ∈ st.unscheduled, p.arrivalTime ≤ refClock st := by
  unfold refClock
  by_cases hany : st.unscheduled.any (fun p => p.arrivalTime ≤ st.currentTime) = true
  · rw [if_pos hany]
    obtain ⟨p, hp, ha⟩ := List.any_eq_true.1 hany
    exact ⟨le_refl _, fun p _ => le_max_right _ _, p, hp, by simpa using ha⟩
  · rw [if_neg hany]
    obtain ⟨a, h1, ⟨p0, hp0, e0⟩, h3⟩ := refEarliest_spec _ hne
    rw [h1]
    have hnone : ∀ p ∈ st.unscheduled, st.currentTime < p.arrivalTime := by
      intro p hp
      by_contra hle
      exact hany (List.any_eq_true.2 ⟨p, hp, by simpa using not_lt.1 hle⟩)
    have := hnone p0 hp0
    refine ⟨by simp only [Option.getD_some]; omega, fun p hp => ?_, p0, hp0, by
      simp only [Option.getD_some]; omega⟩
    have := h3 p hp
    have := le_max_left p.arrivalTime st.currentTime
    simp only [Option.getD_some]
    omega

/-- One decision of the reference SJF, while a process is unscheduled, is an SJF
decision; the process it picks is minimal by `(burstTime, arrivalTime, pid)`
among the arrived ones. -/
theorem ref_step (st : RefState) (hne : st.unscheduled ≠ []) :
    ∃ x, refChoice st = some x ∧
      SjfStep st.currentTime st.unscheduled (refClock st) x (refStep st).unscheduled ∧
      (∀ p ∈ st.unscheduled, p.arrivalTime ≤ refClock st → ¬ refLess p x) ∧
      (refStep st).currentTime = refClock st + x.burstTime ∧
      (refStep st).totalTurnaround = st.totalTurnaround
        + (refClock st + x.burstTime - x.arrivalTime) ∧
      (refStep st).totalWaiting = st.totalWaiting
        + (refClock st + x.burstTime - x.arrivalTime - x.burstTime) ∧
      (refStep st).totalResponse = st.totalResponse + (refClock st - x.arrivalTime) := by
  obtain ⟨c1, c2, p0, hp0, ha0⟩ := refClock_spec st hne
  have hmem : p0 ∈ st.unscheduled.filter fun p => p.arrivalTime ≤ refClock st :=
    List.mem_filter.2 ⟨hp0, by simpa using ha0⟩
  cases hch : refChoice st with
  | none =>
    have := (refMin_spec _).1 hch
    rw [this] at hmem
    exact absurd hmem (List.not_mem_nil _)
  | some x =>
    obtain ⟨m1, m2⟩ := (refMin_spec _).2 x hch
    obtain ⟨x1, x2⟩ := List.mem_filter.1 m1
    have x2' : x.arrivalTime ≤ refClock st := by simpa using x2
    have hmin : ∀ p ∈ st.unscheduled, p.arrivalTime ≤ refClock st → ¬ refLess p x :=
      fun p hp ha => m2 p (List.mem_filter.2 ⟨hp, by simpa using ha⟩)
    have hstep : refStep st =
        { unscheduled := st.unscheduled.erase x
          currentTime := refClock st + x.burstTime
          totalTurnaround := st.totalTurnaround + (refClock st + x.burstTime - x.arrivalTime)
          totalWaiting :=
            st.totalWaiting + (refClock st + x.burstTime - x.arrivalTime - x.burstTime)
          totalResponse := st.totalResponse + (refClock st - x.arrivalTime) } := by
      unfold refStep
      rw [hch]
    rw [hstep]
    refine ⟨x, rfl, ⟨List.perm_cons_erase x1, c1, c2, x2', fun p hp ha => ?_⟩, hmin,
      rfl, rfl, rfl, rfl⟩
    have := hmin p hp ha
    unfold refLess at this
    omega

/-- The states of `sjf_metrics` and of the reference SJF after `k` decisions
agree on what the rest of the run depends on: the clock, the unscheduled
records as a scheduler sees them, and each total less the arrival times still
to be subtracted. -/
theorem sjf_simulation (proc : List Process) (hb : ∀ p ∈ proc, 0 ≤ p.burstTime) (k : Nat)
    (hk : k ≤ proc.length) :
    (sjfIter proc k).currentTime = (refRun proc k).currentTime ∧
    (((sjfIter proc k).processes.drop k).map (eff (sjfIter proc k).currentTime)).Perm
      ((refRun proc k).unscheduled.map (eff (sjfIter proc k).currentTime)) ∧
    (sjfIter proc k).totalTurnaround + sumArrival (refRun proc k).unscheduled
      = (refRun proc k).totalTurnaround + sumArrival ((sjfIter proc k).processes.drop k) ∧
    (sjfIter proc k).totalWaiting + sumArrival (refRun proc k).unscheduled
      = (refRun proc k).totalWaiting + sumArrival ((sjfIter proc k).processes.drop k) ∧
    (sjfIter proc k).totalResponse + sumArrival (refRun proc k).unscheduled
      = (refRun proc k).totalResponse + sumArrival ((sjfIter proc k).processes.drop k) := by
  induction k with
  | zero =>
    have hp : (qsort compareByArrival proc).Perm proc := qsort_perm _ _
    have hs : sumArrival proc = sumArrival (qsort compareByArrival proc) := by
      unfold sumArrival
      exact ((hp.map Process.arrivalTime).sum_eq).symm
    refine ⟨rfl, ?_, ?_, ?_, ?_⟩
    · exact hp.map _
    all_goals
      show (0 : Int) + sumArrival proc = 0 + sumArrival (List.drop 0 (qsort compareByArrival proc))
      rw [List.drop_zero, hs]
  | succ k ih =>
    obtain ⟨i1, i2, i3, i4, i5⟩ := ih (by omega)
    obtain ⟨x, sA, hx, a1, a2, a3, a4⟩ := sjf_code_step proc hb k (by omega)
    have hne : (refRun proc k).unscheduled ≠ [] := by
      intro h
      rw [h] at i2
      have hl := i2.length_eq
      have inv := sjfIter_inv proc hb k (by omega)
      simp only [List.length_map, List.length_drop, List.length_nil, inv.len] at hl
      omega
    obtain ⟨y, -, sB, -, b1, b2, b3, b4⟩ := ref_step (refRun proc k) hne
    rw [← i1] at sB
    obtain ⟨g1, g2, g3⟩ := sjfStep_agree _ _ _ _ _ _ _ _ _ sA sB i2 hx
    have g4 := sumArrival_step _ _ _ _ _ sA
    have g5 := sumArrival_step _ _ _ _ _ sB
    have e : refRun proc (k + 1) = refStep (refRun proc k) := rfl
    rw [e, a1, a2, a3, a4, b1, b2, b3, b4, ← g1, ← g2]
    refine ⟨rfl, g3, ?_, ?_, ?_⟩ <;> omega
/-- C17.  For valid input, `sjf_metrics`, which exchanges the chosen record with
the front of the unscheduled window of its array, returns the `Metrics` of the
reference non-preemptive SJF, which keeps the set of unscheduled processes, at
each decision picks the arrived process that is minimal by
`(burstTime, arrivalTime, pid)`, and moves the clock to the earliest unscheduled
arrival when no process has arrived. -/
theorem sjf_metrics_eq_reference (proc : List Process) (hv : Valid proc) :
    sjf_metrics proc = sjf_reference proc := by
  have hb : ∀ p ∈ proc, 0 ≤ p.burstTime := fun p hp => le_of_lt (hv.2 p hp).2
  obtain ⟨-, h2, h3, h4, h5⟩ := sjf_simulation proc hb proc.length (le_refl _)
  have inv := sjfIter_inv proc hb proc.length (le_refl _)
  have hd : (sjfIter proc proc.length).processes.drop proc.length = [] := by
    exact List.drop_of_length_le (le_of_eq inv.len)
  rw [hd] at h2 h3 h4 h5
  have hu : (refRun proc proc.length).unscheduled = [] := by
    have := h2.length_eq
    simp only [List.map_nil, List.length_nil, List.length_map] at this
    exact List.length_eq_zero.1 this.symm
  rw [hu] at h3 h4 h5
  simp only [sumArrival, List.map_nil, List.sum_nil, add_zero] at h3 h4 h5
  unfold sjf_metrics averages sjf_reference
  rw [h3, h4, h5]

theorem sjf_metrics_eq_reference_witness :
    Valid tieAfterExchange ∧ sjf_metrics tieAfterExchange = sjf_reference tieAfterExchange :=
  ⟨by decide, sjf_metrics_eq_reference tieAfterExchange (by decide)⟩

/-! ## Single precision -/

theorem excessBits_small (a bound : Nat) (h : a < 2 ^ 24) : excessBits a bound = 0 := by
  cases bound with
  | zero => rfl
  | succ b => unfold excessBits; rw [if_pos h]

/-- An integer of magnitude at most `2 ^ 24` is a `float`. -/
theorem f32_small (z : Int) (h : z.natAbs ≤ 2 ^ 24) : f32 z = z := by
  rcases Nat.lt_or_eq_of_le h with hlt | heq
  · unfold f32
    simp only [excessBits_small _ _ hlt, pow_zero, Nat.div_one, Nat.mod_one, Nat.mul_zero,
      Nat.zero_lt_one, if_true, Nat.mul_one]
    exact Int.sign_mul_natAbs z
  · rcases Int.natAbs_eq z with e | e
    · rw [e, heq]; decide
    · rw [e, heq]; decide

theorem fadd_exact (t x : Int) (ht : 0 ≤ t) (hx : 0 ≤ x) (h : t + x ≤ 2 ^ 24) :
    fadd t x = t + x := by
  unfold fadd
  rw [f32_small x (by omega), f32_small (t + x) (by omega)]

theorem fsum_append (xs : List Int) (x : Int) : fsum (xs ++ [x]) = fadd (fsum xs) x := by
  simp [fsum, List.foldl_append]

/-- While the exact sum of values that are not negative is at most `2 ^ 24`, the
`float` sum is the exact sum. -/
theorem fsum_exact (xs : List Int) (h0 : ∀ x ∈ xs, 0 ≤ x) (h : xs.sum ≤ 2 ^ 24) :
    fsum xs = xs.sum := by
  induction xs using List.reverseRecOn with
  | nil => rfl
  | append_singleton xs x ih =>
    have hx : 0 ≤ x := h0 x (by simp)
    have hs : 0 ≤ xs.sum := List.sum_nonneg fun y hy => h0 y (by simp [hy])
    rw [List.sum_append, List.sum_singleton] at h
    rw [fsum_append, ih (fun y hy => h0 y (by simp [hy])) (by omega), List.sum_append,
      List.sum_singleton, fadd_exact _ _ hs hx h]

/-- A rational that is an integer of magnitude at most `2 ^ 24` is a `float`. -/
theorem f32q_small (z : Int) (h0 : 0 ≤ z) (h : z ≤ 2 ^ 24) : f32q (z : ℚ) = z := by
  rcases eq_or_lt_of_le h0 with hz | hz
  · rw [← hz]
    simp [f32q]
  have hx : (0 : ℚ) < z := by exact_mod_cast hz
  have h1 : (1 : ℚ) ≤ z := by exact_mod_cast hz
  have hle : (z : ℚ) ≤ 2 ^ 24 := by exact_mod_cast h
  have hlow : ((2 : ℕ) : ℚ) ^ Int.log 2 (z : ℚ) ≤ z := Int.zpow_log_le_self (by norm_num) hx
  have he0 : 0 ≤ Int.log 2 (z : ℚ) := by
    rw [← Int.zpow_le_iff_le_log (by norm_num) hx]
    simpa using h1
  have he1 : Int.log 2 (z : ℚ) < 25 := by
    rw [← Int.lt_zpow_iff_log_lt (by norm_num) hx]
    have : ((2 : ℕ) : ℚ) ^ (25 : ℤ) = 2 ^ 25 := by norm_num
    rw [this]
    linarith
  obtain ⟨N, hN⟩ : ∃ N : ℤ, (z : ℚ) * 2 ^ (23 - Int.log 2 (z : ℚ)) = N := by
    rcases le_or_lt (Int.log 2 (z : ℚ)) 23 with hc | hc
    · obtain ⟨k, hk⟩ := Int.eq_ofNat_of_zero_le (show 0 ≤ 23 - Int.log 2 (z : ℚ) by omega)
      refine ⟨z * 2 ^ k, ?_⟩
      rw [hk]
      push_cast
      rw [zpow_natCast]
    · have e24 : Int.log 2 (z : ℚ) = 24 := by omega
      rw [e24] at hlow ⊢
      have : (2 : ℚ) ^ 24 ≤ z := by
        have e : ((2 : ℕ) : ℚ) ^ (24 : ℤ) = 2 ^ 24 := by norm_num
        rw [e] at hlow
        exact hlow
      have hzq : (z : ℚ) = 2 ^ 24 := le_antisymm hle this
      refine ⟨2 ^ 23, ?_⟩
      rw [hzq]
      norm_num
  have hback : (N : ℚ) * 2 ^ (Int.log 2 (z : ℚ) - 23) = z := by
    rw [← hN, mul_assoc, ← zpow_add₀ (by norm_num : (2 : ℚ) ≠ 0)]
    simp
  unfold f32q
  rw [if_neg (ne_of_gt hx)]
  simp only [abs_of_pos hx, hN, Int.floor_intCast, sub_self, mul_zero, zero_lt_one, if_true]
  rw [if_neg (not_lt.2 (le_of_lt hx)), one_mul]
  exact hback

example : f32 16777217 = 16777216 := by decide
example : f32 33554435 = 33554436 := by decide
example : fadd 16777216 16777217 = 33554432 := by decide

theorem fdiv_f32_one (t : Int) (h0 : 0 ≤ t) (h : t ≤ 2 ^ 24) :
    fdiv_f32 t 1 = some (t : ℚ) := by
  have e : f32 ((1 : Nat) : Int) = 1 := by decide
  unfold fdiv_f32
  rw [if_neg (by omega), e]
  simp only [Int.cast_one, div_one]
  rw [f32q_small t h0 h]

/-- With a count that is itself a `float`, the single-precision quotient is the
exact quotient rounded once. -/
theorem fdiv_f32_eq (t : Int) (n : Nat) (h1 : 1 ≤ n) (h2 : n ≤ 2 ^ 24) :
    fdiv_f32 t n = some (f32q ((t : ℚ) / (n : ℚ))) := by
  unfold fdiv_f32
  rw [if_neg (by omega), f32_small (n : Int) (by simpa using h2)]
  simp

/-- While the totals stay in the range in which a `float` holds every integer,
the dispatch in single precision is the dispatch in exact arithmetic. -/
theorem dispatch_f32_eq (st : LoopState) (c : Int) (i : Nat) (h0 : TotalsSmall st)
    (hle : TotalsLe st (dispatch st c i)) (hs : TotalsSmall (dispatch st c i)) :
    dispatch_f32 st c i = dispatch st c i := by
  obtain ⟨⟨a1, -⟩, ⟨a2, -⟩, ⟨a3, -⟩⟩ := h0
  obtain ⟨l1, l2, l3⟩ := hle
  obtain ⟨⟨-, b1⟩, ⟨-, b2⟩, ⟨-, b3⟩⟩ := hs
  simp only [dispatch] at l1 l2 l3 b1 b2 b3
  simp only [dispatch_f32, dispatch]
  rw [fadd_exact _ _ a1 (by omega) b1, fadd_exact _ _ a2 (by omega) b2,
    fadd_exact _ _ a3 (by omega) b3]

theorem fcfsIter_f32_succ (proc : List Process) (k : Nat) :
    fcfsIter_f32 proc (k + 1) = fcfsBody_f32 (fcfsIter_f32 proc k) k := by
  simp [fcfsIter_f32, List.range_succ, List.foldl_append]

theorem sjfIter_f32_succ (proc : List Process) (k : Nat) :
    sjfIter_f32 proc (k + 1) = sjfBody_f32 proc.length (sjfIter_f32 proc k) k := by
  simp [sjfIter_f32, List.range_succ, List.foldl_append]

theorem totalsLe_trans {a b c : LoopState} (h1 : TotalsLe a b) (h2 : TotalsLe b c) :
    TotalsLe a c :=
  ⟨le_trans h1.1 h2.1, le_trans h1.2.1 h2.2.1, le_trans h1.2.2 h2.2.2⟩

/-- Totals that grow with every iteration grow from any iteration to any later
one. -/
theorem totalsLe_chain (f : Nat → LoopState) (n : Nat)
    (h : ∀ k, k < n → TotalsLe (f k) (f (k + 1))) (j : Nat) (hj : j ≤ n) :
    TotalsLe (f 0) (f j) ∧ TotalsLe (f j) (f n) := by
  constructor
  · induction j with
    | zero => exact ⟨le_refl _, le_refl _, le_refl _⟩
    | succ j ih => exact totalsLe_trans (ih (by omega)) (h j (by omega))
  · obtain ⟨d, rfl⟩ : ∃ d, n = j + d := ⟨n - j, by omega⟩
    clear hj
    induction d with
    | zero => exact ⟨le_refl _, le_refl _, le_refl _⟩
    | succ d ih =>
      exact totalsLe_trans (ih fun k hk => h k (by omega)) (h (j + d) (by omega))

theorem totalsSmall_of_le {a b c : LoopState} (h0 : a.totalTurnaround = 0 ∧
    a.totalWaiting = 0 ∧ a.totalResponse = 0) (h1 : TotalsLe a b) (h2 : TotalsLe b c)
    (hc : TotalsSmall c) : TotalsSmall b := by
  obtain ⟨z1, z2, z3⟩ := h0
  obtain ⟨l1, l2, l3⟩ := h1
  obtain ⟨m1, m2, m3⟩ := h2
  obtain ⟨⟨-, c1⟩, ⟨-, c2⟩, ⟨-, c3⟩⟩ := hc
  exact ⟨⟨by omega, by omega⟩, ⟨by omega, by omega⟩, ⟨by omega, by omega⟩⟩

/-- For burst times that are not negative and final totals of at most `2 ^ 24`,
`fcfs_metrics` in single precision passes through the states of `fcfs_metrics` in
exact arithmetic. -/
theorem fcfsIter_f32_eq (proc : List Process) (hb : ∀ p ∈ proc, 0 ≤ p.burstTime)
    (hs : TotalsSmall (fcfsIter proc proc.length)) (k : Nat) (hk : k ≤ proc.length) :
    fcfsIter_f32 proc k = fcfsIter proc k := by
  have hsmall : ∀ j, j ≤ proc.length → TotalsSmall (fcfsIter proc j) := by
    intro j hj
    obtain ⟨c1, c2⟩ := totalsLe_chain (fcfsIter proc) proc.length (fcfs_totals_step proc hb) j hj
    exact totalsSmall_of_le ⟨rfl, rfl, rfl⟩ c1 c2 hs
  induction k with
  | zero => rfl
  | succ k ih =>
    rw [fcfsIter_f32_succ, ih (by omega)]
    have h1 := fcfs_totals_step proc hb k (by omega)
    have h2 := hsmall (k + 1) hk
    rw [fcfsIter_succ] at h1 h2 ⊢
    exact dispatch_f32_eq _ _ _ (hsmall k (by omega)) h1 h2

/-- For burst times that are not negative and final totals of at most `2 ^ 24`,
`sjf_metrics` in single precision passes through the states of `sjf_metrics` in
exact arithmetic. -/
theorem sjfIter_f32_eq (proc : List Process) (hb : ∀ p ∈ proc, 0 ≤ p.burstTime)
    (hs : TotalsSmall (sjfIter proc proc.length)) (k : Nat) (hk : k ≤ proc.length) :
    sjfIter_f32 proc k = sjfIter proc k := by
  have hsmall : ∀ j, j ≤ proc.length → TotalsSmall (sjfIter proc j) := by
    intro j hj
    obtain ⟨c1, c2⟩ := totalsLe_chain (sjfIter proc) proc.length (sjf_totals_step proc hb) j hj
    exact totalsSmall_of_le ⟨rfl, rfl, rfl⟩ c1 c2 hs
  induction k with
  | zero => rfl
  | succ k ih =>
    rw [sjfIter_f32_succ, ih (by omega)]
    have h1 := sjf_totals_step proc hb k (by omega)
    have h2 := hsmall (k + 1) hk
    have h0 := hsmall k (by omega)
    rw [sjfIter_succ] at h1 h2 ⊢
    generalize sjfIter proc k = st at h0 h1 h2
    cases hfs : findShortest st.processes (bumpClock st k) k proc.length with
    | none => simp only [sjfBody_f32, sjfBody, hfs]
    | some s =>
      simp only [sjfBody, hfs] at h1 h2
      simp only [sjfBody_f32, sjfBody, hfs]
      exact dispatch_f32_eq _ _ _ h0 h1 h2

theorem rrBody_f32_cases (n : Nat) (q : Int) (st : RRState) :
    rrBody_f32 n q st =
      if (admission n st).q_count = 0 then
        if (admission n st).completed_count < n then
          if (admission n st).next_arrival_check_idx < n then (idleJump (admission n st), false)
          else (admission n st, true)
        else (admission n st, false)
      else if (current n (admission n st)).remainingTime ≤ q then
        (finish_f32 n (admission n st), false)
      else (preempt n q (admission n st), false) := by
  unfold rrBody_f32
  simp only [dequeue, headIdx, current, idleJump, finish_f32, preempt, charge]

theorem admissionLoop_totals (n b : Nat) (st : RRState) :
    (admissionLoop n b st).totalTurnaroundTime = st.totalTurnaroundTime ∧
    (admissionLoop n b st).totalWaitingTime = st.totalWaitingTime ∧
    (admissionLoop n b st).totalResponseTime = st.totalResponseTime := by
  induction b generalizing st with
  | zero => exact ⟨rfl, rfl, rfl⟩
  | succ b ih =>
    unfold admissionLoop
    split_ifs
    · exact ih _
    · exact ⟨rfl, rfl, rfl⟩

/-- While the totals stay in the range in which a `float` holds every integer,
a pass of the main loop in single precision is the pass in exact arithmetic. -/
theorem rrBody_f32_eq (n : Nat) (q : Int) (st : RRState) (h0 : RRTotalsSmall st)
    (hle : RRTotalsLe st (rrBody n q st).1) (hs : RRTotalsSmall (rrBody n q st).1) :
    rrBody_f32 n q st = rrBody n q st := by
  obtain ⟨t1, t2, t3⟩ := admissionLoop_totals n (n - st.next_arrival_check_idx) st
  rw [rrBody_f32_cases, rrBody_cases]
  rw [rrBody_cases] at hle hs
  split_ifs at hle hs ⊢ with c1 c2 c3 c4
  · rfl
  · rfl
  · rfl
  · obtain ⟨⟨a1, -⟩, ⟨a2, -⟩, ⟨a3, -⟩⟩ := h0
    obtain ⟨l1, l2, l3⟩ := hle
    obtain ⟨⟨-, b1⟩, ⟨-, b2⟩, ⟨-, b3⟩⟩ := hs
    simp only [finish] at l1 l2 l3 b1 b2 b3
    have u1 : (admission n st).totalTurnaroundTime = st.totalTurnaroundTime := t1
    have u2 : (admission n st).totalWaitingTime = st.totalWaitingTime := t2
    have u3 : (admission n st).totalResponseTime = st.totalResponseTime := t3
    simp only [finish_f32, finish]
    rw [fadd_exact _ _ (by omega) (by omega) b1, fadd_exact _ _ (by omega) (by omega) b2,
      fadd_exact _ _ (by omega) (by omega) b3]
  · rfl

/-- The totals of `rr_metrics` on exit are at least the totals in any state of
the run. -/
theorem rrLoop_totals_le (procs0 : List Process) (hs : RRStatic procs0)
    (hnn : ∀ i, 0 ≤ (nth procs0 i).arrivalTime) (q : Int) (hq : 1 ≤ q) (fuel : Nat)
    (st final : RRState) (inv : RRInv procs0 st) (ht : RRTimes st.procs st.currentTime)
    (h : rrLoop procs0.length q fuel st = some final) : RRTotalsLe st final := by
  induction fuel generalizing st with
  | zero =>
    unfold rrLoop at h
    split_ifs at h with hc
    have e : st = final := by simpa using h
    subst e
    exact ⟨le_refl _, le_refl _, le_refl _⟩
  | succ fuel ih =>
    unfold rrLoop at h
    split_ifs at h with hc
    · obtain ⟨b1, b2, -⟩ := rrBody_inv procs0 hs q hq st inv hc
      have b3 := rrTimes_step procs0 hs hnn q hq st inv ht hc
      have b4 := rr_totals_step procs0 hs hnn q st inv ht hc
      generalize rrBody procs0.length q st = r at h b1 b2 b3 b4
      obtain ⟨st', flag⟩ := r
      simp only at b1
      subst b1
      have := ih st' b2 b3 h
      exact ⟨le_trans b4.1 this.1, le_trans b4.2.1 this.2.1, le_trans b4.2.2 this.2.2⟩
    · have e : st = final := by simpa using h
      subst e
      exact ⟨le_refl _, le_refl _, le_refl _⟩

/-- When the totals on exit are at most `2 ^ 24`, the main loop of `rr_metrics` in
single precision exits with the state of the main loop in exact arithmetic. -/
theorem rrLoop_f32_eq (procs0 : List Process) (hs : RRStatic procs0)
    (hnn : ∀ i, 0 ≤ (nth procs0 i).arrivalTime) (q : Int) (hq : 1 ≤ q) (fuel : Nat)
    (st final : RRState) (inv : RRInv procs0 st) (ht : RRTimes st.procs st.currentTime)
    (h0 : 0 ≤ st.totalTurnaroundTime ∧ 0 ≤ st.totalWaitingTime ∧ 0 ≤ st.totalResponseTime)
    (h : rrLoop procs0.length q fuel st = some final) (hf : RRTotalsSmall final) :
    rrLoop_f32 procs0.length q fuel st = some final := by
  induction fuel generalizing st with
  | zero =>
    unfold rrLoop at h
    unfold rrLoop_f32
    exact h
  | succ fuel ih =>
    unfold rrLoop at h
    unfold rrLoop_f32
    split_ifs at h ⊢ with hc
    · obtain ⟨b1, b2, -⟩ := rrBody_inv procs0 hs q hq st inv hc
      have b3 := rrTimes_step procs0 hs hnn q hq st inv ht hc
      have b4 := rr_totals_step procs0 hs hnn q st inv ht hc
      have hle := rrLoop_totals_le procs0 hs hnn q hq (fuel + 1) st final inv ht (by
        unfold rrLoop; rw [if_pos hc]; exact h)
      have hbody : rrBody_f32 procs0.length q st = rrBody procs0.length q st := by
        generalize hr : rrBody procs0.length q st = r at h b1 b2 b3 b4
        obtain ⟨st', flag⟩ := r
        simp only at b1
        subst b1
        have hle' := rrLoop_totals_le procs0 hs hnn q hq fuel st' final b2 b3 h
        obtain ⟨z1, z2, z3⟩ := h0
        obtain ⟨m1, m2, m3⟩ := b4
        obtain ⟨n1, n2, n3⟩ := hle'
        obtain ⟨k1, k2, k3⟩ := hle
        obtain ⟨⟨-, f1⟩, ⟨-, f2⟩, ⟨-, f3⟩⟩ := hf
        simp only at m1 m2 m3
        rw [← hr]
        exact rrBody_f32_eq _ _ _
          ⟨⟨z1, by omega⟩, ⟨z2, by omega⟩, ⟨z3, by omega⟩⟩
          (by rw [hr]; exact ⟨m1, m2, m3⟩)
          (by
            rw [hr]
            show RRTotalsSmall st'
            exact ⟨⟨by omega, by omega⟩, ⟨by omega, by omega⟩, ⟨by omega, by omega⟩⟩)
      rw [hbody]
      generalize rrBody procs0.length q st = r at h b1 b2 b3 b4
      obtain ⟨st', flag⟩ := r
      simp only at b1
      subst b1
      simp only at h b4 ⊢
      exact ih st' b2 b3 ⟨le_trans h0.1 b4.1, le_trans h0.2.1 b4.2.1, le_trans h0.2.2 b4.2.2⟩ h
    · exact h
theorem fcfsTimeline_map_take_succ (f : Process → Int) (l : List Process) (j : Nat)
    (hj : j < l.length) :
    (fcfsTimeline 0 (l.take (j + 1))).map f
      = (fcfsTimeline 0 (l.take j)).map f
        ++ [f { nth l j with
                startTime := max (nth l j).arrivalTime (fcfsClock 0 (l.take j))
                completionTime :=
                  max (nth l j).arrivalTime (fcfsClock 0 (l.take j)) + (nth l j).burstTime }] := by
  rw [take_succ_nth l j hj, fcfsTimeline_append]
  simp [fcfsTimeline]

/-- Loop invariant of `fcfs_metrics` in single precision: the working array and
the clock are those of the run in exact arithmetic, and each total is the `float`
sum of the figures of the first `k` records of the FCFS timeline, accumulated in
the order of the timeline. -/
theorem fcfsIter_f32_spec (proc : List Process) (k : Nat) (hk : k ≤ proc.length) :
    (fcfsIter_f32 proc k).processes = (fcfsIter proc k).processes ∧
    (fcfsIter_f32 proc k).currentTime = (fcfsIter proc k).currentTime ∧
    (fcfsIter_f32 proc k).totalTurnaround
      = fsum ((fcfsTimeline 0 ((qsort compareByArrival proc).take k)).map turnaround) ∧
    (fcfsIter_f32 proc k).totalWaiting
      = fsum ((fcfsTimeline 0 ((qsort compareByArrival proc).take k)).map waiting) ∧
    (fcfsIter_f32 proc k).totalResponse
      = fsum ((fcfsTimeline 0 ((qsort compareByArrival proc).take k)).map response) := by
  induction k with
  | zero => exact ⟨rfl, rfl, rfl, rfl, rfl⟩
  | succ k ih =>
    obtain ⟨h1, h2, h3, h4, h5⟩ := ih (by omega)
    have hlen : k < (qsort compareByArrival proc).length := by rw [qsort_length]; omega
    have hnth := fcfsIter_nth proc k (by omega)
    have hclock := (fcfsIter_spec proc k (by omega)).2.1
    have hbump : bumpClock (fcfsIter_f32 proc k) k
        = max (nth (qsort compareByArrival proc) k).arrivalTime
            (fcfsClock 0 ((qsort compareByArrival proc).take k)) := by
      unfold bumpClock
      rw [h1, h2, hnth, hclock]
      split_ifs <;> omega
    have hbump' : bumpClock (fcfsIter proc k) k = bumpClock (fcfsIter_f32 proc k) k := by
      unfold bumpClock
      rw [h1, h2]
    rw [fcfsIter_f32_succ, fcfsIter_succ, fcfsTimeline_map_take_succ _ _ k hlen,
      fcfsTimeline_map_take_succ _ _ k hlen, fcfsTimeline_map_take_succ _ _ k hlen,
      fsum_append, fsum_append, fsum_append, ← h3, ← h4, ← h5]
    unfold fcfsBody_f32 fcfsBody
    rw [hbump']
    simp only [dispatch_f32, dispatch, h1, h2, hnth, hbump, turnaround, waiting, response]
    exact ⟨trivial, trivial, trivial, trivial, trivial⟩

theorem fcfsTimeline_nonneg (c : Int) (l : List Process) (hb : ∀ p ∈ l, 0 ≤ p.burstTime) :
    ∀ p ∈ fcfsTimeline c l, 0 ≤ turnaround p ∧ 0 ≤ waiting p ∧ 0 ≤ response p ∧
      waiting p ≤ turnaround p ∧ response p = waiting p := by
  intro p hp
  have h1 := fcfsTimeline_late c l p hp
  have h2 := fcfsTimeline_run c l p hp
  obtain ⟨p0, h0, e⟩ := fcfsTimeline_mem_burst c l p hp
  have := hb p0 h0
  unfold turnaround waiting response
  refine ⟨?_, ?_, ?_, ?_, ?_⟩ <;> omega

theorem sum_map_le_sum_map (f g : Process → Int) (l : List Process)
    (h : ∀ p ∈ l, f p ≤ g p) : (l.map f).sum ≤ (l.map g).sum := by
  induction l with
  | nil => simp
  | cons a l ih =>
    simp only [List.map_cons, List.sum_cons]
    have := h a (List.mem_cons_self _ _)
    have := ih fun p hp => h p (List.mem_cons_of_mem _ hp)
    omega

theorem length_le_sum_map (f : Process → Int) (l : List Process) (h : ∀ p ∈ l, 1 ≤ f p) :
    (l.length : Int) ≤ (l.map f).sum := by
  induction l with
  | nil => simp
  | cons a l ih =>
    simp only [List.map_cons, List.sum_cons, List.length_cons]
    have := h a (List.mem_cons_self _ _)
    have := ih fun p hp => h p (List.mem_cons_of_mem _ hp)
    push_cast
    omega

theorem rrLoop_f32_mono (n : Nat) (q : Int) (fuel : Nat) (st final : RRState)
    (h : rrLoop_f32 n q fuel st = some final) (fuel' : Nat) (hf : fuel ≤ fuel') :
    rrLoop_f32 n q fuel' st = some final := by
  induction fuel generalizing st fuel' with
  | zero =>
    unfold rrLoop_f32 at h
    split_ifs at h with hc
    cases fuel' <;> simpa [rrLoop_f32, hc] using h
  | succ fuel ih =>
    obtain ⟨f, rfl⟩ : ∃ f, fuel' = f + 1 := ⟨fuel' - 1, by omega⟩
    unfold rrLoop_f32 at h ⊢
    split_ifs at h ⊢ with hc
    · generalize rrBody_f32 n q st = r at h ⊢
      obtain ⟨st', flag⟩ := r
      cases flag with
      | true => exact h
      | false => exact ih st' h f (by omega)
    · exact h

/-- For valid input, a quantum of at least `1` and totals on exit of at most
`2 ^ 24`, the main loop of `rr_metrics` in single precision, run from the initial
state, exits with the state of the main loop in exact arithmetic. -/
theorem rr_f32_eq (proc : List Process) (hv : Valid proc) (hn : 0 < proc.length) (q : Int)
    (hq : 1 ≤ q) (fuel : Nat) (final : RRState)
    (h : rrLoop proc.length q fuel (rrInit proc) = some final) (hf : RRTotalsSmall final) :
    rrLoop_f32 proc.length q fuel (rrInit proc) = some final := by
  rw [← rrInit_procs_length proc] at h ⊢
  exact rrLoop_f32_eq _ (rrInit_static proc hv) (rrInit_nonneg proc hv) q hq fuel _ final
    (rrInit_inv proc hv hn) (rrInit_times proc hv) ⟨le_refl _, le_refl _, le_refl _⟩ h hf

/-! ## FCFS: what is returned -/

theorem fdiv_f32_mean (xs : List Int) (h0 : ∀ x ∈ xs, 0 ≤ x) (h : xs.sum ≤ 2 ^ 24)
    (hl : xs.length ≤ 2 ^ 24) :
    fdiv_f32 (fsum xs) xs.length = (mean xs).map f32q := by
  rw [fsum_exact xs h0 h]
  unfold mean
  by_cases hz : xs.length = 0
  · rw [if_pos hz, hz]
    rfl
  · rw [if_neg hz, fdiv_f32_eq _ _ (by omega) hl]
    rfl

/-- C6, as amended.  `fcfs_metrics` runs the records in arrival order (arrival
time ascending, pid ascending among equal arrivals, whatever the burst times):
its working array on exit is the FCFS timeline of the arrival-sorted input, in
which each record starts at the later of its arrival and the completion of its
predecessor (`0` for the first) and completes one burst later.  The record
returned holds, for turnaround, waiting and response time, the sum over that
timeline accumulated in single precision in the order of the timeline, divided
by `n` in single precision.  When the burst times are positive and the
turnaround times sum to at most `2 ^ 24`, the three sums are exact and each
field is the arithmetic mean rounded once to single precision. -/
theorem fcfs_runs_in_arrival_order (proc : List Process)
    (hpid : (proc.map Process.pid).Nodup) :
    (qsort compareByArrival proc).Perm proc ∧
    (qsort compareByArrival proc).Pairwise ArrivesBefore ∧
    (fcfsIter proc proc.length).processes = fcfsTimeline 0 (qsort compareByArrival proc) ∧
    (fcfsIter_f32 proc proc.length).processes
      = fcfsTimeline 0 (qsort compareByArrival proc) ∧
    fcfs_metrics_f32 proc =
      { avgTurnaround :=
          fdiv_f32 (fsum ((fcfsTimeline 0 (qsort compareByArrival proc)).map turnaround))
            proc.length
        avgWaiting :=
          fdiv_f32 (fsum ((fcfsTimeline 0 (qsort compareByArrival proc)).map waiting))
            proc.length
        avgResponse :=
          fdiv_f32 (fsum ((fcfsTimeline 0 (qsort compareByArrival proc)).map response))
            proc.length } ∧
    ((∀ p ∈ proc, 0 < p.burstTime) →
      ((fcfsTimeline 0 (qsort compareByArrival proc)).map turnaround).sum ≤ 2 ^ 24 →
      fcfs_metrics_f32 proc =
        { avgTurnaround :=
            (mean ((fcfsTimeline 0 (qsort compareByArrival proc)).map turnaround)).map f32q
          avgWaiting :=
            (mean ((fcfsTimeline 0 (qsort compareByArrival proc)).map waiting)).map f32q
          avgResponse :=
            (mean ((fcfsTimeline 0 (qsort compareByArrival proc)).map response)).map f32q }) := by
  obtain ⟨h1, -, -, -⟩ := fcfsIter_final proc
  obtain ⟨g1, -, g3, g4, g5⟩ := fcfsIter_f32_spec proc proc.length (le_refl _)
  have hl := qsort_length compareByArrival proc
  have htake : (qsort compareByArrival proc).take proc.length = qsort compareByArrival proc := by
    rw [← hl, List.take_length]
  rw [htake] at g3 g4 g5
  have hm : fcfs_metrics_f32 proc =
      { avgTurnaround :=
          fdiv_f32 (fsum ((fcfsTimeline 0 (qsort compareByArrival proc)).map turnaround))
            proc.length
        avgWaiting :=
          fdiv_f32 (fsum ((fcfsTimeline 0 (qsort compareByArrival proc)).map waiting))
            proc.length
        avgResponse :=
          fdiv_f32 (fsum ((fcfsTimeline 0 (qsort compareByArrival proc)).map response))
            proc.length } := by
    unfold fcfs_metrics_f32 averages_f32
    rw [g3, g4, g5]
  refine ⟨qsort_perm _ _, qsort_sorted proc hpid, h1, by rw [g1, h1], hm, fun hb hsum => ?_⟩
  have hb' : ∀ p ∈ qsort compareByArrival proc, 0 ≤ p.burstTime := fun p hp =>
    le_of_lt (hb p ((qsort_perm compareByArrival proc).mem_iff.1 hp))
  have hnn := fcfsTimeline_nonneg 0 (qsort compareByArrival proc) hb'
  have hlen : ∀ f : Process → Int,
      ((fcfsTimeline 0 (qsort compareByArrival proc)).map f).length = proc.length := by
    intro f
    rw [List.length_map, fcfsTimeline_length, qsort_length]
  have hone : ∀ p ∈ fcfsTimeline 0 (qsort compareByArrival proc), 1 ≤ turnaround p := by
    intro p hp
    have h1 := fcfsTimeline_late _ _ p hp
    have h2 := fcfsTimeline_run _ _ p hp
    obtain ⟨p0, h0, e⟩ := fcfsTimeline_mem_burst _ _ p hp
    have := hb p0 ((qsort_perm compareByArrival proc).mem_iff.1 h0)
    unfold turnaround
    omega
  have hn24 : proc.length ≤ 2 ^ 24 := by
    have := length_le_sum_map turnaround _ hone
    rw [fcfsTimeline_length, qsort_length] at this
    have : (proc.length : Int) ≤ 2 ^ 24 := le_trans this hsum
    exact_mod_cast this
  have hw : ((fcfsTimeline 0 (qsort compareByArrival proc)).map waiting).sum ≤ 2 ^ 24 :=
    le_trans (sum_map_le_sum_map waiting turnaround _ fun p hp => (hnn p hp).2.2.2.1) hsum
  have hr : ((fcfsTimeline 0 (qsort compareByArrival proc)).map response).sum ≤ 2 ^ 24 := by
    rw [fcfsTimeline_response]; exact hw
  have e1 := fdiv_f32_mean ((fcfsTimeline 0 (qsort compareByArrival proc)).map turnaround)
    (by intro x hx; obtain ⟨p, hp, rfl⟩ := List.mem_map.1 hx; exact (hnn p hp).1) hsum
    (by rw [hlen]; exact hn24)
  have e2 := fdiv_f32_mean ((fcfsTimeline 0 (qsort compareByArrival proc)).map waiting)
    (by intro x hx; obtain ⟨p, hp, rfl⟩ := List.mem_map.1 hx; exact (hnn p hp).2.1) hw
    (by rw [hlen]; exact hn24)
  have e3 := fdiv_f32_mean ((fcfsTimeline 0 (qsort compareByArrival proc)).map response)
    (by intro x hx; obtain ⟨p, hp, rfl⟩ := List.mem_map.1 hx; exact (hnn p hp).2.2.1) hr
    (by rw [hlen]; exact hn24)
  rw [hlen] at e1 e2 e3
  rw [hm, e1, e2, e3]

theorem fcfs_runs_in_arrival_order_witness :
    (tieAtZero.map Process.pid).Nodup ∧
    (fcfsIter_f32 tieAtZero tieAtZero.length).processes
      = fcfsTimeline 0 (qsort compareByArrival tieAtZero) ∧
    (fcfsTimeline 0 (qsort compareByArrival tieAtZero)).map (fun p => (p.pid, turnaround p))
      = [(1, 4), (2, 6)] ∧
    (fcfs_metrics_f32 tieAtZero).avgTurnaround = some 5 := by
  have h := fcfs_runs_in_arrival_order tieAtZero (by decide)
  refine ⟨by decide, h.2.2.2.1, by decide, ?_⟩
  rw [h.2.2.2.2.2 (by decide) (by decide)]
  have e : (fcfsTimeline 0 (qsort compareByArrival tieAtZero)).map turnaround = [4, 6] := by
    decide
  have e5 : ((4 : Int) + (6 + 0) : ℚ) / ((2 : Nat) : ℚ) = ((5 : Int) : ℚ) := by norm_num
  simp only [e, mean, List.sum_cons, List.sum_nil, List.length_cons, List.length_nil]
  norm_num
  have := f32q_small 5 (by decide) (by decide)
  simpa using this

/-- C6, counterexample.  On two processes arriving at `0` with bursts `16777216`
and `1` the turnaround times are `16777216` and `16777217` and their arithmetic
mean is `33554433 / 2`, but `fcfs_metrics` returns `avgTurnaround = 16777216`: the
second turnaround time is rounded to `16777216` when it is added to the `float`
total. -/
theorem fcfs_avg_is_not_the_mean :
    (fcfsTimeline 0 (qsort compareByArrival bigPair)).map turnaround = [16777216, 16777217] ∧
    mean ((fcfsTimeline 0 (qsort compareByArrival bigPair)).map turnaround)
      = some (33554433 / 2) ∧
    (fcfsIter_f32 bigPair bigPair.length).totalTurnaround = 33554432 ∧
    (fcfs_metrics_f32 bigPair).avgTurnaround = some 16777216 ∧
    (fcfs_metrics_f32 bigPair).avgTurnaround
      ≠ mean ((fcfsTimeline 0 (qsort compareByArrival bigPair)).map turnaround) := by
  have e : (fcfsTimeline 0 (qsort compareByArrival bigPair)).map turnaround
      = [16777216, 16777217] := by decide
  have t : (fcfsIter_f32 bigPair bigPair.length).totalTurnaround = 33554432 := by decide
  have m : mean ([16777216, 16777217] : List Int) = some (33554433 / 2) := by
    simp only [mean, List.sum_cons, List.sum_nil, List.length_cons, List.length_nil]
    norm_num
  have a : (fcfs_metrics_f32 bigPair).avgTurnaround = some 16777216 := by
    show fdiv_f32 (fcfsIter_f32 bigPair bigPair.length).totalTurnaround bigPair.length = _
    rw [t]
    have l2 : bigPair.length = 2 := rfl
    rw [l2, fdiv_f32_eq _ _ (by decide) (by decide)]
    have e2 : ((33554432 : Int) : ℚ) / ((2 : Nat) : ℚ) = ((16777216 : Int) : ℚ) := by norm_num
    rw [e2, f32q_small 16777216 (by decide) (by decide)]
    norm_num
  refine ⟨e, by rw [e, m], t, a, ?_⟩
  rw [a, e, m]
  norm_num

/-! ## A single process -/

theorem fcfsIter_single (p : Process) (ha : 0 ≤ p.arrivalTime) :
    (fcfsIter [p] 1).totalTurnaround = p.burstTime ∧ (fcfsIter [p] 1).totalWaiting = 0 ∧
    (fcfsIter [p] 1).totalResponse = 0 := by
  simp only [fcfsIter, List.range_succ, List.range_zero, List.nil_append, List.foldl_cons,
    List.foldl_nil, fcfsBody, dispatch, bumpClock, initLoop, qsort, qsortInsert, nth,
    List.getD_cons_zero]
  split_ifs <;> refine ⟨?_, ?_, ?_⟩ <;> omega

theorem sjfIter_single (p : Process) (ha : 0 ≤ p.arrivalTime) :
    (sjfIter [p] 1).totalTurnaround = p.burstTime ∧ (sjfIter [p] 1).totalWaiting = 0 ∧
    (sjfIter [p] 1).totalResponse = 0 := by
  have h := sjf_single p ha
  have hb : ∀ x : Int, fdiv x 1 = some (x : ℚ) := by intro x; simp [fdiv]
  simp only [sjf_metrics, averages, singleMetrics, List.length_singleton, hb,
    Metrics.mk.injEq, Option.some.injEq] at h
  obtain ⟨h1, h2, h3⟩ := h
  exact ⟨by exact_mod_cast h1, by exact_mod_cast h2, by exact_mod_cast h3⟩

theorem averages_f32_single (st : LoopState) (b : Int) (h0 : 0 < b) (h24 : b ≤ 2 ^ 24)
    (h : st.totalTurnaround = b ∧ st.totalWaiting = 0 ∧ st.totalResponse = 0) :
    averages_f32 st 1 = singleMetrics b := by
  obtain ⟨h1, h2, h3⟩ := h
  unfold averages_f32 singleMetrics
  rw [h1, h2, h3, fdiv_f32_one b (by omega) h24, fdiv_f32_one 0 (le_refl _) (by decide)]
  simp

/-- C9, as amended.  For a single process with arrival time `a ≥ 0` and burst time
`0 < b ≤ 2 ^ 24` (the range in which the C type `float` holds every integer),
`fcfs_metrics`, `sjf_metrics` and `rr_metrics` with any quantum of at least `1`
all return `avgTurnaround = b`, `avgWaiting = 0` and `avgResponse = 0`.  For
`rr_metrics` the main loop ends within `b` passes, and whatever amount of fuel
yields a record, it is this one. -/
theorem single_process_metrics (p : Process) (ha : 0 ≤ p.arrivalTime) (hb : 0 < p.burstTime)
    (hb24 : p.burstTime ≤ 2 ^ 24) (timeQuantum : Int) (hq : 1 ≤ timeQuantum) :
    fcfs_metrics_f32 [p] = singleMetrics p.burstTime ∧
    sjf_metrics_f32 [p] = singleMetrics p.burstTime ∧
    rr_metrics_f32 p.burstTime.toNat [p] timeQuantum = some (singleMetrics p.burstTime) ∧
    ∀ fuel m, rr_metrics_f32 fuel [p] timeQuantum = some m → m = singleMetrics p.burstTime := by
  have hb0 : ∀ x ∈ [p], 0 ≤ x.burstTime := by
    intro x hx
    have : x = p := by simpa using hx
    rw [this]; omega
  have hv : Valid [p] := by
    refine ⟨by simp, fun x hx => ?_⟩
    have : x = p := by simpa using hx
    rw [this]; exact ⟨ha, hb⟩
  have f1 := fcfsIter_single p ha
  have s1 := sjfIter_single p ha
  have hz : (0 : Int) ≤ 0 ∧ (0 : Int) ≤ 2 ^ 24 := ⟨le_refl _, by norm_num⟩
  have fs : TotalsSmall (fcfsIter [p] [p].length) := by
    show TotalsSmall (fcfsIter [p] 1)
    unfold TotalsSmall
    rw [f1.1, f1.2.1, f1.2.2]
    exact ⟨⟨le_of_lt hb, hb24⟩, hz, hz⟩
  have ss : TotalsSmall (sjfIter [p] [p].length) := by
    show TotalsSmall (sjfIter [p] 1)
    unfold TotalsSmall
    rw [s1.1, s1.2.1, s1.2.2]
    exact ⟨⟨le_of_lt hb, hb24⟩, hz, hz⟩
  have rs : RRTotalsSmall (singleFinal p) := ⟨⟨le_of_lt hb, hb24⟩, hz, hz⟩
  have hrun := rr_f32_eq [p] hv (by simp) timeQuantum hq _ _
    (rrLoop_single p ha hb timeQuantum hq) rs
  have hm : ∀ fuel, rrLoop_f32 1 timeQuantum fuel (rrInit [p]) = some (singleFinal p) →
      rr_metrics_f32 fuel [p] timeQuantum = some (singleMetrics p.burstTime) := by
    intro fuel h
    unfold rr_metrics_f32
    rw [List.length_singleton, h]
    show some _ = some _
    congr 1
    show ({ avgTurnaround := fdiv_f32 p.burstTime 1, avgWaiting := fdiv_f32 0 1,
            avgResponse := fdiv_f32 0 1 } : Metrics) = _
    rw [fdiv_f32_one _ (le_of_lt hb) hb24, fdiv_f32_one 0 (le_refl _) (by decide)]
    simp [singleMetrics]
  refine ⟨?_, ?_, hm _ hrun, ?_⟩
  · unfold fcfs_metrics_f32
    rw [List.length_singleton, fcfsIter_f32_eq [p] hb0 fs 1 (le_refl _)]
    exact averages_f32_single _ _ hb hb24 f1
  · unfold sjf_metrics_f32
    rw [List.length_singleton, sjfIter_f32_eq [p] hb0 ss 1 (le_refl _)]
    exact averages_f32_single _ _ hb hb24 s1
  · intro fuel m h
    have hbig := rrLoop_f32_mono 1 timeQuantum _ _ _ hrun (max fuel p.burstTime.toNat)
      (le_max_right _ _)
    cases hl : rrLoop_f32 1 timeQuantum fuel (rrInit [p]) with
    | none => simp [rr_metrics_f32, hl] at h
    | some final =>
      have := rrLoop_f32_mono 1 timeQuantum _ _ _ hl (max fuel p.burstTime.toNat)
        (le_max_left _ _)
      rw [hbig] at this
      have e : final = singleFinal p := (Option.some.inj this).symm
      rw [e] at hl
      rw [hm fuel hl] at h
      exact (Option.some.inj h).symm

theorem single_process_metrics_witness :
    ((0 : Int) ≤ (mkProc 1 0 5).arrivalTime ∧ 0 < (mkProc 1 0 5).burstTime ∧
      (mkProc 1 0 5).burstTime ≤ 2 ^ 24 ∧ (1 : Int) ≤ 2 ∧ (1 : Int) ≤ 7) ∧
    fcfs_metrics_f32 [mkProc 1 0 5] = singleMetrics 5 ∧
    sjf_metrics_f32 [mkProc 1 0 5] = singleMetrics 5 ∧
    rr_metrics_f32 5 [mkProc 1 0 5] 2 = some (singleMetrics 5) ∧
    rr_metrics_f32 5 [mkProc 1 0 5] 7 = some (singleMetrics 5) ∧
    singleMetrics 5 = { avgTurnaround := some 5, avgWaiting := some 0, avgResponse := some 0 } :=
  have h2 := single_process_metrics (mkProc 1 0 5) (by decide) (by decide) (by decide) 2
    (by decide)
  have h7 := single_process_metrics (mkProc 1 0 5) (by decide) (by decide) (by decide) 7
    (by decide)
  ⟨⟨by decide, by decide, by decide, by decide, by decide⟩, h2.1, h2.2.1, h2.2.2.1, h7.2.2.1,
    by simp [singleMetrics]⟩

/-- C9, counterexample.  For the single process with arrival `0` and burst
`16777217` the three engines return `avgTurnaround = 16777216`, not the burst
time: the turnaround time `16777217` is rounded when it is added to the `float`
total. -/
theorem single_process_big_burst :
    (fcfs_metrics_f32 bigBurst).avgTurnaround = some 16777216 ∧
    (sjf_metrics_f32 bigBurst).avgTurnaround = some 16777216 ∧
    (rr_metrics_f32 2 bigBurst 16777217).map Metrics.avgTurnaround = some (some 16777216) ∧
    (fcfs_metrics_f32 bigBurst).avgTurnaround ≠ (singleMetrics 16777217).avgTurnaround := by
  have q : fdiv_f32 16777216 1 = some 16777216 := by
    rw [fdiv_f32_one 16777216 (by decide) (by decide)]
    norm_num
  have t1 : (fcfsIter_f32 bigBurst bigBurst.length).totalTurnaround = 16777216 := by decide
  have t2 : (sjfIter_f32 bigBurst bigBurst.length).totalTurnaround = 16777216 := by decide
  have t3 : (rrLoop_f32 bigBurst.length 16777217 2 (rrInit bigBurst)).map
      RRState.totalTurnaroundTime = some 16777216 := by decide
  have a1 : (fcfs_metrics_f32 bigBurst).avgTurnaround = some 16777216 := by
    show fdiv_f32 (fcfsIter_f32 bigBurst bigBurst.length).totalTurnaround 1 = _
    rw [t1, q]
  refine ⟨a1, ?_, ?_, ?_⟩
  · show fdiv_f32 (sjfIter_f32 bigBurst bigBurst.length).totalTurnaround 1 = _
    rw [t2, q]
  · unfold rr_metrics_f32
    cases h : rrLoop_f32 bigBurst.length 16777217 2 (rrInit bigBurst) with
    | none => rw [h] at t3; cases t3
    | some final =>
      rw [h] at t3
      have e : final.totalTurnaroundTime = 16777216 := by simpa using t3
      show some (fdiv_f32 final.totalTurnaroundTime 1) = _
      rw [e, q]
  · rw [a1]
    simp only [singleMetrics]
    norm_num

end Scheduler
